import Mathlib

/-!
# Verification of the grammar-extraction module of disco-dop

A shallow embedding of discodop/grammar.py: LCFRS production extraction,
PLCFRS induction, the Goodman-style DOP reduction (relative-frequency and
EWE estimators, plain and packed-graph decoration), and the Double-DOP
grammar assembler, together with theorems settling the specification
claims about them.

Trees ("Tree" objects with integer or word leaves) are modelled by the
mutual inductive types PT/PTs; sentences by lists of optional words
(None placeholders for frontier positions).  Dictionaries are modelled
by insertion-ordered association lists, and Python's occasional reliance
on Python-2 mixed-type comparisons (bool vs. str sort keys) by an
explicit sum type with the Python-2 ordering.  Weights are exact
rationals.
-/

/-! ## Generic list helpers -/

/-- Stable insertion of a into a sorted list: a is placed before the first
element b that does not come strictly before a. With a strict "comes
before" relation this yields a stable sort. -/
def insertStrict {α : Type} (lt : α → α → Bool) (a : α) : List α → List α
  | [] => [a]
  | b :: l => if lt b a then b :: insertStrict lt a l else a :: b :: l

/-- Stable sort (models Python's sorted with a key function; lt compares
keys strictly, so ties keep their original relative order). -/
def sortStable {α : Type} (lt : α → α → Bool) : List α → List α
  | [] => []
  | a :: l => insertStrict lt a (sortStable lt l)

def pyDedupAux {α : Type} [DecidableEq α] (seen : List α) : List α → List α
  | [] => []
  | a :: l => if a ∈ seen then pyDedupAux seen l else a :: pyDedupAux (seen ++ [a]) l

/-- Distinct elements of a list in order of first occurrence (models the
iteration order of a Python dict / Counter built by repeated insertion). -/
def pyDedup {α : Type} [DecidableEq α] (l : List α) : List α :=
  pyDedupAux [] l

/-- cartpi from grammar.py: cartesian product of a sequence of lists,
recursing on the last list, as in
cartpi(seq) = (b + (a,) for b in cartpi(seq[:-1]) for a in seq[-1]),
here expressed by structural recursion on the reversed sequence. -/
def cartpiRev {α : Type} : List (List α) → List (List α)
  | [] => [[]]
  | last :: front => (cartpiRev front).flatMap (fun b => last.map (fun a => b ++ [a]))

def cartpi {α : Type} (seq : List (List α)) : List (List α) :=
  cartpiRev seq.reverse

/-! ## String helpers -/

/-- Python's test '@' in z on a label. -/
def hasAt (s : String) : Bool := s.data.any (fun c => c = '@')

def listHasSep : List Char → Bool
  | c1 :: c2 :: rest => (c1 = '}' && c2 = '<') || listHasSep (c2 :: rest)
  | _ => false

/-- Python's test '}<' in z on a label (the reserved binarization marker). -/
def hasSep (s : String) : Bool := listHasSep s.data

/-- The decorated label "%s@%d-%d" % (label, n, ids) used by the DOP
reduction's decoration pass. -/
def decLabel (s : String) (n i : Nat) : String :=
  s ++ "@" ++ Nat.repr n ++ "-" ++ Nat.repr i

/-- Decimal digit list of a natural number, most significant first
(proof-side companion of Nat.repr). -/
def natDigs (n : Nat) : List Char :=
  if n < 10 then [Nat.digitChar n]
  else natDigs (n / 10) ++ [Nat.digitChar (n % 10)]
decreasing_by
  exact Nat.div_lt_self (by omega) (by omega)

/-- Numeric value of a digit character (proof-side inverse of
Nat.digitChar on digits). -/
def digVal (c : Char) : Nat :=
  if c = '0' then 0 else if c = '1' then 1 else if c = '2' then 2
  else if c = '3' then 3 else if c = '4' then 4 else if c = '5' then 5
  else if c = '6' then 6 else if c = '7' then 7 else if c = '8' then 8
  else if c = '9' then 9 else 0

def digsVal (l : List Char) : Nat := l.foldl (fun a c => a * 10 + digVal c) 0

/-! ## Trees

Python Tree objects: a labelled node whose children are trees or bare
leaves; leaves are normally sentence indices (integers), but malformed
input can put other values (modelled as strings) in leaf position. -/

inductive LV : Type
  | ival (i : Int)
  | sval (s : String)
deriving DecidableEq

mutual

inductive PT : Type
  | leaf (v : LV)
  | node (label : String) (children : PTs)
deriving DecidableEq

inductive PTs : Type
  | nil
  | cons (c : PT) (cs : PTs)
deriving DecidableEq

end

def PTs.ofList : List PT → PTs
  | [] => .nil
  | c :: cs => .cons c (PTs.ofList cs)

def PTs.toList : PTs → List PT
  | .nil => []
  | .cons c cs => c :: cs.toList

/-- Convenience constructor: a node from a list of children. -/
def PT.mkNode (l : String) (cs : List PT) : PT := .node l (.ofList cs)

/-- Leaf with a (nonnegative) sentence index. -/
def PT.idx (i : Int) : PT := .leaf (.ival i)

def PT.labelOf : PT → String
  | .leaf _ => ""
  | .node l _ => l

def PT.childrenOf : PT → List PT
  | .leaf _ => []
  | .node _ cs => cs.toList

def PT.isNode : PT → Bool
  | .leaf _ => false
  | .node _ _ => true

mutual

/-- Tree.leaves(): all non-Tree children, left to right. -/
def PT.leavesLV : PT → List LV
  | .leaf v => [v]
  | .node _ cs => cs.leavesLV

def PTs.leavesLV : PTs → List LV
  | .nil => []
  | .cons c cs => c.leavesLV ++ cs.leavesLV

end

mutual

/-- Tree.subtrees(): all Tree subtrees in preorder (the node itself
first, then the subtrees of each child left to right). -/
def PT.subtreesPT : PT → List PT
  | .leaf _ => []
  | .node l cs => .node l cs :: cs.subtreesPT

def PTs.subtreesPT : PTs → List PT
  | .nil => []
  | .cons c cs => c.subtreesPT ++ cs.subtreesPT

end

mutual

/-- Number of Tree nodes (length of the subtree list). -/
def PT.numNodes : PT → Nat
  | .leaf _ => 0
  | .node _ cs => 1 + cs.numNodes

def PTs.numNodes : PTs → Nat
  | .nil => 0
  | .cons c cs => c.numNodes + cs.numNodes

end

/-! ## LCFRS productions -/

/-- A sentence: one entry per position, none marking a placeholder
(frontier position without a word). -/
abbrev Sent := List (Option String)

/-- The second component of a production: either a yield function (a
tuple of tuples of argument indices) or, for a lexical production, the
one-element tuple holding the word. -/
inductive Yf : Type
  | comps (cs : List (List Nat))
  | lex (w : String)
deriving DecidableEq

/-- A production: the nonterminal tuple (LHS first) and the yield
function / word tuple. -/
abbrev Prod' := List String × Yf

def headLab (r : List String) : String := r.headD ""

/-- The failure modes of lcfrs_productions: the four input assertions,
the two explicit ValueErrors, and the uncaught IndexError raised by
popping from an empty index list (an internal node dominating no
indices). Validation errors carry the offending tree and sentence,
mirroring the messages in the source. -/
inductive PErr : Type
  | assertUniq (t : PT) (leaves : List LV)
  | assertSent (t : PT) (leaves : List LV) (s : Sent)
  | assertInt (t : PT) (leaves : List LV) (s : Sent)
  | assertRange (t : PT) (leaves : List LV) (s : Sent)
  | emptyNode (t : PT) (leaves : List LV) (s : Sent)
  | neitherNode (c : PT)
  | popEmpty
deriving DecidableEq

instance {ε α : Type} [DecidableEq ε] [DecidableEq α] : DecidableEq (Except ε α) := fun a b =>
  match a, b with
  | .ok x, .ok y =>
    if h : x = y then .isTrue (by rw [h]) else .isFalse (by intro hc; cases hc; exact h rfl)
  | .error x, .error y =>
    if h : x = y then .isTrue (by rw [h]) else .isFalse (by intro hc; cases hc; exact h rfl)
  | .ok _, .error _ => .isFalse (by intro hc; cases hc)
  | .error _, .ok _ => .isFalse (by intro hc; cases hc)

/-- Append the child index p to the last component of the yield function
under construction (yf[-1].append(parent)). -/
def appendLast (p : Nat) : List (List Nat) → List (List Nat)
  | [] => [[p]]
  | [y] => [y ++ [p]]
  | y :: ys => y :: appendLast p ys

/-- The scanning loop of lcfrs_productions over (index, child) pairs in
increasing index order: an index discontinuity opens a new component; a
child change within a contiguous range appends a new argument slot to
the current component; otherwise the current slot absorbs the index. -/
def scanGo (yf : List (List Nat)) (previdx : Int) (prevparent : Nat) :
    List (Int × Nat) → List (List Nat)
  | [] => yf
  | (idx, parent) :: rest =>
    if idx ≠ previdx + 1 then scanGo (yf ++ [[parent]]) idx parent rest
    else if parent ≠ prevparent then scanGo (appendLast parent yf) idx parent rest
    else scanGo yf idx parent rest

def scanYF (p : Int × Nat) (rest : List (Int × Nat)) : List (List Nat) :=
  scanGo [[p.2]] p.1 p.2 rest

/-- The (index, contributing-child) pairs of an internal node: for child
number n, one pair per integer leaf below it. (Non-integer leaves cannot
occur here: they are rejected by the assertions before any node is
processed.) -/
def nodePairs (children : List PT) : List (Int × Nat) :=
  (children.enum.flatMap (fun (n, c) =>
    c.leavesLV.filterMap (fun v =>
      match v with
      | .ival i => some (i, n)
      | .sval _ => none)))

/-- Pairs sorted by increasing index. The source sorts descending
(stably) and then pops from the end, which processes the pairs in
increasing index order; index ties are impossible because leaf indices
are asserted unique. -/
def sortedNodePairs (children : List PT) : List (Int × Nat) :=
  sortStable (fun a b => a.1 < b.1) (nodePairs children)

/-- One iteration of the subtree loop of lcfrs_productions: either a
production, none for a silently skipped subtree, or an error. -/
def prodOfSubtree (t : PT) (leaves : List LV) (sent : Sent) (frontiers : Bool)
    (st : PT) : Except PErr (Option Prod') :=
  match st with
  | .leaf _ => .ok none
  | .node l cs =>
    match cs.toList with
    | [] => .error (.emptyNode t leaves sent)
    | c0 :: rest =>
      match c0 with
      | .leaf (.ival i) =>
        if rest = [] ∧ (sent.getD i.toNat none) ≠ none then
          .ok (some ([l, "Epsilon"], .lex ((sent.getD i.toNat none).getD "")))
        else if frontiers then
          .ok (some ([l], .comps []))
        else
          .ok none
      | .leaf (.sval s) => .error (.neitherNode (.leaf (.sval s)))
      | .node l0 cs0 =>
        if (c0 :: rest).all PT.isNode then
          match sortedNodePairs (c0 :: rest) with
          | [] => .error .popEmpty
          | p :: ps =>
            .ok (some (l :: (c0 :: rest).map PT.labelOf, .comps (scanYF p ps)))
        else .error (.neitherNode (.node l0 cs0))

def prodsLoop (t : PT) (leaves : List LV) (sent : Sent) (frontiers : Bool) :
    List PT → Except PErr (List Prod')
  | [] => .ok []
  | st :: rest =>
    match prodOfSubtree t leaves sent frontiers st with
    | .error e => .error e
    | .ok none => prodsLoop t leaves sent frontiers rest
    | .ok (some r) =>
      match prodsLoop t leaves sent frontiers rest with
      | .error e => .error e
      | .ok rs => .ok (r :: rs)

/-- lcfrs_productions from grammar.py: the four input assertions, then
one production per surviving subtree in preorder. -/
def lcfrs_productions (t : PT) (sent : Sent) (frontiers : Bool := false) :
    Except PErr (List Prod') :=
  let leaves := t.leavesLV
  if ¬ leaves.Nodup then .error (.assertUniq t leaves)
  else if sent = [] then .error (.assertSent t leaves sent)
  else if ¬ leaves.all (fun v => match v with | .ival _ => true | .sval _ => false) then
    .error (.assertInt t leaves sent)
  else if ¬ leaves.all (fun v => match v with
      | .ival i => 0 ≤ i && i < sent.length
      | .sval _ => false) then
    .error (.assertRange t leaves sent)
  else prodsLoop t leaves sent frontiers t.subtreesPT

/-! ## PLCFRS induction -/

/-- Sum of the counts of all rules sharing the given LHS (the lhsfd
dictionary of induce_plcfrs). -/
def lhsfdOf (items : List (Prod' × Nat)) (L : String) : Nat :=
  ((items.filter (fun pf => headLab pf.1.1 = L)).map (fun pf => pf.2)).sum

/-- induce_plcfrs from grammar.py: count every production of every tree,
then divide each count by the total count of its LHS. -/
def induce_plcfrs (trees : List PT) (sents : List Sent) :
    Except PErr (List (Prod' × ℚ)) := do
  let prodlists ← (trees.zip sents).mapM (fun ts => lcfrs_productions ts.1 ts.2 false)
  let allprods := prodlists.flatten
  let items := (pyDedup allprods).map (fun p => (p, allprods.count p))
  return items.map (fun pf => (pf.1, (pf.2 : ℚ) / (lhsfdOf items (headLab pf.1.1) : ℚ)))

/-! ## Decoration with occurrence identifiers -/

mutual

/-- Decoration of one subtree: the node takes the incoming counter value
as its identifier, its descendants the following values in preorder. -/
def PT.decoT (n : Nat) : PT → Nat → PT × Nat
  | .leaf v => fun c => (.leaf v, c)
  | .node l cs => fun c =>
    let r := PTs.decoL n cs (c + 1)
    (.node (decLabel l n c) r.1, r.2)

def PTs.decoL (n : Nat) : PTs → Nat → PTs × Nat
  | .nil => fun c => (.nil, c)
  | .cons t ts => fun c =>
    let r := PT.decoT n t c
    let r2 := PTs.decoL n ts r.2
    (.cons r.1 r2.1, r2.2)

end

/-- decorate_with_ids from grammar.py: append "@n-i" to the label of
every non-root node, i counting the non-root subtrees in preorder. -/
def decorate_with_ids (n : Nat) (t : PT) : PT :=
  match t with
  | .leaf v => .leaf v
  | .node l cs => .node l (PTs.decoL n cs 0).1

/-! ## Subtree counting (nodefreq) -/

/-- A frequency dictionary (defaultdict(int)). -/
abbrev FD := String → Nat

def bump (fd : FD) (k : String) (v : Nat) : FD :=
  fun z => if z = k then fd z + v else fd z

mutual

/-- nodefreq from grammar.py, with the two dictionaries threaded through
explicitly; returns the number of subtrees headed by the node. The
leaf/mismatch fallbacks are unreachable: nodefreq is only applied to
tree pairs produced by decorate_with_ids after lcfrs_productions
succeeded. -/
def nodefreqT : PT → PT → FD → FD → Nat × FD × FD
  | .node l cs, .node ul ucs => fun fd ntfd =>
    let ntfd1 := bump (bump ntfd l 1) ul 1
    let r :=
      match cs.toList.head? with
      | some (.node _ _) => PTs.nodefreqL cs ucs fd ntfd1
      | _ => (1, fd, ntfd1)
    let fd1 := bump r.2.1 l r.1
    let fd2 := if ul ≠ l then bump fd1 ul r.1 else fd1
    (r.1, fd2, r.2.2)
  | _, _ => fun fd ntfd => (1, fd, ntfd)

/-- The product over child pairs of (child count + 1). -/
def PTs.nodefreqL : PTs → PTs → FD → FD → Nat × FD × FD
  | .cons t ts, .cons ut uts => fun fd ntfd =>
    let r := nodefreqT t ut fd ntfd
    let r2 := PTs.nodefreqL ts uts r.2.1 r.2.2
    ((r.1 + 1) * r2.1, r2.2)
  | _, _ => fun fd ntfd => (1, fd, ntfd)

end

/-! ## Packed-graph decoration (decorate_with_ids_mem) -/

/-- The module-level mutable state of the packed-graph decoration: the
packed_graph_ids counter and the packedgraphs cache (a dictionary keyed
by trees-with-sentence up to eqtree equality, in insertion order). -/
structure PGState where
  pgIds : Nat
  cache : List ((PT × Sent) × PT)
deriving DecidableEq

mutual

/-- eqtree from grammar.py: equality of discontinuous trees relative to
their sentences (labels, arity, and per-leaf words must agree). -/
def eqtreeT (s1 s2 : Sent) : PT → PT → Bool
  | .node l1 cs1, .node l2 cs2 => l1 == l2 && eqtreeL s1 s2 cs1 cs2
  | .leaf (.ival i1), .leaf (.ival i2) =>
    (s1.getD i1.toNat none) == (s2.getD i2.toNat none)
  | .leaf (.sval w1), .leaf (.sval w2) => w1 == w2
  | _, _ => false

def eqtreeL (s1 s2 : Sent) : PTs → PTs → Bool
  | .nil, .nil => true
  | .cons c1 r1, .cons c2 r2 => eqtreeT s1 s2 c1 c2 && eqtreeL s1 s2 r1 r2
  | _, _ => false

end

def cacheLookup (cache : List ((PT × Sent) × PT)) (t : PT) (sent : Sent) :
    Option PT :=
  match cache with
  | [] => none
  | ((kt, ks), v) :: rest =>
    if eqtreeT sent ks t kt then some v else cacheLookup rest t sent

mutual

/-- Modelled from the spec (the tree module's string rendering is not
part of the given sources): the bracketed serialization used when the
packed-graph decoration embeds the subtree into the new label. -/
def PT.strPT : PT → String
  | .leaf (.ival i) => i.repr
  | .leaf (.sval s) => s
  | .node l cs => "(" ++ l ++ " " ++ PTs.strL cs ++ ")"

def PTs.strL : PTs → String
  | .nil => ""
  | .cons c .nil => c.strPT
  | .cons c cs => c.strPT ++ " " ++ PTs.strL cs

end

mutual

/-- copyexceptindices from grammar.py: labels from the second tree,
leaves from the first. -/
def cei : PT → PT → PT
  | .leaf v, _ => .leaf v
  | .node _ cs, .node l2 cs2 => .node l2 (ceiL cs cs2)
  | .node l cs, .leaf _ => .node l cs

def ceiL : PTs → PTs → PTs
  | .cons c1 r1, .cons c2 r2 => .cons (cei c1 c2) (ceiL r1 r2)
  | _, _ => .nil

end

mutual

/-- recursive_decorate from decorate_with_ids_mem: on a cache miss the
counter is incremented, the node is relabelled with its own rendering
plus "@n-counter", the children are decorated recursively and the
result is cached; on a hit the cached labels are reused with the
occurrence's own leaf indices. -/
def recDec (n : Nat) (sent : Sent) : PT → PGState → PT × PGState
  | .leaf v => fun st => (.leaf v, st)
  | .node l cs => fun st =>
    match cacheLookup st.cache (.node l cs) sent with
    | some v => (cei (.node l cs) v, st)
    | none =>
      let pg1 := st.pgIds + 1
      let nl := PT.strPT (.node l cs) ++ "@" ++ Nat.repr n ++ "-" ++ Nat.repr pg1
      let r := recDecL n sent cs ⟨pg1, st.cache⟩
      let dec := PT.node nl r.1
      (dec, ⟨r.2.pgIds, r.2.cache ++ [((.node l cs, sent), dec)]⟩)

def recDecL (n : Nat) (sent : Sent) : PTs → PGState → PTs × PGState
  | .nil => fun st => (.nil, st)
  | .cons t ts => fun st =>
    let r := recDec n sent t st
    let r2 := recDecL n sent ts r.2
    (.cons r.1 r2.1, r2.2)

end

/-- decorate_with_ids_mem from grammar.py: the packed_graph_ids counter
is reset to 0, the root keeps its label, and every other node is
decorated through the cache. -/
def decorate_with_ids_mem (n : Nat) (t : PT) (sent : Sent) (st : PGState) :
    PT × PGState :=
  let st0 : PGState := ⟨0, st.cache⟩
  match t with
  | .leaf v => (.leaf v, st0)
  | .node l cs =>
    let r := recDecL n sent cs st0
    (.node l r.1, r.2)

/-! ## DOP reduction -/

inductive DopErr : Type
  | prodErr (e : PErr)
  | varMismatch
deriving DecidableEq

/-- The per-position generalization options of a plain/decorated label
pair: [(x,) if x == y else (x, y) for x, y in zip(a, b)]. -/
def genOptions (a b : List String) : List (List String) :=
  List.zipWith (fun x y => if x = y then [x] else [x, y]) a b

/-- All generalizations of a decorated production against its plain
form: the cartesian product over the per-position options. -/
def genLabels (a b : List String) : List (List String) :=
  cartpi (genOptions a b)

/-- The occurrence-table keys contributed by one plain/decorated
production pair. -/
def genKeysPair (a b : Prod') : List Prod' :=
  (genLabels a.1 b.1).map (fun c => (c, a.2))

/-- The keys contributed by the zipped plain and decorated production
lists, with the lock-step yield-function assertion of dopreduction. -/
def dopPairKeys : List Prod' → List Prod' → Except DopErr (List Prod')
  | a :: as', b :: bs => do
    if a.2 = b.2 then
      return genKeysPair a b ++ (← dopPairKeys as' bs)
    else
      throw .varMismatch
  | _, _ => .ok []

/-- The corpus loop of dopreduction: per tree, extract plain and
decorated productions, accumulate nodefreq counts, and collect the
generalized occurrence-table keys in order. -/
def dopCollect (packedgraph : Bool) :
    Nat → List PT → List Sent → FD → FD → List Prod' → PGState →
    Except DopErr (FD × FD × List Prod') × PGState
  | n, t :: trees, s :: sents, fd, ntfd, keys, gst =>
    match lcfrs_productions t s false with
    | .error e => (.error (.prodErr e), gst)
    | .ok prods =>
      let ug := if packedgraph then decorate_with_ids_mem n t s gst
                else (decorate_with_ids n t, gst)
      match lcfrs_productions ug.1 s false with
      | .error e => (.error (.prodErr e), ug.2)
      | .ok uprods =>
        let r := nodefreqT t ug.1 fd ntfd
        match dopPairKeys prods uprods with
        | .error e => (.error e, ug.2)
        | .ok newkeys =>
          dopCollect packedgraph (n + 1) trees sents r.2.1 r.2.2
            (keys ++ newkeys) ug.2
  | _, _, _, fd, ntfd, keys, gst => (.ok (fd, ntfd, keys), gst)

/-- The Python-2 value of the sort key
rule[0][0][1] == 'Epsilon' and rule[0][1][0]: the boolean False for a
non-lexical rule, the rule's word for a lexical one. -/
inductive SKey : Type
  | bval (b : Bool)
  | sval (s : String)
deriving DecidableEq

/-- Python-2 ordering on such keys: booleans (as numbers) sort before
strings. -/
def skLt : SKey → SKey → Bool
  | .bval a, .bval b => !a && b
  | .bval _, .sval _ => true
  | .sval _, .bval _ => false
  | .sval a, .sval b => a < b

def dopSortKey (p : Prod') : SKey :=
  match p.1.get? 1, p.2 with
  | some "Epsilon", .lex w => .sval w
  | _, _ => .bval false

/-- rfe from dopreduction: the relative frequency estimate. -/
def rfe (fd : FD) (item : Prod' × Nat) : Prod' × ℚ :=
  let r := item.1.1
  (item.1,
    ((if r.any hasAt then 1 else (item.2 : ℚ)) *
      ((r.tail.filter hasAt).map (fun z => (fd z : ℚ))).prod) /
    (fd (headLab r) : ℚ))

/-- bodewe from dopreduction: the equal weights estimate of
Bod (2003, figure 3). -/
def bodewe (fd ntfd : FD) (item : Prod' × Nat) : Prod' × ℚ :=
  let r := item.1.1
  (item.1,
    ((if hasAt (headLab r) then 1 else (item.2 : ℚ)) *
      ((r.tail.filter hasAt).map (fun z => (fd z : ℚ))).prod) /
    ((fd (headLab r) : ℚ) *
      (if ¬ hasAt (headLab r) then (ntfd (headLab r) : ℚ) else 1)))

/-- dopreduction from grammar.py. The module-level packed-graph state is
threaded explicitly; the plain variant ignores it. After the corpus
loop the occurrence table is read off in insertion order, sorted with
lexical rules last (by word), and weighted by rfe or bodewe. -/
def dopreduction (trees : List PT) (sents : List Sent)
    (ewe : Bool := false) (packedgraph : Bool := false)
    (gst : PGState := ⟨0, []⟩) :
    Except DopErr (List (Prod' × ℚ)) × PGState :=
  match dopCollect packedgraph 0 trees sents (fun _ => 0) (fun _ => 0) [] gst with
  | (.error e, g) => (.error e, g)
  | (.ok (fd, ntfd, keys), g) =>
    let g' := if packedgraph then ⟨g.pgIds, []⟩ else g
    let items := (pyDedup keys).map (fun k => (k, keys.count k))
    let sorted := sortStable (fun x y => skLt (dopSortKey x.1) (dopSortKey y.1)) items
    (.ok (if ewe then sorted.map (bodewe fd ntfd) else sorted.map (rfe fd)), g')

/-! ## UniqueIDs -/

/-- UniqueIDs from grammar.py: a counter usable both as an iterator
(never re-using a value) and as a keyed table (re-using the value
assigned to a key). -/
structure UniqueIDs (K : Type) where
  cnt : Nat
  ids : List (K × Nat)
deriving DecidableEq

def UniqueIDs.initU {K : Type} : UniqueIDs K := ⟨0, []⟩

/-- ids[key]: return the stored ID, or assign the next available one. -/
def UniqueIDs.getitem {K : Type} [DecidableEq K] (s : UniqueIDs K) (k : K) :
    Nat × UniqueIDs K :=
  match s.ids.lookup k with
  | some v => (v, s)
  | none => (s.cnt, ⟨s.cnt + 1, s.ids ++ [(k, s.cnt)]⟩)

/-- next(ids): return the next available ID and advance the counter. -/
def UniqueIDs.nextU {K : Type} (s : UniqueIDs K) : Nat × UniqueIDs K :=
  (s.cnt, ⟨s.cnt + 1, s.ids⟩)

/-! ## Double-DOP -/

/-- The value attached to a fragment: a raw frequency, or (for the EWE
estimate) the per-source-tree index counts. -/
inductive FragVal : Type
  | freqVal (n : Nat)
  | idxVal (entries : List (Nat × Nat))
deriving DecidableEq

/-- Insertion-ordered dictionary update: overwriting keeps the original
position, a new key is appended. -/
def odInsert {κ β : Type} [DecidableEq κ] (l : List (κ × β)) (k : κ) (v : β) :
    List (κ × β) :=
  match l with
  | [] => [(k, v)]
  | (k', v') :: rest =>
    if k' = k then (k', v) :: rest else (k', v') :: odInsert rest k v

def numComps : Yf → Nat
  | .comps cs => cs.length
  | .lex _ => 1

/-- The number of occurrences of argument 0 in a yield function: the
fan-out of the first RHS nonterminal, as computed in doubledop by
tuple((0,) for component in prod[1] for a in component if a == 0). -/
def countZeros : Yf → Nat
  | .comps cs => (cs.flatMap id).countP (fun a => a = 0)
  | .lex _ => 0

/-- The total number of fragments extracted from each source tree
(the fragmentcount index built for the EWE estimate). -/
def fragmentcountOf {α : Type} (fragments : List (α × FragVal)) (k : Nat) : Nat :=
  (fragments.map (fun fv =>
    match fv.2 with
    | .freqVal _ => 0
    | .idxVal entries =>
      ((entries.filter (fun e => e.1 = k)).map (fun e => e.2)).sum)).sum

/-- getprob from doubledop: the EWE mass (Sangati and Zuidema 2011,
eq. 5) or the raw frequency. The cross cases are unreachable: with ewe
the fragment values are index tables, without it they are counts. -/
def getprob {α : Type} (fragments : List (α × FragVal)) (ewe : Bool)
    (v : FragVal) : ℚ :=
  if ewe then
    match v with
    | .idxVal entries =>
      (entries.map (fun e => (e.2 : ℚ) / (fragmentcountOf fragments e.1 : ℚ))).sum
    | .freqVal _ => 0
  else
    match v with
    | .freqVal n => (n : ℚ)
    | .idxVal _ => 0

/-- The fragment loop of doubledop. flattenF stands for the flatten
function (its implementation lives in the tree-transform module, outside
the given sources); it returns the binarized productions of a fragment
together with its reconstruction template, threading the shared ID
source. Note that on a head-production collision the source splices in
prod1 and prod2 but then still keys both the grammar mass and the
backtransform by the original head production prod, and updates the
grammar only with prods[1:]. -/
def ddLoop {α : Type} [DecidableEq α] (fragments : List (α × FragVal))
    (flattenF : α → UniqueIDs String → (List Prod' × String) × UniqueIDs String)
    (ewe : Bool) :
    List (α × FragVal) → List (Prod' × ℚ) → List (Prod' × String) →
    UniqueIDs String → List (Prod' × ℚ) × List (Prod' × String) × UniqueIDs String
  | [], grammar, bt, ids => (grammar, bt, ids)
  | (frag, v) :: rest, grammar, bt, ids =>
    let fr := flattenF frag ids
    let ids1 := fr.2
    match fr.1.1 with
    | [] => ddLoop fragments flattenF ewe rest grammar bt ids1
    | p :: ptail =>
      if p.1.getD 1 "" = "Epsilon" then
        ddLoop fragments flattenF ewe rest
          (odInsert grammar p (getprob fragments ewe v)) bt ids1
      else
        let collide := (bt.lookup p).isSome
        let pr :=
          if collide then
            let ni := ids1.nextU
            let newlabel := headLab p.1 ++ "\x7d<" ++ Nat.repr ni.1 ++ ">" ++
              (if numComps p.2 = 1 then "" else "_" ++ Nat.repr (numComps p.2))
            let prod1 : Prod' := (headLab p.1 :: newlabel :: p.1.drop 2, p.2)
            let prod2 : Prod' :=
              ([newlabel, p.1.getD 1 ""], .comps (List.replicate (countZeros p.2) [0]))
            (prod1 :: prod2 :: ptail, ni.2)
          else (p :: ptail, ids1)
        let grammar1 := odInsert grammar p (getprob fragments ewe v)
        let grammar2 := pr.1.tail.foldl (fun g q => odInsert g q 1) grammar1
        ddLoop fragments flattenF ewe rest grammar2 (odInsert bt p fr.1.2) pr.2

/-- Python sequence comparison: strict lexicographic order on lists,
with a proper prefix sorting before its extensions, parameterized by
the element comparison. -/
def pyListLt {α : Type} [DecidableEq α] (ltE : α → α → Bool) :
    List α → List α → Bool
  | [], [] => false
  | [], _ :: _ => true
  | _ :: _, [] => false
  | a :: as', b :: bs => if a = b then pyListLt ltE as' bs else ltE a b

/-- Strict lexicographic order on label tuples (Python tuple-of-string
comparison). -/
def ltLabels : List String → List String → Bool :=
  pyListLt (fun a b => a < b)

def ltNatList : List Nat → List Nat → Bool :=
  pyListLt (fun a b => a < b)

def ltNatLists : List (List Nat) → List (List Nat) → Bool :=
  pyListLt ltNatList

/-- Python-2 comparison of yield-function values: strings sort before
tuples, else componentwise. -/
def ltYf : Yf → Yf → Bool
  | .lex a, .lex b => a < b
  | .lex _, .comps _ => true
  | .comps _, .lex _ => false
  | .comps a, .comps b => ltNatLists a b

/-- Python comparison of the grammar entries ((labels, yf), weight)
used as the final tie-breaking sort key component. -/
def ltEntry (x y : Prod' × ℚ) : Bool :=
  if x.1.1 = y.1.1 then
    (if x.1.2 = y.1.2 then x.2 < y.2 else ltYf x.1.2 y.1.2)
  else ltLabels x.1.1 y.1.1

/-- The full doubledop sort key comparison: lexical rules last grouped
by word, then binarization continuations (reserved marker in the LHS)
after fragment heads, then the entry itself. -/
def ddLt (x y : Prod' × ℚ) : Bool :=
  if dopSortKey x.1 = dopSortKey y.1 then
    (if hasSep (headLab x.1.1) = hasSep (headLab y.1.1) then ltEntry x y
     else !(hasSep (headLab x.1.1)) && hasSep (headLab y.1.1))
  else skLt (dopSortKey x.1) (dopSortKey y.1)

/-- The weight-free part of the doubledop tie-breaking comparison: the
label tuple, then the yield function (the weight component of the sort
key is only reached between entries with identical rules). -/
def ltProdT (x y : Prod') : Bool :=
  if x.1 = y.1 then (if x.2 = y.2 then false else ltYf x.2 y.2)
  else ltLabels x.1 y.1

/-- The doubledop cluster order on bare productions: lexical rules
last grouped by word, then binarization continuations (reserved
separator in the LHS) after fragment heads, then the production tuple
itself. -/
def pkLt (x y : Prod') : Bool :=
  if dopSortKey x = dopSortKey y then
    (if hasSep (headLab x.1) = hasSep (headLab y.1) then ltProdT x y
     else !(hasSep (headLab x.1)) && hasSep (headLab y.1))
  else skLt (dopSortKey x) (dopSortKey y)

/-- Sum of the accumulated masses of all rules sharing the given LHS
(the ntfd dictionary of doubledop). -/
def ntfdQOf (items : List (Prod' × ℚ)) (L : String) : ℚ :=
  ((items.filter (fun e => headLab e.1.1 = L)).map (fun e => e.2)).sum

/-- doubledop from grammar.py, parameterized by the external flatten
function. Returns the sorted, normalized grammar and the backtransform
keyed by final rule position. -/
def doubledop {α : Type} [DecidableEq α] (fragments : List (α × FragVal))
    (flattenF : α → UniqueIDs String → (List Prod' × String) × UniqueIDs String)
    (ewe : Bool := false) :
    List (Prod' × ℚ) × List (Nat × String) :=
  let r := ddLoop fragments flattenF ewe fragments [] [] UniqueIDs.initU
  let sorted := sortStable ddLt r.1
  let bt := sorted.enum.filterMap (fun ne =>
    (r.2.1.lookup ne.2.1).map (fun tmpl => (ne.1, tmpl)))
  let final := sorted.map (fun e => (e.1, e.2 / ntfdQOf sorted (headLab e.1.1)))
  (final, bt)

/-! ## Claim-side definitions (statement devices)

Definitions below formalize predicates and alternative readings used in
the claim statements; they are not part of the embedded source. -/

/-- Operations on a UniqueIDs instance: next() or a key lookup. -/
inductive IdOp (K : Type) : Type
  | nextOp
  | keyOp (k : K)
deriving DecidableEq

/-- One UniqueIDs operation, recording (operation, returned ID, whether
the event was fresh: a next() call or a first lookup of an unseen key). -/
def idStep {K : Type} [DecidableEq K] (op : IdOp K) (s : UniqueIDs K) :
    (IdOp K × Nat × Bool) × UniqueIDs K :=
  match op with
  | .nextOp =>
    let r := s.nextU
    ((.nextOp, r.1, true), r.2)
  | .keyOp k =>
    let fresh := (s.ids.lookup k).isNone
    let r := s.getitem k
    ((.keyOp k, r.1, fresh), r.2)

/-- Run an interleaved sequence of operations, recording all events. -/
def runOps {K : Type} [DecidableEq K] :
    List (IdOp K) → UniqueIDs K → List (IdOp K × Nat × Bool) × UniqueIDs K
  | [], s => ([], s)
  | op :: rest, s =>
    let r := idStep op s
    let r2 := runOps rest r.2
    (r.1 :: r2.1, r2.2)

/-- The yield-function scan as claim C2 words it: a change of
contributing child without a contiguity break starts a NEW COMPONENT
(instead of a new slot in the current component). -/
def claimScanGo (yf : List (List Nat)) (previdx : Int) (prevparent : Nat) :
    List (Int × Nat) → List (List Nat)
  | [] => yf
  | (idx, parent) :: rest =>
    if idx ≠ previdx + 1 then claimScanGo (yf ++ [[parent]]) idx parent rest
    else if parent ≠ prevparent then claimScanGo (yf ++ [[parent]]) idx parent rest
    else claimScanGo yf idx parent rest

def claimScanYF (p : Int × Nat) (rest : List (Int × Nat)) : List (List Nat) :=
  claimScanGo [[p.2]] p.1 p.2 rest

/-- Maximal runs of contiguous indices: a chunk break occurs exactly
where the next index is not the previous plus one. -/
def chunkGo (cur : List (Int × Nat)) (previdx : Int) :
    List (Int × Nat) → List (List (Int × Nat))
  | [] => [cur]
  | (idx, parent) :: rest =>
    if idx ≠ previdx + 1 then cur :: chunkGo [(idx, parent)] idx rest
    else chunkGo (cur ++ [(idx, parent)]) idx rest

def chunkRuns (p : Int × Nat) (rest : List (Int × Nat)) : List (List (Int × Nat)) :=
  chunkGo [p] p.1 rest

/-- Collapse adjacent duplicates (the contributing-child sequence of one
contiguous run, one slot per maximal child block). -/
def collapseAdj : List Nat → List Nat
  | [] => []
  | [a] => [a]
  | a :: b :: rest => if a = b then collapseAdj (b :: rest) else a :: collapseAdj (b :: rest)

def PTs.isNil : PTs → Bool
  | .nil => true
  | .cons _ _ => false

mutual

/-- Well-formed treebank trees (the shape dopreduction is run on): every
subtree is either a preterminal dominating a single in-range index whose
sentence position holds a word, or an internal node with at least one
child, all of which are subtrees. -/
def PT.wfT (sent : Sent) : PT → Bool
  | .leaf _ => false
  | .node _ cs =>
    match cs with
    | .cons (.leaf (.ival i)) .nil =>
      decide (0 ≤ i) && decide (i < (sent.length : Int)) &&
        (sent.getD i.toNat none).isSome
    | _ => (!cs.isNil) && cs.wfL sent

def PTs.wfL (sent : Sent) : PTs → Bool
  | .nil => true
  | .cons c cs => c.isNode && c.wfT sent && cs.wfL sent

end

/-- Success condition of the subtree loop for one subtree: children
present, and for an all-subtree children list at least one dominated
index (otherwise the scan pops from an empty list); a leaf-first
children list never errors here (non-integer leaves are already rejected
by the assertions). -/
def goodSubtree (st : PT) : Bool :=
  match st with
  | .leaf _ => true
  | .node _ cs =>
    match cs.toList with
    | [] => false
    | c0 :: rest =>
      match c0 with
      | .leaf _ => true
      | .node _ _ =>
        (c0 :: rest).all PT.isNode && !(sortedNodePairs (c0 :: rest)).isEmpty

/-- The exact domain of lcfrs_productions: unique integer leaf indices
pointing into a nonempty sentence, and no subtree that is empty, mixes
subtree children with non-subtree children (with a subtree first), or
dominates no index at all. -/
def goodInput (t : PT) (sent : Sent) : Bool :=
  decide t.leavesLV.Nodup && decide (sent ≠ []) &&
    t.leavesLV.all (fun v => match v with | .ival _ => true | .sval _ => false) &&
    t.leavesLV.all (fun v => match v with
      | .ival i => 0 ≤ i && i < sent.length
      | .sval _ => false) &&
    t.subtreesPT.all goodSubtree

/-- Sum of the weights of all grammar rules sharing the given LHS. -/
def sumW (g : List (Prod' × ℚ)) (L : String) : ℚ :=
  ((g.filter (fun e => headLab e.1.1 = L)).map (fun e => e.2)).sum

/-- The grammar part of a dopreduction result (empty on error). -/
def grammarOf (r : Except DopErr (List (Prod' × ℚ)) × PGState) : List (Prod' × ℚ) :=
  match r.1 with
  | .ok g => g
  | .error _ => []

/-- The subtree-count dictionary accumulated by a dopreduction corpus
pass (zero function on error). -/
def collectFd (r : Except DopErr (FD × FD × List Prod') × PGState) : FD :=
  match r.1 with
  | .ok v => v.1
  | .error _ => fun _ => 0

def collectNtfd (r : Except DopErr (FD × FD × List Prod') × PGState) : FD :=
  match r.1 with
  | .ok v => v.2.1
  | .error _ => fun _ => 0

/-- The occurrence-table increment list of a dopreduction corpus pass. -/
def collectKeys (r : Except DopErr (FD × FD × List Prod') × PGState) : List Prod' :=
  match r.1 with
  | .ok v => v.2.2
  | .error _ => []

/-- The initial state of a plain dopreduction corpus pass. -/
def dopRun (trees : List PT) (sents : List Sent) :
    Except DopErr (FD × FD × List Prod') × PGState :=
  dopCollect false 0 trees sents (fun _ => 0) (fun _ => 0) [] ⟨0, []⟩

/-- The plain form of a possibly decorated label: the prefix before the
first decoration marker. -/
def stripAt (s : String) : String :=
  ⟨s.data.takeWhile (fun c => c ≠ '@')⟩

/-- The relative-frequency weight formula as the claim words it: the
raw occurrence count (or 1 if any RHS label is still decorated) times
the product of the subtree-counts of the still-decorated RHS labels,
divided by the subtree-count of the PLAIN (undecorated) form of the
LHS label. Stated from the claim for comparison with rfe. -/
def claimedRfe (fd : FD) (item : Prod' × Nat) : ℚ :=
  let r := item.1.1
  ((if r.tail.any hasAt then 1 else (item.2 : ℚ)) *
    ((r.tail.filter hasAt).map (fun z => (fd z : ℚ))).prod) /
  (fd (stripAt (headLab r)) : ℚ)

/-! ## Proof scaffolding for the DOP reduction normalization -/

mutual

/-- The number of subtrees headed by a node, as nodefreq computes it:
the product over the children of (count + 1) when the first child is a
node, and 1 otherwise. -/
def PT.nsubt : PT → Nat
  | .leaf _ => 1
  | .node _ cs =>
    match cs.toList.head? with
    | some (.node _ _) => cs.nsubtL
    | _ => 1

def PTs.nsubtL : PTs → Nat
  | .nil => 1
  | .cons t ts => (t.nsubt + 1) * ts.nsubtL

end

mutual

/-- Node subtrees in preorder, paired with the identifier that the
decoration pass assigns when started at the given counter. -/
def PT.subIds : PT → Nat → List (PT × Nat)
  | .leaf _ => fun _ => []
  | .node l cs => fun c => (.node l cs, c) :: cs.subIdsL (c + 1)

def PTs.subIdsL : PTs → Nat → List (PT × Nat)
  | .nil => fun _ => []
  | .cons t ts => fun c => t.subIds c ++ ts.subIdsL (c + t.numNodes)

end

/-- The children of a node paired with the identifier each child's own
subtree receives from the decoration counter. -/
def PTs.childIds : PTs → Nat → List (PT × Nat)
  | .nil => fun _ => []
  | .cons t ts => fun c => (t, c) :: ts.childIds (c + t.numNodes)

/-- The node shapes on which the DOP reduction is faithful: every node
either has a single integer-leaf child whose word is present (a proper
preterminal), or has only node children. -/
def goodDopSub (s : Sent) : PT → Bool
  | .leaf _ => true
  | .node _ cs =>
    match cs.toList with
    | [.leaf (.ival i)] => decide ((s.getD i.toNat none) ≠ none)
    | [] => false
    | c0 :: rest => (c0 :: rest).all PT.isNode

/-- A corpus tree acceptable to the DOP reduction: valid for
lcfrs_productions, well-shaped at every node, and free of the
decoration marker. -/
def goodDopTree (t : PT) (s : Sent) : Bool :=
  goodInput t s && t.subtreesPT.all (goodDopSub s) &&
    t.subtreesPT.all (fun st => !hasAt st.labelOf)

/-- The yield function of an internal node (statement device,
mirroring the scan of lcfrs_productions). -/
def yfOf (cl : List PT) : Yf :=
  .comps (match sortedNodePairs cl with | [] => [] | p :: ps => scanYF p ps)

/-- The production of a well-shaped node subtree (statement device). -/
def plainProd (s : Sent) (st : PT) : Prod' :=
  match st.childrenOf with
  | [.leaf (.ival i)] =>
    ([st.labelOf, "Epsilon"], .lex ((s.getD i.toNat none).getD ""))
  | cl => (st.labelOf :: cl.map PT.labelOf, yfOf cl)

/-- The decorated production of a well-shaped node subtree, given its
decorated head label and the counter from which its children are
numbered (statement device). -/
def decProd (nn : Nat) (s : Sent) (hd : String) (cbase : Nat) : PT → Prod'
  | .leaf _ => ([], .comps [])
  | .node _ cs =>
    match cs.toList with
    | [.leaf (.ival i)] =>
      ([hd, "Epsilon"], .lex ((s.getD i.toNat none).getD ""))
    | cl => (hd :: (cs.childIds cbase).map
        (fun p => decLabel p.1.labelOf nn p.2), yfOf cl)

/-- The aligned (plain, decorated) production pairs of a corpus tree
under decoration index nn (statement device): the root keeps its label
and its children are numbered from 0; every other node is numbered by
its preorder identifier. -/
def treePairs (nn : Nat) (s : Sent) : PT → List (Prod' × Prod')
  | .leaf _ => []
  | .node l cs =>
    (plainProd s (.node l cs), decProd nn s l 0 (.node l cs)) ::
    (cs.subIdsL 0).map (fun stc =>
      (plainProd s stc.1,
        decProd nn s (decLabel stc.1.labelOf nn stc.2) (stc.2 + 1) stc.1))

/-- Lexicographic two-stage comparison: compare by a key, breaking key
ties with an inner comparison (statement device: the doubledop sort
comparisons are nested instances of this shape). -/
def ifLex {α κ : Type} [DecidableEq κ] (key : α → κ) (ltK : κ → κ → Bool)
    (inner : α → α → Bool) (x y : α) : Bool :=
  if key x = key y then inner x y else ltK (key x) (key y)

/-- The per-label factor of the Goodman sum: the subtree count for a
decorated label, 1 for a plain one (statement device). -/
def gQ (fd : FD) (z : String) : ℚ := if hasAt z then (fd z : ℚ) else 1

/-- The decorated-tail product of an occurrence-table key (statement
device): the product of the subtree counts of its decorated RHS
labels. -/
def prodG (fd : FD) (k : Prod') : ℚ := (k.1.tail.map (gQ fd)).prod

/-- The Goodman sum of the keys with a given head label (statement
device). -/
def keysSum (fd : FD) (keys : List Prod') (L : String) : ℚ :=
  ((keys.filter (fun k => headLab k.1 = L)).map (prodG fd)).sum

/-- The (plain, decorated) production pair of a non-root subtree entry
(statement device). -/
def dpair (nn : Nat) (s : Sent) (stc : PT × Nat) : Prod' × Prod' :=
  (plainProd s stc.1,
    decProd nn s (decLabel stc.1.labelOf nn stc.2) (stc.2 + 1) stc.1)

/-- The occurrence-table keys contributed by one corpus tree
(statement device). -/
def treeKeys (nn : Nat) (s : Sent) (t : PT) : List Prod' :=
  (treePairs nn s t).flatMap (fun p => genKeysPair p.1 p.2)

/-- The subtree-count increments recorded for one non-root subtree
entry: its count at its plain label and again at its decorated label
(statement device). -/
def fdEntry (nn : Nat) (L : String) (p : PT × Nat) : Nat :=
  p.1.nsubt * ((if p.1.labelOf = L then 1 else 0) +
    (if decLabel p.1.labelOf nn p.2 = L then 1 else 0))

/-- The subtree-count increments contributed by one decorated subtree
(statement device). -/
def fdSub (nn : Nat) (st : PT) (c : Nat) (L : String) : Nat :=
  ((st.subIds c).map (fdEntry nn L)).sum

def fdSubL (nn : Nat) (cs : PTs) (c : Nat) (L : String) : Nat :=
  ((cs.subIdsL c).map (fdEntry nn L)).sum

/-- The subtree-count increments contributed by one corpus tree: the
root, which keeps its label, is counted only once (statement
device). -/
def fdTree (nn : Nat) (t : PT) (L : String) : Nat :=
  match t with
  | .leaf _ => 0
  | .node l cs =>
    (PT.node l cs).nsubt * (if l = L then 1 else 0) + fdSubL nn cs 0 L

/-- The subtree counts accumulated over a corpus (statement device). -/
def fdCorpus : Nat → List PT → List Sent → FD
  | n, t :: ts, s :: ss => fun L => fdTree n t L + fdCorpus (n + 1) ts ss L
  | _, _, _ => fun _ => 0

/-- The occurrence keys accumulated over a corpus (statement
device). -/
def keysCorpus : Nat → List PT → List Sent → List Prod'
  | n, t :: ts, s :: ss => treeKeys n s t ++ keysCorpus (n + 1) ts ss
  | _, _, _ => []

/-- The occurrence keys contributed by a non-root subtree entry and
everything below it / by a child forest (statement device). -/
def keysBelow (nn : Nat) (s : Sent) (t : PT) (c : Nat) : List Prod' :=
  (t.subIds c).flatMap (fun p =>
    genKeysPair (dpair nn s p).1 (dpair nn s p).2)

def keysBelowL (nn : Nat) (s : Sent) (cs : PTs) (c : Nat) : List Prod' :=
  (cs.subIdsL c).flatMap (fun p =>
    genKeysPair (dpair nn s p).1 (dpair nn s p).2)

/-- The non-root subtree entries of a corpus tree (statement device). -/
def treeEntries : PT → List (PT × Nat)
  | .leaf _ => []
  | .node _ cs => cs.subIdsL 0

/-- All non-root subtree entries of a corpus, paired with their tree
index (statement device). -/
def entriesCorpus : Nat → List PT → List Sent → List (Nat × (PT × Nat))
  | n, t :: ts, _ :: ss =>
    (treeEntries t).map (fun p => (n, p)) ++ entriesCorpus (n + 1) ts ss
  | _, _, _ => []

/-! ## Basic lemmas: trees, lists, dictionaries -/

theorem PTs.indPTs (motive : PTs → Prop) (hnil : motive .nil)
    (hcons : ∀ c cs, motive cs → motive (.cons c cs)) : ∀ cs, motive cs := by
  intro cs
  induction cs using PTs.rec (motive_1 := fun _ => True) with
  | leaf v => trivial
  | node l cs ih => trivial
  | nil => exact hnil
  | cons c cs ihc ihcs => exact hcons c cs ihcs

theorem PT.indPT (motive : PT → Prop)
    (hleaf : ∀ v, motive (.leaf v))
    (hnode : ∀ l cs, (∀ c ∈ cs.toList, motive c) → motive (.node l cs)) :
    ∀ t, motive t := by
  intro t
  induction t using PT.rec (motive_2 := fun cs => ∀ c ∈ cs.toList, motive c) with
  | leaf v => exact hleaf v
  | node l cs ih => exact hnode l cs ih
  | nil =>
    rename_i c hc
    exact absurd hc (List.not_mem_nil c)
  | cons c cs ihc ihcs =>
    rename_i d hd
    rcases List.mem_cons.mp hd with h | h
    · exact h ▸ ihc
    · exact ihcs _ h

theorem PTs.toList_ofList (l : List PT) : (PTs.ofList l).toList = l := by
  induction l with
  | nil => rfl
  | cons c cs ih => simp [PTs.ofList, PTs.toList, ih]

theorem PTs.leavesLV_toList (cs : PTs) :
    cs.leavesLV = cs.toList.flatMap PT.leavesLV := by
  induction cs using PTs.indPTs with
  | hnil => rfl
  | hcons c cs ih => simp [PTs.leavesLV, PTs.toList, ih]

theorem PT.leavesLV_node (l : String) (cs : PTs) :
    (PT.node l cs).leavesLV = cs.toList.flatMap PT.leavesLV := by
  rw [PT.leavesLV, PTs.leavesLV_toList]

theorem PTs.subtreesPT_toList (cs : PTs) :
    cs.subtreesPT = cs.toList.flatMap PT.subtreesPT := by
  induction cs using PTs.indPTs with
  | hnil => rfl
  | hcons c cs ih => simp [PTs.subtreesPT, PTs.toList, ih]

theorem PT.subtreesPT_node (l : String) (cs : PTs) :
    (PT.node l cs).subtreesPT = PT.node l cs :: cs.toList.flatMap PT.subtreesPT := by
  rw [PT.subtreesPT, PTs.subtreesPT_toList]

theorem PTs.numNodes_toList (cs : PTs) :
    cs.numNodes = (cs.toList.map PT.numNodes).sum := by
  induction cs using PTs.indPTs with
  | hnil => rfl
  | hcons c cs ih => simp [PTs.numNodes, PTs.toList, ih]

theorem lookupAppend {K β : Type} [DecidableEq K] (l1 l2 : List (K × β)) (k : K) :
    (l1 ++ l2).lookup k =
      match l1.lookup k with
      | some v => some v
      | none => l2.lookup k := by
  induction l1 with
  | nil => rfl
  | cons a l1 ih =>
    obtain ⟨k1, v1⟩ := a
    by_cases h : k = k1
    · subst h
      simp [List.lookup]
    · have hbeq : (k == k1) = false := beq_eq_false_iff_ne.mpr h
      simp only [List.cons_append, List.lookup, hbeq]
      exact ih

theorem pairwiseLtInj {β : Type} (f : β → Nat) :
    ∀ (l : List β), l.Pairwise (fun x y => f x < f y) →
      ∀ a ∈ l, ∀ b ∈ l, f a = f b → a = b := by
  intro l hl
  induction hl with
  | nil => intro a ha; exact absurd ha (List.not_mem_nil a)
  | cons hx _ ih =>
    intro a ha b hb hfab
    rcases List.mem_cons.mp ha with rfl | ha' <;> rcases List.mem_cons.mp hb with rfl | hb'
    · rfl
    · exact absurd hfab (Nat.ne_of_lt (hx b hb'))
    · exact absurd hfab.symm (Nat.ne_of_lt (hx a ha'))
    · exact ih a ha' b hb' hfab

/-! ## UniqueIDs: run specification -/

theorem runOpsSpec {K : Type} [DecidableEq K] :
    ∀ (ops : List (IdOp K)) (s : UniqueIDs K),
      (∀ k v, s.ids.lookup k = some v → v < s.cnt) →
      (∀ k v, (runOps ops s).2.ids.lookup k = some v → v < (runOps ops s).2.cnt) ∧
      s.cnt ≤ (runOps ops s).2.cnt ∧
      (∀ k v, s.ids.lookup k = some v → (runOps ops s).2.ids.lookup k = some v) ∧
      (∀ k v, (runOps ops s).2.ids.lookup k = some v →
        s.ids.lookup k = some v ∨ (IdOp.keyOp k, v, true) ∈ (runOps ops s).1) ∧
      (∀ e ∈ (runOps ops s).1, e.2.2 = true →
        s.cnt ≤ e.2.1 ∧ e.2.1 < (runOps ops s).2.cnt) ∧
      (∀ e ∈ (runOps ops s).1, ∀ k, e.1 = IdOp.keyOp k →
        (runOps ops s).2.ids.lookup k = some e.2.1) ∧
      (∀ e ∈ (runOps ops s).1, e.1 = IdOp.nextOp → e.2.2 = true) ∧
      ((runOps ops s).1.filter (fun e => e.2.2)).Pairwise
        (fun e1 e2 => e1.2.1 < e2.2.1) := by
  intro ops
  induction ops with
  | nil =>
    intro s hs
    refine ⟨hs, Nat.le_refl _, fun k v h => h, fun k v h => .inl h, ?_, ?_, ?_, ?_⟩
    · intro e he; exact absurd he (List.not_mem_nil e)
    · intro e he; exact absurd he (List.not_mem_nil e)
    · intro e he; exact absurd he (List.not_mem_nil e)
    · exact List.Pairwise.nil
  | cons op rest ih =>
    intro s hs
    match op with
    | .nextOp =>
      have hrun : runOps (IdOp.nextOp :: rest) s =
          ((IdOp.nextOp, s.cnt, true) :: (runOps rest ⟨s.cnt + 1, s.ids⟩).1,
            (runOps rest ⟨s.cnt + 1, s.ids⟩).2) := by
        simp [runOps, idStep, UniqueIDs.nextU]
      have hs' : ∀ k v, (⟨s.cnt + 1, s.ids⟩ : UniqueIDs K).ids.lookup k = some v →
          v < (⟨s.cnt + 1, s.ids⟩ : UniqueIDs K).cnt := by
        intro k v h
        exact Nat.lt_succ_of_lt (hs k v h)
      obtain ⟨i1, i2, i3, i4, i5, i6, i7, i8⟩ := ih ⟨s.cnt + 1, s.ids⟩ hs'
      rw [hrun]
      refine ⟨i1, Nat.le_of_succ_le i2, i3, ?_, ?_, ?_, ?_, ?_⟩
      · intro k v h
        rcases i4 k v h with h' | h'
        · exact .inl h'
        · exact .inr (List.mem_cons_of_mem _ h')
      · intro e he hf
        rcases List.mem_cons.mp he with rfl | he'
        · exact ⟨Nat.le_refl _, Nat.lt_of_lt_of_le (Nat.lt_succ_self _) i2⟩
        · have := i5 e he' hf
          exact ⟨Nat.le_of_succ_le this.1, this.2⟩
      · intro e he k hk
        rcases List.mem_cons.mp he with rfl | he'
        · exact absurd hk (by simp)
        · exact i6 e he' k hk
      · intro e he hn
        rcases List.mem_cons.mp he with rfl | he'
        · rfl
        · exact i7 e he' hn
      · rw [List.filter_cons_of_pos (by rfl)]
        refine List.Pairwise.cons ?_ i8
        intro e he
        have he' := List.mem_of_mem_filter he
        have hf : e.2.2 = true := by
          have := List.of_mem_filter he
          simpa using this
        have := i5 e he' hf
        simp only at this ⊢
        omega
    | .keyOp k0 =>
      match hl : s.ids.lookup k0 with
      | some v0 =>
        have hrun : runOps (IdOp.keyOp k0 :: rest) s =
            ((IdOp.keyOp k0, v0, false) :: (runOps rest s).1, (runOps rest s).2) := by
          simp [runOps, idStep, UniqueIDs.getitem, hl]
        obtain ⟨i1, i2, i3, i4, i5, i6, i7, i8⟩ := ih s hs
        rw [hrun]
        refine ⟨i1, i2, i3, ?_, ?_, ?_, ?_, ?_⟩
        · intro k v h
          rcases i4 k v h with h' | h'
          · exact .inl h'
          · exact .inr (List.mem_cons_of_mem _ h')
        · intro e he hf
          rcases List.mem_cons.mp he with rfl | he'
          · exact absurd hf (by simp)
          · exact i5 e he' hf
        · intro e he k hk
          rcases List.mem_cons.mp he with rfl | he'
          · simp only at hk ⊢
            cases hk
            exact i3 k0 v0 hl
          · exact i6 e he' k hk
        · intro e he hn
          rcases List.mem_cons.mp he with rfl | he'
          · exact absurd hn (by simp)
          · exact i7 e he' hn
        · rw [List.filter_cons_of_neg (by simp)]
          exact i8
      | none =>
        have hrun : runOps (IdOp.keyOp k0 :: rest) s =
            ((IdOp.keyOp k0, s.cnt, true) ::
              (runOps rest ⟨s.cnt + 1, s.ids ++ [(k0, s.cnt)]⟩).1,
              (runOps rest ⟨s.cnt + 1, s.ids ++ [(k0, s.cnt)]⟩).2) := by
          simp [runOps, idStep, UniqueIDs.getitem, hl]
        have hlook : ∀ k v,
            (s.ids ++ [(k0, s.cnt)]).lookup k = some v →
            (k = k0 ∧ v = s.cnt ∧ s.ids.lookup k = none) ∨ s.ids.lookup k = some v := by
          intro k v h
          rw [lookupAppend] at h
          cases hx : s.ids.lookup k with
          | some w =>
            rw [hx] at h
            simp only [] at h
            exact .inr h
          | none =>
            rw [hx] at h
            simp only [] at h
            by_cases hk : k = k0
            · subst hk
              simp [List.lookup] at h
              exact .inl ⟨rfl, h.symm, rfl⟩
            · simp [List.lookup, beq_eq_false_iff_ne.mpr hk] at h
        have hs' : ∀ k v,
            (⟨s.cnt + 1, s.ids ++ [(k0, s.cnt)]⟩ : UniqueIDs K).ids.lookup k = some v →
            v < (⟨s.cnt + 1, s.ids ++ [(k0, s.cnt)]⟩ : UniqueIDs K).cnt := by
          intro k v h
          rcases hlook k v h with ⟨_, rfl, _⟩ | h'
          · exact Nat.lt_succ_self _
          · exact Nat.lt_succ_of_lt (hs k v h')
        obtain ⟨i1, i2, i3, i4, i5, i6, i7, i8⟩ :=
          ih ⟨s.cnt + 1, s.ids ++ [(k0, s.cnt)]⟩ hs'
        rw [hrun]
        have hmono : ∀ k v, s.ids.lookup k = some v →
            (s.ids ++ [(k0, s.cnt)]).lookup k = some v := by
          intro k v h
          rw [lookupAppend, h]
        refine ⟨i1, by simp only at i2 ⊢; omega, ?_, ?_, ?_, ?_, ?_, ?_⟩
        · intro k v h
          exact i3 k v (hmono k v h)
        · intro k v h
          rcases i4 k v h with h' | h'
          · rcases hlook k v h' with ⟨rfl, rfl, _⟩ | h''
            · exact .inr (List.mem_cons_self _ _)
            · exact .inl h''
          · exact .inr (List.mem_cons_of_mem _ h')
        · intro e he hf
          rcases List.mem_cons.mp he with rfl | he'
          · refine ⟨Nat.le_refl _, ?_⟩
            simp only at i2 ⊢
            omega
          · have := i5 e he' hf
            simp only at this ⊢
            omega
        · intro e he k hk
          rcases List.mem_cons.mp he with rfl | he'
          · simp only at hk ⊢
            cases hk
            refine i3 k0 s.cnt ?_
            rw [lookupAppend, hl]
            simp [List.lookup]
          · exact i6 e he' k hk
        · intro e he hn
          rcases List.mem_cons.mp he with rfl | he'
          · rfl
          · exact i7 e he' hn
        · rw [List.filter_cons_of_pos (by rfl)]
          refine List.Pairwise.cons ?_ i8
          intro e he
          have he' := List.mem_of_mem_filter he
          have hf : e.2.2 = true := by
            have := List.of_mem_filter he
            simpa using this
          have := i5 e he' hf
          simp only at this ⊢
          omega

/-- C10: for every UniqueIDs instance and every interleaved sequence of
next() calls and key lookups within one run: looking up the same key
twice returns the same ID; IDs issued at distinct fresh events (a next()
call or the first lookup of an unseen key) are pairwise distinct; no ID
returned by next() equals the ID assigned to any key; and no two
distinct keys share an ID. -/
theorem c10_unique_ids {K : Type} [DecidableEq K] (ops : List (IdOp K)) :
    (∀ e1 ∈ (runOps ops (UniqueIDs.initU : UniqueIDs K)).1,
      ∀ e2 ∈ (runOps ops (UniqueIDs.initU : UniqueIDs K)).1,
      ∀ k v1 b1 v2 b2, e1 = (.keyOp k, v1, b1) → e2 = (.keyOp k, v2, b2) → v1 = v2) ∧
    (((runOps ops (UniqueIDs.initU : UniqueIDs K)).1.filter
        (fun e => e.2.2)).map (fun e => e.2.1)).Nodup ∧
    (∀ e1 ∈ (runOps ops (UniqueIDs.initU : UniqueIDs K)).1,
      ∀ e2 ∈ (runOps ops (UniqueIDs.initU : UniqueIDs K)).1,
      ∀ v1 b1 k v2 b2, e1 = (.nextOp, v1, b1) → e2 = (.keyOp k, v2, b2) → v1 ≠ v2) ∧
    (∀ e1 ∈ (runOps ops (UniqueIDs.initU : UniqueIDs K)).1,
      ∀ e2 ∈ (runOps ops (UniqueIDs.initU : UniqueIDs K)).1,
      ∀ k1 v1 b1 k2 v2 b2, e1 = (.keyOp k1, v1, b1) → e2 = (.keyOp k2, v2, b2) →
        k1 ≠ k2 → v1 ≠ v2) := by
  have hinit : ∀ k v, (UniqueIDs.initU : UniqueIDs K).ids.lookup k = some v →
      v < (UniqueIDs.initU : UniqueIDs K).cnt := by
    intro k v h
    simp [UniqueIDs.initU, List.lookup] at h
  obtain ⟨_, _, _, i4, _, i6, i7, i8⟩ := runOpsSpec ops UniqueIDs.initU hinit
  have hfrom : ∀ k v,
      (runOps ops (UniqueIDs.initU : UniqueIDs K)).2.ids.lookup k = some v →
      (IdOp.keyOp k, v, true) ∈ (runOps ops (UniqueIDs.initU : UniqueIDs K)).1 := by
    intro k v h
    rcases i4 k v h with h' | h'
    · simp [UniqueIDs.initU, List.lookup] at h'
    · exact h'
  refine ⟨?_, ?_, ?_, ?_⟩
  · intro e1 he1 e2 he2 k v1 b1 v2 b2 h1 h2
    have l1 := i6 e1 he1 k (by rw [h1])
    have l2 := i6 e2 he2 k (by rw [h2])
    rw [h1] at l1
    rw [h2] at l2
    rw [l1] at l2
    exact (Option.some.injEq _ _).mp l2
  · exact List.Pairwise.map _ (fun a b h => Nat.ne_of_lt h) i8
  · intro e1 he1 e2 he2 v1 b1 k v2 b2 h1 h2 hv
    have hb1 : b1 = true := by
      have := i7 e1 he1 (by rw [h1])
      rw [h1] at this
      simpa using this
    subst hb1
    have l2 := i6 e2 he2 k (by rw [h2])
    rw [h2] at l2
    have he' := hfrom k v2 l2
    have m1 : e1 ∈ (runOps ops (UniqueIDs.initU : UniqueIDs K)).1.filter
        (fun e => e.2.2) := by
      rw [List.mem_filter]
      exact ⟨he1, by rw [h1]⟩
    have m2 : (IdOp.keyOp k, v2, true) ∈
        (runOps ops (UniqueIDs.initU : UniqueIDs K)).1.filter (fun e => e.2.2) := by
      rw [List.mem_filter]
      exact ⟨he', rfl⟩
    have := pairwiseLtInj (fun e => e.2.1) _ i8 e1 m1 (IdOp.keyOp k, v2, true) m2
      (by rw [h1]; exact hv)
    rw [h1] at this
    exact absurd (congrArg Prod.fst this) (by simp)
  · intro e1 he1 e2 he2 k1 v1 b1 k2 v2 b2 h1 h2 hk hv
    have l1 := i6 e1 he1 k1 (by rw [h1])
    have l2 := i6 e2 he2 k2 (by rw [h2])
    rw [h1] at l1
    rw [h2] at l2
    have m1 := hfrom k1 v1 l1
    have m2 := hfrom k2 v2 l2
    have f1 : (IdOp.keyOp k1, v1, true) ∈
        (runOps ops (UniqueIDs.initU : UniqueIDs K)).1.filter (fun e => e.2.2) :=
      List.mem_filter.mpr ⟨m1, rfl⟩
    have f2 : (IdOp.keyOp k2, v2, true) ∈
        (runOps ops (UniqueIDs.initU : UniqueIDs K)).1.filter (fun e => e.2.2) :=
      List.mem_filter.mpr ⟨m2, rfl⟩
    have := pairwiseLtInj (fun e => e.2.1) _ i8 _ f1 _ f2 hv
    have hk12 : IdOp.keyOp k1 = IdOp.keyOp (K := K) k2 := congrArg Prod.fst this
    exact hk (by injection hk12)

/-- Witness for C10 at the doctest run next(ids); ids[foo]; ids[bar];
ids[foo] (source doctest yields 0, (1, 2, 1)). -/
theorem c10_unique_ids_witness :
    (runOps [IdOp.nextOp, IdOp.keyOp "foo", IdOp.keyOp "bar", IdOp.keyOp "foo"]
      (UniqueIDs.initU : UniqueIDs String)).1 =
      [(.nextOp, 0, true), (.keyOp "foo", 1, true), (.keyOp "bar", 2, true),
        (.keyOp "foo", 1, false)] ∧ (1 : Nat) = 1 ∧ (0 : Nat) ≠ 1 ∧ (1 : Nat) ≠ 2 := by
  refine ⟨by decide, ?_, ?_, ?_⟩
  · exact (c10_unique_ids [IdOp.nextOp, IdOp.keyOp "foo", IdOp.keyOp "bar",
      IdOp.keyOp "foo"]).1 (.keyOp "foo", 1, true) (by decide)
      (.keyOp "foo", 1, false) (by decide) "foo" 1 true 1 false rfl rfl ▸ rfl
  · exact (c10_unique_ids [IdOp.nextOp, IdOp.keyOp "foo", IdOp.keyOp "bar",
      IdOp.keyOp "foo"]).2.2.1 (.nextOp, 0, true) (by decide)
      (.keyOp "foo", 1, true) (by decide) 0 true "foo" 1 true rfl rfl
  · exact (c10_unique_ids [IdOp.nextOp, IdOp.keyOp "foo", IdOp.keyOp "bar",
      IdOp.keyOp "foo"]).2.2.2 (.keyOp "foo", 1, true) (by decide)
      (.keyOp "bar", 2, true) (by decide) "foo" 1 true "bar" 2 true rfl rfl
      (by decide)

/-! ## Sorting lemmas -/

theorem insertStrict_perm {α : Type} (lt : α → α → Bool) (a : α) :
    ∀ l : List α, (insertStrict lt a l).Perm (a :: l) := by
  intro l
  induction l with
  | nil => exact List.Perm.refl _
  | cons b l ih =>
    rw [insertStrict]
    by_cases h : lt b a = true
    · rw [if_pos h]
      exact (List.Perm.cons b ih).trans (List.Perm.swap a b l)
    · rw [if_neg h]

theorem sortStable_perm {α : Type} (lt : α → α → Bool) :
    ∀ l : List α, (sortStable lt l).Perm l := by
  intro l
  induction l with
  | nil => exact List.Perm.refl _
  | cons a l ih =>
    rw [sortStable]
    exact (insertStrict_perm lt a _).trans (List.Perm.cons a ih)

theorem mem_insertStrict {α : Type} (lt : α → α → Bool) (a x : α) (l : List α) :
    x ∈ insertStrict lt a l ↔ x = a ∨ x ∈ l := by
  rw [(insertStrict_perm lt a l).mem_iff]
  simp

theorem insertStrict_pairwise {α : Type} (lt : α → α → Bool)
    (hT : ∀ a b c, lt a b = false → lt b c = false → lt a c = false)
    (hA : ∀ a b, lt a b = true → lt b a = false) (a : α) :
    ∀ l : List α, l.Pairwise (fun x y => lt y x = false) →
      (insertStrict lt a l).Pairwise (fun x y => lt y x = false) := by
  intro l
  induction l with
  | nil =>
    intro _
    exact List.pairwise_singleton _ a
  | cons b l ih =>
    intro hp
    obtain ⟨hb, hl⟩ := List.pairwise_cons.mp hp
    rw [insertStrict]
    by_cases h : lt b a = true
    · rw [if_pos h]
      refine List.pairwise_cons.mpr ⟨?_, ih hl⟩
      intro x hx
      rcases (mem_insertStrict lt a x l).mp hx with rfl | hx'
      · exact hA b x h
      · exact hb x hx'
    · rw [if_neg h]
      refine List.pairwise_cons.mpr ⟨?_, hp⟩
      intro x hx
      rcases List.mem_cons.mp hx with rfl | hx'
      · exact eq_false_of_ne_true h
      · exact hT x b a (hb x hx') (eq_false_of_ne_true h)

theorem sortStable_pairwise {α : Type} (lt : α → α → Bool)
    (hT : ∀ a b c, lt a b = false → lt b c = false → lt a c = false)
    (hA : ∀ a b, lt a b = true → lt b a = false) :
    ∀ l : List α, (sortStable lt l).Pairwise (fun x y => lt y x = false) := by
  intro l
  induction l with
  | nil => exact List.Pairwise.nil
  | cons a l ih =>
    rw [sortStable]
    exact insertStrict_pairwise lt hT hA a _ ih

/-! ## The yield-function scan (claim C2) -/

theorem appendLast_cons_cons (p : Nat) (y z : List Nat) (ys : List (List Nat)) :
    appendLast p (y :: z :: ys) = y :: appendLast p (z :: ys) := rfl

theorem collapseAdj_cons_cons (a b : Nat) (rest : List Nat) :
    collapseAdj (a :: b :: rest) =
      if a = b then collapseAdj (b :: rest) else a :: collapseAdj (b :: rest) := rfl

theorem appendLast_snoc (p : Nat) :
    ∀ (done : List (List Nat)) (y : List Nat),
      appendLast p (done ++ [y]) = done ++ [y ++ [p]] := by
  intro done
  induction done with
  | nil => intro y; rfl
  | cons d done ih =>
    intro y
    rcases done with _ | ⟨d2, done2⟩
    · rfl
    · simp only [List.cons_append] at ih ⊢
      rw [appendLast_cons_cons, ih]

theorem collapseAdj_snoc_ne : ∀ (xs : List Nat) (p last : Nat),
    xs.getLast? = some last → p ≠ last →
    collapseAdj (xs ++ [p]) = collapseAdj xs ++ [p] := by
  intro xs
  induction xs with
  | nil => intro p last h; cases h
  | cons a xs ih =>
    intro p last h hne
    rcases xs with _ | ⟨b, xs2⟩
    · simp at h
      subst h
      simp [collapseAdj, Ne.symm hne]
    · rw [List.getLast?_cons_cons] at h
      simp only [List.cons_append] at ih ⊢
      rw [collapseAdj_cons_cons, collapseAdj_cons_cons, ih p last h hne]
      by_cases hab : a = b
      · rw [if_pos hab, if_pos hab]
      · rw [if_neg hab, if_neg hab, List.cons_append]

theorem collapseAdj_snoc_eq : ∀ (xs : List Nat) (last : Nat),
    xs.getLast? = some last →
    collapseAdj (xs ++ [last]) = collapseAdj xs := by
  intro xs
  induction xs with
  | nil => intro last h; cases h
  | cons a xs ih =>
    intro last h
    rcases xs with _ | ⟨b, xs2⟩
    · simp at h
      subst h
      simp [collapseAdj]
    · rw [List.getLast?_cons_cons] at h
      simp only [List.cons_append] at ih ⊢
      rw [collapseAdj_cons_cons, collapseAdj_cons_cons, ih last h]

theorem scanChunkAux :
    ∀ (ps : List (Int × Nat)) (done : List (List Nat)) (cur : List (Int × Nat))
      (px : Int) (pp : Nat),
      (cur.map Prod.fst).getLast? = some px →
      (cur.map Prod.snd).getLast? = some pp →
      scanGo (done ++ [collapseAdj (cur.map Prod.snd)]) px pp ps =
        done ++ (chunkGo cur px ps).map (fun ch => collapseAdj (ch.map Prod.snd)) := by
  intro ps
  induction ps with
  | nil =>
    intro done cur px pp _ _
    rw [scanGo, chunkGo]
    simp
  | cons q rest ih =>
    intro done cur px pp hx hp
    obtain ⟨idx, par⟩ := q
    rw [scanGo, chunkGo]
    by_cases hbreak : idx ≠ px + 1
    · rw [if_pos hbreak, if_pos hbreak]
      have step := ih (done ++ [collapseAdj (cur.map Prod.snd)]) [(idx, par)] idx par
        (by simp) (by simp)
      simp only [List.map_cons, List.map_nil, collapseAdj] at step
      rw [step]
      simp
    · rw [if_neg hbreak, if_neg hbreak]
      by_cases hpar : par ≠ pp
      · rw [if_pos hpar]
        have hlast : ((cur ++ [(idx, par)]).map Prod.fst).getLast? = some idx := by
          simp
        have hlastp : ((cur ++ [(idx, par)]).map Prod.snd).getLast? = some par := by
          simp
        have step := ih done (cur ++ [(idx, par)]) idx par hlast hlastp
        rw [appendLast_snoc]
        have hcol : collapseAdj ((cur ++ [(idx, par)]).map Prod.snd) =
            collapseAdj (cur.map Prod.snd) ++ [par] := by
          rw [List.map_append]
          exact collapseAdj_snoc_ne _ par pp hp hpar
        rw [← hcol]
        exact step
      · rw [if_neg hpar]
        push_neg at hpar
        subst hpar
        have hlast : ((cur ++ [(idx, par)]).map Prod.fst).getLast? = some idx := by
          simp
        have hlastp : ((cur ++ [(idx, par)]).map Prod.snd).getLast? = some par := by
          simp
        have step := ih done (cur ++ [(idx, par)]) idx par hlast hlastp
        have hcol : collapseAdj ((cur ++ [(idx, par)]).map Prod.snd) =
            collapseAdj (cur.map Prod.snd) := by
          rw [List.map_append]
          exact collapseAdj_snoc_eq _ par hp
        rw [← hcol]
        exact step

/-- C2 (amended): in lcfrs_productions, the yield function of an
internal node is computed by collecting (index, contributing child)
pairs, sorting them by increasing index, and scanning: consecutive
indices mapping to the same child extend the current argument slot; any
break in index contiguity starts a new component even for the same
child; a change of contributing child without a contiguity break starts
a new argument slot WITHIN the current component (not a new component).
Equivalently, each maximal contiguous index run yields one component
holding its contributing children with adjacent repeats collapsed. -/
theorem c2_yield_function_scan :
    (∀ (p : Int × Nat) (rest : List (Int × Nat)),
      scanYF p rest =
        (chunkRuns p rest).map (fun ch => collapseAdj (ch.map Prod.snd))) ∧
    (∀ children : List PT,
      (sortedNodePairs children).Perm (nodePairs children) ∧
      (sortedNodePairs children).Pairwise (fun a b => ¬ (b.1 < a.1))) := by
  constructor
  · intro p rest
    have h := scanChunkAux rest [] [p] p.1 p.2 (by simp) (by simp)
    simp only [List.nil_append] at h
    rw [scanYF, chunkRuns]
    exact h
  · intro children
    refine ⟨sortStable_perm _ _, ?_⟩
    have h := sortStable_pairwise (fun a b : Int × Nat => decide (a.1 < b.1))
      (fun a b c hab hbc => by
        simp only [decide_eq_false_iff_not] at hab hbc ⊢
        omega)
      (fun a b hab => by
        simp only [decide_eq_true_eq] at hab
        simp only [decide_eq_false_iff_not]
        omega)
      (nodePairs children)
    refine h.imp ?_
    intro a b hab
    simpa using hab

/-- C2 counterexample: at the source's own doctest node, a child change
without a contiguity break does NOT start a new component: the claimed
reading would give the yield function ((0,),(1,),(0,)) for the S node,
while the code produces ((0,1,0),). -/
theorem c2_counterexample :
    lcfrs_productions (PT.mkNode "S"
        [PT.mkNode "VP_2" [PT.mkNode "V" [PT.idx 0], PT.mkNode "ADJ" [PT.idx 2]],
          PT.mkNode "NP" [PT.idx 1]])
      [some "is", some "Mary", some "happy"] false =
      .ok [(["S", "VP_2", "NP"], .comps [[0, 1, 0]]),
        (["VP_2", "V", "ADJ"], .comps [[0], [1]]),
        (["V", "Epsilon"], .lex "is"),
        (["ADJ", "Epsilon"], .lex "happy"),
        (["NP", "Epsilon"], .lex "Mary")] ∧
    sortedNodePairs [PT.mkNode "VP_2" [PT.mkNode "V" [PT.idx 0],
        PT.mkNode "ADJ" [PT.idx 2]], PT.mkNode "NP" [PT.idx 1]] =
      [(0, 0), (1, 1), (2, 0)] ∧
    scanYF (0, 0) [(1, 1), (2, 0)] = [[0, 1, 0]] ∧
    claimScanYF (0, 0) [(1, 1), (2, 0)] = [[0], [1], [0]] ∧
    ([[0, 1, 0]] : List (List Nat)) ≠ [[0], [1], [0]] := by
  refine ⟨by decide, by decide, by decide, by decide, by decide⟩

/-- C3: lcfrs_productions on the tree (S (VP_2 (V 0) (ADJ 2)) (NP 1))
with sentence is Mary happy returns exactly the five doctest
productions, in the tree's own traversal order. -/
theorem c3_lcfrs_doctest :
    lcfrs_productions (PT.mkNode "S"
        [PT.mkNode "VP_2" [PT.mkNode "V" [PT.idx 0], PT.mkNode "ADJ" [PT.idx 2]],
          PT.mkNode "NP" [PT.idx 1]])
      [some "is", some "Mary", some "happy"] false =
      .ok [(["S", "VP_2", "NP"], .comps [[0, 1, 0]]),
        (["VP_2", "V", "ADJ"], .comps [[0], [1]]),
        (["V", "Epsilon"], .lex "is"),
        (["ADJ", "Epsilon"], .lex "happy"),
        (["NP", "Epsilon"], .lex "Mary")] := by
  decide

/-! ## lcfrs_productions: success characterization (claim C9) -/

theorem subtree_leaves_mem :
    ∀ t : PT, ∀ st ∈ t.subtreesPT, ∀ v ∈ st.leavesLV, v ∈ t.leavesLV := by
  intro t
  induction t using PT.indPT with
  | hleaf v =>
    intro st hst
    simp [PT.subtreesPT] at hst
  | hnode l cs ih =>
    intro st hst v hv
    rw [PT.subtreesPT_node] at hst
    rw [PT.leavesLV_node]
    rcases List.mem_cons.mp hst with rfl | hst'
    · rw [PT.leavesLV_node] at hv
      exact hv
    · obtain ⟨c, hc, hcst⟩ := List.mem_flatMap.mp hst'
      exact List.mem_flatMap.mpr ⟨c, hc, ih c hc st hcst v hv⟩


theorem prodOfSubtree_isOk (t : PT) (leaves : List LV) (sent : Sent) (fr : Bool)
    (st : PT)
    (hiv : ∀ v ∈ st.leavesLV,
      (match v with | LV.ival _ => true | LV.sval _ => false) = true) :
    (prodOfSubtree t leaves sent fr st).isOk = true ↔ goodSubtree st = true := by
  match st with
  | .leaf v => simp [prodOfSubtree, goodSubtree, Except.isOk, Except.toBool]
  | .node l cs =>
    rcases hcs : cs.toList with _ | ⟨c0, rest⟩
    · simp [prodOfSubtree, goodSubtree, hcs, Except.isOk, Except.toBool]
    · match c0 with
      | .leaf (.ival i) =>
        simp only [prodOfSubtree, goodSubtree, hcs]
        by_cases hterm : rest = [] ∧ (sent.getD i.toNat none) ≠ none
        · simp [hterm, Except.isOk, Except.toBool]
          split
          · rfl
          · rename_i a heq
            split at heq
            · split at heq <;> cases heq
            · cases heq
        · cases fr <;>
          · simp [hterm, Except.isOk, Except.toBool]
            split
            · rfl
            · rename_i a heq
              split at heq <;> cases heq
      | .leaf (.sval w) =>
        exfalso
        have hmem : LV.sval w ∈ (PT.node l cs).leavesLV := by
          rw [PT.leavesLV_node, hcs]
          exact List.mem_flatMap.mpr ⟨.leaf (.sval w), List.mem_cons_self _ _,
            by simp [PT.leavesLV]⟩
        simpa using hiv _ hmem
      | .node l0 cs0 =>
        simp only [prodOfSubtree, goodSubtree, hcs]
        by_cases hall : ((PT.node l0 cs0) :: rest).all PT.isNode = true
        · rcases hsp : sortedNodePairs (PT.node l0 cs0 :: rest) with _ | ⟨pp, ps⟩ <;>
            simp [hall, hsp, Except.isOk, Except.toBool]
        · simp [hall, Except.isOk, Except.toBool]

theorem prodsLoop_isOk (t : PT) (leaves : List LV) (sent : Sent) (fr : Bool) :
    ∀ sts : List PT,
      (prodsLoop t leaves sent fr sts).isOk = true ↔
        ∀ st ∈ sts, (prodOfSubtree t leaves sent fr st).isOk = true := by
  intro sts
  induction sts with
  | nil => simp [prodsLoop, Except.isOk, Except.toBool]
  | cons st rest ih =>
    rw [prodsLoop]
    rcases hp : prodOfSubtree t leaves sent fr st with e | o
    · simp only []
      constructor
      · intro h
        simp [Except.isOk, Except.toBool] at h
      · intro h
        have := h st (List.mem_cons_self _ _)
        rw [hp] at this
        simp [Except.isOk, Except.toBool] at this
    · rcases o with _ | r
      · simp only []
        rw [ih]
        constructor
        · intro h st' hst'
          rcases List.mem_cons.mp hst' with rfl | h'
          · rw [hp]; rfl
          · exact h st' h'
        · intro h st' hst'
          exact h st' (List.mem_cons_of_mem _ hst')
      · simp only []
        rcases hq : prodsLoop t leaves sent fr rest with e2 | rs
        · constructor
          · intro h
            simp [Except.isOk, Except.toBool] at h
          · intro h
            have hrest := ih.mpr (fun st' h' => h st' (List.mem_cons_of_mem _ h'))
            rw [hq] at hrest
            simp [Except.isOk, Except.toBool] at hrest
        · constructor
          · intro h st' hst'
            rcases List.mem_cons.mp hst' with rfl | h'
            · rw [hp]; rfl
            · refine (ih.mp ?_) st' h'
              rw [hq]; rfl
          · intro _
            rfl

/-- C9 (amended): lcfrs_productions fails with the assertion error of
the first violated condition among, in this order: non-unique leaf
indices (that error carries the indices and the tree, but not the
sentence), an empty sentence, a non-integer leaf, and an out-of-range
leaf index (each of these three carries the tree, its leaves, and the
sentence); and it succeeds precisely on inputs that in addition have no
empty node, no node mixing subtree children with non-subtree children
behind a subtree first child, and no internal node dominating zero
indices. -/
theorem c9_validation (t : PT) (sent : Sent) (fr : Bool) :
    ((lcfrs_productions t sent fr).isOk = true ↔ goodInput t sent = true) ∧
    (¬ t.leavesLV.Nodup →
      lcfrs_productions t sent fr = .error (.assertUniq t t.leavesLV)) ∧
    (t.leavesLV.Nodup → sent = [] →
      lcfrs_productions t sent fr = .error (.assertSent t t.leavesLV sent)) ∧
    (t.leavesLV.Nodup → sent ≠ [] →
      ¬ (t.leavesLV.all (fun v =>
          match v with | LV.ival _ => true | LV.sval _ => false) = true) →
      lcfrs_productions t sent fr = .error (.assertInt t t.leavesLV sent)) ∧
    (t.leavesLV.Nodup → sent ≠ [] →
      (t.leavesLV.all (fun v =>
        match v with | LV.ival _ => true | LV.sval _ => false) = true) →
      ¬ (t.leavesLV.all (fun v =>
          match v with
          | LV.ival i => 0 ≤ i && i < sent.length
          | LV.sval _ => false) = true) →
      lcfrs_productions t sent fr = .error (.assertRange t t.leavesLV sent)) := by
  by_cases h1 : t.leavesLV.Nodup
  case neg =>
    have hrun : lcfrs_productions t sent fr = .error (.assertUniq t t.leavesLV) := by
      rw [lcfrs_productions, if_pos h1]
    refine ⟨?_, fun _ => hrun, fun h _ => absurd h h1, fun h _ _ => absurd h h1,
      fun h _ _ _ => absurd h h1⟩
    rw [hrun]
    simp [goodInput, h1, Except.isOk, Except.toBool]
  case pos =>
  by_cases h2 : sent = []
  case pos =>
    have hrun : lcfrs_productions t sent fr = .error (.assertSent t t.leavesLV sent) := by
      rw [lcfrs_productions, if_neg (by simpa using h1), if_pos h2]
    refine ⟨?_, fun h => absurd h1 h, fun _ _ => hrun, fun _ h _ => absurd h2 h,
      fun _ h _ _ => absurd h2 h⟩
    rw [hrun]
    simp [goodInput, h2, Except.isOk, Except.toBool]
  case neg =>
  by_cases h3 : t.leavesLV.all (fun v =>
      match v with | LV.ival _ => true | LV.sval _ => false) = true
  case neg =>
    have hrun : lcfrs_productions t sent fr = .error (.assertInt t t.leavesLV sent) := by
      rw [lcfrs_productions, if_neg (by simpa using h1), if_neg h2, if_pos h3]
    refine ⟨?_, fun h => absurd h1 h, fun _ h => absurd h h2,
      fun _ _ _ => hrun, fun _ _ h _ => absurd h h3⟩
    rw [hrun]
    simp only [goodInput, h1, h2]
    simp only [Bool.not_eq_true] at h3
    simp [h3, Except.isOk, Except.toBool]
  case pos =>
  by_cases h4 : t.leavesLV.all (fun v =>
      match v with
      | LV.ival i => 0 ≤ i && i < sent.length
      | LV.sval _ => false) = true
  case neg =>
    have hrun : lcfrs_productions t sent fr = .error (.assertRange t t.leavesLV sent) := by
      rw [lcfrs_productions, if_neg (by simpa using h1), if_neg h2, if_neg (by simpa using h3),
        if_pos h4]
    refine ⟨?_, fun h => absurd h1 h, fun _ h => absurd h h2,
      fun _ _ h => absurd h3 h, fun _ _ _ _ => hrun⟩
    rw [hrun]
    simp only [goodInput, h1, h2]
    simp only [Bool.not_eq_true] at h4
    simp [h4, Except.isOk, Except.toBool]
  case pos =>
  have hrun : lcfrs_productions t sent fr =
      prodsLoop t t.leavesLV sent fr t.subtreesPT := by
    rw [lcfrs_productions, if_neg (by simpa using h1), if_neg h2,
      if_neg (by simpa using h3), if_neg (by simpa using h4)]
  refine ⟨?_, fun h => absurd h1 h, fun _ h => absurd h h2,
    fun _ _ h => absurd h3 h, fun _ _ _ h => absurd h4 h⟩
  rw [hrun, prodsLoop_isOk]
  have hgood : goodInput t sent = true ↔ t.subtreesPT.all goodSubtree = true := by
    simp [goodInput, h1, h2, h3, h4]
  rw [hgood, List.all_eq_true]
  constructor
  · intro h st hst
    exact (prodOfSubtree_isOk t t.leavesLV sent fr st
      (fun v hv => by
        have := subtree_leaves_mem t st hst v hv
        exact List.all_eq_true.mp h3 v this)).mp (h st hst)
  · intro h st hst
    exact (prodOfSubtree_isOk t t.leavesLV sent fr st
      (fun v hv => by
        have := subtree_leaves_mem t st hst v hv
        exact List.all_eq_true.mp h3 v this)).mpr (h st hst)

/-- Witness for C9 on the doctest input (all checks pass) and a
duplicate-index input (the uniqueness assertion error, carrying the
leaves and the tree but no sentence). -/
theorem c9_validation_witness :
    (lcfrs_productions (PT.mkNode "S" [PT.mkNode "V" [PT.idx 0]])
      [some "a"] false).isOk = true ∧
    lcfrs_productions (PT.mkNode "S" [PT.mkNode "V" [PT.idx 0], PT.mkNode "W" [PT.idx 0]])
      [some "a"] false =
      .error (.assertUniq
        (PT.mkNode "S" [PT.mkNode "V" [PT.idx 0], PT.mkNode "W" [PT.idx 0]])
        [LV.ival 0, LV.ival 0]) := by
  constructor
  · exact (c9_validation (PT.mkNode "S" [PT.mkNode "V" [PT.idx 0]])
      [some "a"] false).1.mpr (by decide)
  · have h := (c9_validation
      (PT.mkNode "S" [PT.mkNode "V" [PT.idx 0], PT.mkNode "W" [PT.idx 0]])
      [some "a"] false).2.1 (by decide)
    exact h

/-- C9 counterexample: the tree (S (NP 0) 1) with sentence a b
satisfies none of the four asserted failure conditions and has no
empty node, yet lcfrs_productions fails, with the
neither-Tree-nor-integer ValueError that carries only the offending
child; and on (S (VP)) the empty non-frontier node surfaces as the
IndexError of pop from an empty list, which carries nothing, not as
the empty-node ValueError (which would carry the tree, its leaves,
and the sentence). -/
theorem c9_counterexample :
    lcfrs_productions (PT.mkNode "S" [PT.mkNode "NP" [PT.idx 0], PT.idx 1])
      [some "a", some "b"] false =
      .error (.neitherNode (PT.mkNode "NP" [PT.idx 0])) ∧
    ((PT.mkNode "S" [PT.mkNode "NP" [PT.idx 0], PT.idx 1]).leavesLV.Nodup ∧
      ([some "a", some "b"] : Sent) ≠ [] ∧
      (PT.mkNode "S" [PT.mkNode "NP" [PT.idx 0], PT.idx 1]).leavesLV.all (fun v =>
        match v with | LV.ival _ => true | LV.sval _ => false) = true ∧
      (PT.mkNode "S" [PT.mkNode "NP" [PT.idx 0], PT.idx 1]).leavesLV.all (fun v =>
        match v with
        | LV.ival i => 0 ≤ i && i < (2 : Nat)
        | LV.sval _ => false) = true ∧
      (∀ st ∈ (PT.mkNode "S" [PT.mkNode "NP" [PT.idx 0], PT.idx 1]).subtreesPT,
        st.childrenOf ≠ [])) ∧
    lcfrs_productions (PT.mkNode "S" [PT.mkNode "VP" []]) [some "a"] false =
      .error .popEmpty := by
  refine ⟨by decide, ⟨by decide, by decide, by decide, by decide, by decide⟩, by decide⟩

/-! ## cartpi lemmas -/

theorem cartpiRev_snoc {α : Type} (o : List α) :
    ∀ l : List (List α), cartpiRev (l ++ [o]) =
      o.flatMap (fun x => (cartpiRev l).map (fun b => x :: b)) := by
  intro l
  induction l with
  | nil =>
    simp only [List.nil_append, cartpiRev, List.flatMap_cons, List.flatMap_nil]
    induction o with
    | nil => rfl
    | cons a o iho =>
      simp only [List.map_cons, List.flatMap_cons, List.flatMap_nil, List.append_nil] at iho ⊢
      rw [iho]
      rfl
  | cons last front ih =>
    rw [List.cons_append, cartpiRev, ih, cartpiRev]
    simp only [List.flatMap_map, List.map_flatMap, List.flatMap_assoc, List.map_map]
    rfl

theorem cartpi_nil {α : Type} : cartpi ([] : List (List α)) = [[]] := rfl

theorem cartpi_cons {α : Type} (o : List α) (rest : List (List α)) :
    cartpi (o :: rest) = o.flatMap (fun x => (cartpi rest).map (fun b => x :: b)) := by
  rw [cartpi, List.reverse_cons, cartpiRev_snoc, cartpi]

theorem cartpi_length {α : Type} : ∀ opts : List (List α),
    (cartpi opts).length = (opts.map List.length).prod := by
  intro opts
  induction opts with
  | nil => rfl
  | cons o rest ih =>
    rw [cartpi_cons, List.length_flatMap]
    simp only [Function.comp_def, List.length_map, ih, List.map_cons, List.prod_cons]
    rw [List.map_const', List.sum_replicate, smul_eq_mul]

theorem cartpi_mem {α : Type} : ∀ (opts : List (List α)) (c : List α),
    c ∈ cartpi opts ↔ List.Forall₂ (fun x o => x ∈ o) c opts := by
  intro opts
  induction opts with
  | nil =>
    intro c
    rw [cartpi_nil]
    constructor
    · intro h
      simp only [List.mem_singleton] at h
      subst h
      exact List.Forall₂.nil
    · intro h
      cases h
      simp
  | cons o rest ih =>
    intro c
    rw [cartpi_cons]
    simp only [List.mem_flatMap, List.mem_map]
    constructor
    · rintro ⟨x, hx, b, hb, rfl⟩
      exact List.Forall₂.cons hx ((ih b).mp hb)
    · intro h
      cases h with
      | cons hx hrest => exact ⟨_, hx, _, (ih _).mpr hrest, rfl⟩

theorem cartpi_nodup {α : Type} : ∀ opts : List (List α),
    (∀ o ∈ opts, o.Nodup) → (cartpi opts).Nodup := by
  intro opts
  induction opts with
  | nil =>
    intro _
    rw [cartpi_nil]
    exact List.nodup_singleton _
  | cons o rest ih =>
    intro h
    rw [cartpi_cons]
    refine List.nodup_flatMap.mpr ⟨?_, ?_⟩
    · intro x _
      exact (ih (fun o' ho' => h o' (List.mem_cons_of_mem _ ho'))).map
        (fun b1 b2 hb => (List.cons.inj hb).2)
    · refine List.Pairwise.imp ?_ (h o (List.mem_cons_self o rest))
      intro x y hxy c hc1 hc2
      simp only [List.mem_map] at hc1 hc2
      obtain ⟨b1, _, rfl⟩ := hc1
      obtain ⟨b2, _, h2⟩ := hc2
      exact hxy (List.cons.inj h2).1.symm

/-! ## dopreduction generalization lemmas (claim C4) -/

theorem genOptions_cons (x y : String) (as bs : List String) :
    genOptions (x :: as) (y :: bs) =
      (if x = y then [x] else [x, y]) :: genOptions as bs := rfl

theorem genOptions_nodup : ∀ (a b : List String), ∀ o ∈ genOptions a b, o.Nodup := by
  intro a
  induction a with
  | nil =>
    intro b o ho
    simp only [genOptions, List.zipWith_nil_left] at ho
    exact absurd ho (List.not_mem_nil o)
  | cons x as ih =>
    intro b o ho
    cases b with
    | nil =>
      simp only [genOptions, List.zipWith_nil_right] at ho
      exact absurd ho (List.not_mem_nil o)
    | cons y bs =>
      rw [genOptions_cons] at ho
      rcases List.mem_cons.mp ho with rfl | h
      · split_ifs with hxy
        · exact List.nodup_singleton x
        · simp [hxy]
      · exact ih bs o h

theorem mem_genOption (x y z : String) :
    (z ∈ if x = y then [x] else [x, y]) ↔ z = x ∨ z = y := by
  split_ifs with hxy <;> simp [hxy]

theorem genLabels_mem : ∀ (a b c : List String),
    c ∈ genLabels a b ↔
      List.Forall₂ (fun z xy => z = xy.1 ∨ z = xy.2) c (a.zip b) := by
  intro a
  induction a with
  | nil =>
    intro b c
    simp only [genLabels, genOptions, List.zipWith_nil_left, cartpi_nil,
      List.mem_singleton, List.zip_nil_left, List.forall₂_nil_right_iff]
  | cons x as ih =>
    intro b c
    cases b with
    | nil =>
      simp only [genLabels, genOptions, List.zipWith_nil_right, cartpi_nil,
        List.mem_singleton, List.zip_nil_right, List.forall₂_nil_right_iff]
    | cons y bs =>
      rw [genLabels, genOptions_cons, cartpi_cons, List.zip_cons_cons]
      simp only [List.mem_flatMap, List.mem_map]
      constructor
      · rintro ⟨z, hz, cc, hcc, rfl⟩
        exact List.Forall₂.cons ((mem_genOption x y z).mp hz) ((ih bs cc).mp hcc)
      · intro h
        cases h with
        | cons hz hrest =>
          exact ⟨_, (mem_genOption x y _).mpr hz, _, (ih bs _).mpr hrest, rfl⟩

theorem genLabels_def (a b : List String) :
    genLabels a b = cartpi (genOptions a b) := rfl

theorem genLabels_length : ∀ (a b : List String),
    (genLabels a b).length = 2 ^ ((a.zip b).countP (fun xy => xy.1 != xy.2)) := by
  intro a
  induction a with
  | nil => intro b; rfl
  | cons x as ih =>
    intro b
    cases b with
    | nil => rfl
    | cons y bs =>
      rw [genLabels_def, genOptions_cons, cartpi_length, List.map_cons, List.prod_cons,
        ← cartpi_length, ← genLabels_def, ih bs, List.zip_cons_cons, List.countP_cons]
      by_cases hxy : x = y
      · simp [hxy]
      · simp [hxy, pow_succ, Nat.mul_comm]

theorem genLabels_nodup (a b : List String) : (genLabels a b).Nodup :=
  cartpi_nodup _ (genOptions_nodup a b)

theorem genLabels_self : ∀ (a b : List String), a.length = b.length →
    a ∈ genLabels a b ∧ b ∈ genLabels a b := by
  intro a
  induction a with
  | nil =>
    intro b h
    cases b with
    | nil => exact ⟨List.mem_singleton_self [], List.mem_singleton_self []⟩
    | cons y bs => exact absurd h (by simp)
  | cons x as ih =>
    intro b h
    cases b with
    | nil => exact absurd h (by simp)
    | cons y bs =>
      have hlen : as.length = bs.length := by
        simpa using h
      obtain ⟨h1, h2⟩ := ih bs hlen
      rw [genLabels_mem] at h1 h2
      constructor
      · rw [genLabels_mem, List.zip_cons_cons]
        exact List.Forall₂.cons (Or.inl rfl) h1
      · rw [genLabels_mem, List.zip_cons_cons]
        exact List.Forall₂.cons (Or.inr rfl) h2

/-- C4 (corrected): in dopreduction, a zipped plain/decorated production
pair with equal label-tuple lengths contributes the occurrence-table
keys genKeysPair a b: exactly 2 ^ k distinct keys, where k counts the
differing positions of the full zipped label tuples INCLUDING the LHS
position; a key is contributed iff its yield function is the plain
rule's and its label tuple picks, at every position, either the plain
or the decorated label; in particular both the plain tuple and the
fully decorated tuple -- decorated LHS included -- are among the keys.
The original claim's assertion that the LHS always stays plain and that
no incremented entry has a decorated LHS is refuted by
c4_counterexample. -/
theorem c4_generalizations (a b : Prod') (hlen : a.1.length = b.1.length) :
    (genKeysPair a b).length = 2 ^ ((a.1.zip b.1).countP (fun xy => xy.1 != xy.2)) ∧
    (∀ r : Prod', r ∈ genKeysPair a b ↔
      r.2 = a.2 ∧ List.Forall₂ (fun z xy => z = xy.1 ∨ z = xy.2) r.1 (a.1.zip b.1)) ∧
    (genKeysPair a b).Nodup ∧
    a ∈ genKeysPair a b ∧ (b.1, a.2) ∈ genKeysPair a b := by
  refine ⟨?_, ?_, ?_, ?_, ?_⟩
  · rw [genKeysPair, List.length_map, genLabels_length]
  · intro r
    rw [genKeysPair, List.mem_map]
    constructor
    · rintro ⟨c, hc, rfl⟩
      exact ⟨rfl, (genLabels_mem a.1 b.1 c).mp hc⟩
    · rintro ⟨h2, h1⟩
      exact ⟨r.1, (genLabels_mem a.1 b.1 r.1).mpr h1, by rw [← h2]⟩
  · exact (genLabels_nodup a.1 b.1).map (fun c1 c2 h => (Prod.mk.inj h).1)
  · rw [genKeysPair, List.mem_map]
    exact ⟨a.1, (genLabels_self a.1 b.1 hlen).1, rfl⟩
  · rw [genKeysPair, List.mem_map]
    exact ⟨b.1, (genLabels_self a.1 b.1 hlen).2, rfl⟩

theorem c4_generalizations_witness :
    (["S", "NP", "VP"] : List String).length = ["S", "NP@0-0", "VP@0-1"].length ∧
    (genKeysPair (["S", "NP", "VP"], Yf.comps [[0, 1]])
        (["S", "NP@0-0", "VP@0-1"], Yf.comps [[0, 1]])).length =
      2 ^ (((["S", "NP", "VP"] : List String).zip ["S", "NP@0-0", "VP@0-1"]).countP
        (fun xy => xy.1 != xy.2)) ∧
    (["S", "NP@0-0", "VP@0-1"], Yf.comps [[0, 1]]) ∈
      genKeysPair (["S", "NP", "VP"], Yf.comps [[0, 1]])
        (["S", "NP@0-0", "VP@0-1"], Yf.comps [[0, 1]]) := by
  have h := c4_generalizations (["S", "NP", "VP"], Yf.comps [[0, 1]])
    (["S", "NP@0-0", "VP@0-1"], Yf.comps [[0, 1]]) (by decide)
  exact ⟨by decide, h.1, h.2.2.2.2⟩

/-- C4 counterexample: on the corpus consisting of the tree
(S (NP 0) (VP 1)) with sentence mary walks, the occurrence-table keys
accumulated by dopreduction include entries whose LHS label is still
decorated: the LHS sequence of the accumulated keys is
S, S, S, S, NP, NP@0-0, VP, VP@0-1, and NP@0-0 contains the decoration
marker. -/
theorem c4_counterexample :
    ((collectKeys (dopRun
        [PT.mkNode "S" [PT.mkNode "NP" [PT.idx 0], PT.mkNode "VP" [PT.idx 1]]]
        [[some "mary", some "walks"]])).map (fun r => headLab r.1) =
      ["S", "S", "S", "S", "NP", "NP@0-0", "VP", "VP@0-1"]) ∧
    hasAt "NP@0-0" = true :=
  ⟨by decide, by decide⟩

/-! ## dopreduction weights (claim C5) -/

theorem mem_pyDedupAux {α : Type} [DecidableEq α] :
    ∀ (l seen : List α), ∀ x ∈ pyDedupAux seen l, x ∈ l := by
  intro l
  induction l with
  | nil => intro seen x hx; exact absurd hx (List.not_mem_nil x)
  | cons a l ih =>
    intro seen x hx
    rw [pyDedupAux] at hx
    split at hx
    · exact List.mem_cons_of_mem a (ih seen x hx)
    · rcases List.mem_cons.mp hx with rfl | h
      · exact List.mem_cons_self _ _
      · exact List.mem_cons_of_mem a (ih (seen ++ [a]) x h)

theorem mem_pyDedup {α : Type} [DecidableEq α] (l : List α) (x : α)
    (h : x ∈ pyDedup l) : x ∈ l :=
  mem_pyDedupAux l [] x h

theorem dopRun_def (trees : List PT) (sents : List Sent) :
    dopCollect false 0 trees sents (fun _ => 0) (fun _ => 0) []
      (⟨0, []⟩ : PGState) = dopRun trees sents := rfl

set_option maxHeartbeats 4000000 in
set_option synthInstance.maxHeartbeats 1000000 in
set_option maxRecDepth 8000 in
theorem rfeExampleGrammar :
    grammarOf (dopreduction
        [PT.mkNode "S" [PT.mkNode "NP" [PT.idx 0], PT.mkNode "NP" [PT.idx 1]]]
        [[some "a", some "b"]] false false ⟨0, []⟩) =
      [((["S", "NP", "NP"], Yf.comps [[0, 1]]), 1/4),
        ((["S", "NP", "NP@0-1"], Yf.comps [[0, 1]]), 1/4),
        ((["S", "NP@0-0", "NP"], Yf.comps [[0, 1]]), 1/4),
        ((["S", "NP@0-0", "NP@0-1"], Yf.comps [[0, 1]]), 1/4),
        ((["NP", "Epsilon"], Yf.lex "a"), 1/2),
        ((["NP@0-0", "Epsilon"], Yf.lex "a"), 1),
        ((["NP", "Epsilon"], Yf.lex "b"), 1/2),
        ((["NP@0-1", "Epsilon"], Yf.lex "b"), 1)] := by
  norm_num +decide [grammarOf, dopreduction, dopCollect, lcfrs_productions, prodsLoop,
    prodOfSubtree, decorate_with_ids, PT.decoT, PTs.decoL, decLabel, nodefreqT,
    PTs.nodefreqL, dopPairKeys, genKeysPair, genLabels, genOptions, cartpi, cartpiRev,
    pyDedup, pyDedupAux, sortStable, insertStrict, skLt, dopSortKey, rfe, headLab,
    hasAt, bump, PT.mkNode, PT.idx, PTs.ofList, PTs.toList, PT.leavesLV, PTs.leavesLV,
    PT.subtreesPT, PTs.subtreesPT, PT.labelOf, PT.isNode, sortedNodePairs, nodePairs,
    scanYF, scanGo, appendLast, List.count_cons, List.count_nil, List.lookup,
    Nat.repr, Nat.toDigits, Nat.toDigitsCore, Nat.digitChar]

/-- C5 (corrected): every rule of the grammar returned by dopreduction
without ewe carries the weight that rfe computes from the accumulated
occurrence table and subtree counts: its numerator uses 1 instead of
the raw count as soon as ANY label of the rule -- the LHS included, not
only RHS labels -- is still decorated, and its denominator is the
subtree count of the rule's OWN LHS as it appears in the rule, NOT of
the plain undecorated form. The claim's formula (claimedRfe) disagrees
with the code on rules with a decorated LHS (c5_counterexample). -/
theorem c5_rfe_weights (trees : List PT) (sents : List Sent) :
    ∀ e ∈ grammarOf (dopreduction trees sents false false ⟨0, []⟩),
      e.1 ∈ collectKeys (dopRun trees sents) ∧
      e.2 = ((if e.1.1.any hasAt then 1 else
            ((collectKeys (dopRun trees sents)).count e.1 : ℚ)) *
          ((e.1.1.tail.filter hasAt).map
            (fun z => ((collectFd (dopRun trees sents)) z : ℚ))).prod) /
        ((collectFd (dopRun trees sents)) (headLab e.1.1) : ℚ) := by
  intro e he
  rcases hq : dopRun trees sents with ⟨res, g2⟩
  rcases res with er | ⟨fd, ntfd, keys⟩
  · have hnil : grammarOf (dopreduction trees sents false false ⟨0, []⟩) = [] := by
      unfold dopreduction
      rw [dopRun_def, hq]
      rfl
    rw [hnil] at he
    exact absurd he (List.not_mem_nil e)
  · have hg : grammarOf (dopreduction trees sents false false ⟨0, []⟩) =
        (sortStable (fun x y => skLt (dopSortKey x.1) (dopSortKey y.1))
          ((pyDedup keys).map (fun k => (k, keys.count k)))).map (rfe fd) := by
      unfold dopreduction
      rw [dopRun_def, hq]
      rfl
    rw [hg] at he
    obtain ⟨kc, hk, rfl⟩ := List.mem_map.mp he
    have hk2 : kc ∈ (pyDedup keys).map (fun k => (k, keys.count k)) :=
      ((sortStable_perm _ _).mem_iff).mp hk
    obtain ⟨k, hk', hkk⟩ := List.mem_map.mp hk2
    subst hkk
    exact ⟨mem_pyDedup keys k hk', rfl⟩

theorem c5_rfe_weights_witness :
    ((["NP@0-0", "Epsilon"], Yf.lex "a"), (1 : ℚ)) ∈ grammarOf (dopreduction
        [PT.mkNode "S" [PT.mkNode "NP" [PT.idx 0], PT.mkNode "NP" [PT.idx 1]]]
        [[some "a", some "b"]] false false ⟨0, []⟩) ∧
    ((["NP@0-0", "Epsilon"], Yf.lex "a") ∈ collectKeys (dopRun
        [PT.mkNode "S" [PT.mkNode "NP" [PT.idx 0], PT.mkNode "NP" [PT.idx 1]]]
        [[some "a", some "b"]]) ∧
      (1 : ℚ) = ((if ["NP@0-0", "Epsilon"].any hasAt then 1 else
            (((collectKeys (dopRun
              [PT.mkNode "S" [PT.mkNode "NP" [PT.idx 0], PT.mkNode "NP" [PT.idx 1]]]
              [[some "a", some "b"]])).count
                (["NP@0-0", "Epsilon"], Yf.lex "a") : ℚ))) *
          (((["NP@0-0", "Epsilon"] : List String).tail.filter hasAt).map
            (fun z => ((collectFd (dopRun
              [PT.mkNode "S" [PT.mkNode "NP" [PT.idx 0], PT.mkNode "NP" [PT.idx 1]]]
              [[some "a", some "b"]])) z : ℚ))).prod) /
        ((collectFd (dopRun
            [PT.mkNode "S" [PT.mkNode "NP" [PT.idx 0], PT.mkNode "NP" [PT.idx 1]]]
            [[some "a", some "b"]])) (headLab ["NP@0-0", "Epsilon"]) : ℚ)) := by
  have hmem : ((["NP@0-0", "Epsilon"], Yf.lex "a"), (1 : ℚ)) ∈ grammarOf (dopreduction
      [PT.mkNode "S" [PT.mkNode "NP" [PT.idx 0], PT.mkNode "NP" [PT.idx 1]]]
      [[some "a", some "b"]] false false ⟨0, []⟩) := by
    rw [rfeExampleGrammar]
    simp
  exact ⟨hmem, c5_rfe_weights _ _ _ hmem⟩

/-- C5 counterexample: on the corpus consisting of the tree
(S (NP 0) (NP 1)) with sentence a b, the returned grammar gives the
rule NP@0-0 -> Epsilon / a the weight 1 (its own decorated LHS has
subtree count 1 and the decorated LHS suppresses the raw count), while
the claim's formula -- raw count 1, no decorated RHS label, divided by
the subtree count 2 of the plain LHS NP -- yields 1/2. -/
theorem c5_counterexample :
    ((["NP@0-0", "Epsilon"], Yf.lex "a"), (1 : ℚ)) ∈ grammarOf (dopreduction
        [PT.mkNode "S" [PT.mkNode "NP" [PT.idx 0], PT.mkNode "NP" [PT.idx 1]]]
        [[some "a", some "b"]] false false ⟨0, []⟩) ∧
    (collectKeys (dopRun
        [PT.mkNode "S" [PT.mkNode "NP" [PT.idx 0], PT.mkNode "NP" [PT.idx 1]]]
        [[some "a", some "b"]])).count (["NP@0-0", "Epsilon"], Yf.lex "a") = 1 ∧
    claimedRfe (collectFd (dopRun
        [PT.mkNode "S" [PT.mkNode "NP" [PT.idx 0], PT.mkNode "NP" [PT.idx 1]]]
        [[some "a", some "b"]]))
      ((["NP@0-0", "Epsilon"], Yf.lex "a"), 1) = 1/2 ∧
    ((1 : ℚ)/2 ≠ 1) := by
  refine ⟨by rw [rfeExampleGrammar]; simp, by decide, ?_, by norm_num⟩
  have h1 : stripAt "NP@0-0" = "NP" := by decide
  have h2 : collectFd (dopRun
      [PT.mkNode "S" [PT.mkNode "NP" [PT.idx 0], PT.mkNode "NP" [PT.idx 1]]]
      [[some "a", some "b"]]) "NP" = 2 := by decide
  have h3 : List.filter hasAt ["Epsilon"] = ([] : List String) := by decide
  simp only [claimedRfe, headLab, List.headD, List.tail_cons, h1, h2, h3,
    List.map_nil, List.prod_nil]
  norm_num

/-! ## Strict-order lemmas for the doubledop sort (claim C7) -/

theorem ltCompl {α : Type} (lt : α → α → Bool)
    (hirr : ∀ a, lt a a = false)
    (htr : ∀ a b c, lt a b = true → lt b c = true → lt a c = true)
    (hcon : ∀ a b, a ≠ b → lt a b = true ∨ lt b a = true) :
    (∀ a b, lt a b = true → lt b a = false) ∧
    (∀ a b c, lt a b = false → lt b c = false → lt a c = false) := by
  constructor
  · intro a b hab
    cases hba : lt b a
    · rfl
    · have h := htr a b a hab hba
      rw [hirr a] at h
      exact Bool.noConfusion h
  · intro a b c hab hbc
    by_cases hac : a = c
    · subst hac
      exact hirr a
    · cases h : lt a c
      · rfl
      · exfalso
        by_cases h1 : a = b
        · subst h1
          rw [h] at hbc
          exact Bool.noConfusion hbc
        · rcases hcon a b h1 with h2 | h2
          · rw [hab] at h2
            exact Bool.noConfusion h2
          · have h3 := htr b a c h2 h
            rw [hbc] at h3
            exact Bool.noConfusion h3

theorem bltIrr {α : Type} [Preorder α] (a : α) {d : Decidable (a < a)} :
    @decide (a < a) d = false :=
  decide_eq_false (lt_irrefl a)

theorem bltTrans {α : Type} [Preorder α] (a b c : α) {d1 : Decidable (a < b)}
    {d2 : Decidable (b < c)} {d3 : Decidable (a < c)}
    (h1 : @decide (a < b) d1 = true) (h2 : @decide (b < c) d2 = true) :
    @decide (a < c) d3 = true :=
  @decide_eq_true _ d3 (lt_trans (of_decide_eq_true h1) (of_decide_eq_true h2))

theorem bltConnex {α : Type} [LinearOrder α] (a b : α) {d1 : Decidable (a < b)}
    {d2 : Decidable (b < a)} (h : a ≠ b) :
    @decide (a < b) d1 = true ∨ @decide (b < a) d2 = true := by
  rcases lt_or_gt_of_ne h with h' | h'
  · exact Or.inl (@decide_eq_true _ d1 h')
  · exact Or.inr (@decide_eq_true _ d2 h')

theorem pyListLt_irr {α : Type} [DecidableEq α] (ltE : α → α → Bool)
    (hirr : ∀ a, ltE a a = false) : ∀ l, pyListLt ltE l l = false := by
  intro l
  induction l with
  | nil => rfl
  | cons x xs ih =>
    rw [pyListLt, if_pos rfl]
    exact ih

theorem pyListLt_trans {α : Type} [DecidableEq α] (ltE : α → α → Bool)
    (hirr : ∀ a, ltE a a = false)
    (htr : ∀ a b c, ltE a b = true → ltE b c = true → ltE a c = true) :
    ∀ a b c, pyListLt ltE a b = true → pyListLt ltE b c = true →
      pyListLt ltE a c = true := by
  intro a
  induction a with
  | nil =>
    intro b c hab hbc
    cases b with
    | nil => simp [pyListLt] at hab
    | cons y ys =>
      cases c with
      | nil => simp [pyListLt] at hbc
      | cons z zs => rfl
  | cons x xs ih =>
    intro b c hab hbc
    cases b with
    | nil => simp [pyListLt] at hab
    | cons y ys =>
      cases c with
      | nil => simp [pyListLt] at hbc
      | cons z zs =>
        rw [pyListLt] at hab hbc ⊢
        by_cases h1 : x = y
        · subst h1
          rw [if_pos rfl] at hab
          by_cases h2 : x = z
          · subst h2
            rw [if_pos rfl] at hbc
            rw [if_pos rfl]
            exact ih ys zs hab hbc
          · rw [if_neg h2] at hbc
            rw [if_neg h2]
            exact hbc
        · rw [if_neg h1] at hab
          by_cases h2 : y = z
          · subst h2
            rw [if_neg h1]
            exact hab
          · rw [if_neg h2] at hbc
            by_cases h3 : x = z
            · exfalso
              rw [h3] at hab
              have h4 := htr z y z hab hbc
              rw [hirr z] at h4
              exact Bool.noConfusion h4
            · rw [if_neg h3]
              exact htr x y z hab hbc

theorem pyListLt_connex {α : Type} [DecidableEq α] (ltE : α → α → Bool)
    (hcon : ∀ a b, a ≠ b → ltE a b = true ∨ ltE b a = true) :
    ∀ a b, a ≠ b → pyListLt ltE a b = true ∨ pyListLt ltE b a = true := by
  intro a
  induction a with
  | nil =>
    intro b hne
    cases b with
    | nil => exact absurd rfl hne
    | cons y ys => exact Or.inl rfl
  | cons x xs ih =>
    intro b hne
    cases b with
    | nil => exact Or.inr rfl
    | cons y ys =>
      by_cases h1 : x = y
      · subst h1
        have hne2 : xs ≠ ys := fun h => hne (by rw [h])
        rcases ih ys hne2 with h | h
        · exact Or.inl (by rw [pyListLt, if_pos rfl]; exact h)
        · exact Or.inr (by rw [pyListLt, if_pos rfl]; exact h)
      · rcases hcon x y h1 with h | h
        · exact Or.inl (by rw [pyListLt, if_neg h1]; exact h)
        · exact Or.inr (by rw [pyListLt, if_neg (fun hh => h1 hh.symm)]; exact h)

theorem ltNatList_irr : ∀ l, ltNatList l l = false :=
  pyListLt_irr _ (fun a => bltIrr a)

theorem ltNatList_trans : ∀ a b c, ltNatList a b = true → ltNatList b c = true →
    ltNatList a c = true :=
  pyListLt_trans _ (fun a => bltIrr a) (fun a b c => bltTrans a b c)

theorem ltNatList_connex : ∀ a b, a ≠ b →
    ltNatList a b = true ∨ ltNatList b a = true :=
  pyListLt_connex _ (fun a b => bltConnex a b)

theorem ltYf_irr : ∀ y, ltYf y y = false := by
  intro y
  cases y with
  | comps cs => exact pyListLt_irr _ ltNatList_irr cs
  | lex w => exact bltIrr w

theorem ltYf_trans : ∀ a b c, ltYf a b = true → ltYf b c = true →
    ltYf a c = true := by
  intro a b c hab hbc
  cases a with
  | lex wa =>
    cases c with
    | lex wc =>
      cases b with
      | lex wb => exact bltTrans wa wb wc hab hbc
      | comps cb => simp [ltYf] at hbc
    | comps cc => rfl
  | comps ca =>
    cases c with
    | lex wc =>
      cases b with
      | lex wb => simp [ltYf] at hab
      | comps cb => simp [ltYf] at hbc
    | comps cc =>
      cases b with
      | lex wb => simp [ltYf] at hab
      | comps cb =>
        exact pyListLt_trans _ ltNatList_irr ltNatList_trans ca cb cc hab hbc

theorem ltYf_connex : ∀ a b, a ≠ b → ltYf a b = true ∨ ltYf b a = true := by
  intro a b hne
  cases a with
  | lex wa =>
    cases b with
    | lex wb =>
      exact bltConnex wa wb (fun h => hne (congrArg Yf.lex h))
    | comps cb => exact Or.inl rfl
  | comps ca =>
    cases b with
    | lex wb => exact Or.inr rfl
    | comps cb =>
      exact pyListLt_connex _ ltNatList_connex ca cb
        (fun h => hne (congrArg Yf.comps h))

theorem skLt_irr : ∀ k, skLt k k = false := by
  intro k
  cases k with
  | bval b => cases b <;> rfl
  | sval s => exact bltIrr s

theorem skLt_trans : ∀ a b c, skLt a b = true → skLt b c = true →
    skLt a c = true := by
  intro a b c hab hbc
  cases a with
  | bval ba =>
    cases c with
    | bval bc =>
      cases b with
      | bval bb =>
        cases ba <;> cases bb <;> cases bc <;> first | rfl | exact Bool.noConfusion hab | exact Bool.noConfusion hbc
      | sval sb => simp [skLt] at hbc
    | sval sc => rfl
  | sval sa =>
    cases c with
    | sval sc =>
      cases b with
      | bval bb => simp [skLt] at hab
      | sval sb => exact bltTrans sa sb sc hab hbc
    | bval bc =>
      cases b with
      | bval bb => simp [skLt] at hab
      | sval sb => simp [skLt] at hbc

theorem skLt_connex : ∀ a b, a ≠ b → skLt a b = true ∨ skLt b a = true := by
  intro a b hne
  cases a with
  | bval ba =>
    cases b with
    | bval bb =>
      cases ba <;> cases bb
      · exact absurd rfl hne
      · exact Or.inl rfl
      · exact Or.inr rfl
      · exact absurd rfl hne
    | sval sb => exact Or.inl rfl
  | sval sa =>
    cases b with
    | bval bb => exact Or.inr rfl
    | sval sb =>
      exact bltConnex sa sb (fun h => hne (congrArg SKey.sval h))

theorem ifLex_irr {α κ : Type} [DecidableEq κ] (key : α → κ) (ltK : κ → κ → Bool)
    (inner : α → α → Bool) (hIirr : ∀ a, inner a a = false) :
    ∀ x, ifLex key ltK inner x x = false := by
  intro x
  rw [ifLex, if_pos rfl]
  exact hIirr x

theorem ifLex_trans {α κ : Type} [DecidableEq κ] (key : α → κ) (ltK : κ → κ → Bool)
    (inner : α → α → Bool)
    (hKirr : ∀ k, ltK k k = false)
    (hKtr : ∀ a b c, ltK a b = true → ltK b c = true → ltK a c = true)
    (hItr : ∀ x y z, key x = key y → key y = key z →
      inner x y = true → inner y z = true → inner x z = true) :
    ∀ x y z, ifLex key ltK inner x y = true → ifLex key ltK inner y z = true →
      ifLex key ltK inner x z = true := by
  intro x y z hab hbc
  rw [ifLex] at hab hbc ⊢
  by_cases h1 : key x = key y
  · rw [if_pos h1] at hab
    by_cases h2 : key y = key z
    · rw [if_pos h2] at hbc
      rw [if_pos (h1.trans h2)]
      exact hItr x y z h1 h2 hab hbc
    · rw [if_neg h2] at hbc
      rw [if_neg (fun h => h2 (h1.symm.trans h)), h1]
      exact hbc
  · rw [if_neg h1] at hab
    by_cases h2 : key y = key z
    · rw [if_neg (fun h => h1 (h.trans h2.symm)), ← h2]
      exact hab
    · rw [if_neg h2] at hbc
      by_cases h3 : key x = key z
      · exfalso
        rw [h3] at hab
        have h4 := hKtr (key z) (key y) (key z) hab hbc
        rw [hKirr (key z)] at h4
        exact Bool.noConfusion h4
      · rw [if_neg h3]
        exact hKtr _ _ _ hab hbc

theorem ifLex_connex {α κ : Type} [DecidableEq κ] (key : α → κ)
    (ltK : κ → κ → Bool) (inner : α → α → Bool) (P : α → α → Prop)
    (hKcon : ∀ a b, a ≠ b → ltK a b = true ∨ ltK b a = true)
    (hIcon : ∀ x y, P x y → key x = key y → x ≠ y →
      inner x y = true ∨ inner y x = true) :
    ∀ x y, P x y → x ≠ y →
      ifLex key ltK inner x y = true ∨ ifLex key ltK inner y x = true := by
  intro x y hP hne
  rw [ifLex, ifLex]
  by_cases h1 : key x = key y
  · rw [if_pos h1, if_pos h1.symm]
    exact hIcon x y hP h1 hne
  · rw [if_neg h1, if_neg (fun h => h1 h.symm)]
    exact hKcon _ _ h1

theorem ltLabels_irr : ∀ l, ltLabels l l = false :=
  pyListLt_irr _ (fun a => bltIrr a)

theorem ltLabels_trans : ∀ a b c, ltLabels a b = true → ltLabels b c = true →
    ltLabels a c = true :=
  pyListLt_trans _ (fun a => bltIrr a) (fun a b c => bltTrans a b c)

theorem ltLabels_connex : ∀ a b, a ≠ b →
    ltLabels a b = true ∨ ltLabels b a = true :=
  pyListLt_connex _ (fun a b => bltConnex a b)

theorem bbIrr : ∀ b : Bool, (!b && b) = false := by decide

theorem bbTrans : ∀ a b c : Bool, (!a && b) = true → (!b && c) = true →
    (!a && c) = true := by decide

theorem bbConnex : ∀ a b : Bool, a ≠ b → (!a && b) = true ∨ (!b && a) = true := by
  decide

theorem ltEntry_irr : ∀ x, ltEntry x x = false :=
  ifLex_irr (fun e : Prod' × ℚ => e.1.1) ltLabels
    (ifLex (fun e : Prod' × ℚ => e.1.2) ltYf (fun x y => decide (x.2 < y.2)))
    (ifLex_irr (fun e : Prod' × ℚ => e.1.2) ltYf (fun x y => decide (x.2 < y.2))
      (fun a => bltIrr a.2))

theorem ltEntry_trans : ∀ x y z, ltEntry x y = true → ltEntry y z = true →
    ltEntry x z = true :=
  ifLex_trans (fun e : Prod' × ℚ => e.1.1) ltLabels
    (ifLex (fun e : Prod' × ℚ => e.1.2) ltYf (fun x y => decide (x.2 < y.2)))
    ltLabels_irr ltLabels_trans
    (fun x y z _ _ =>
      ifLex_trans (fun e : Prod' × ℚ => e.1.2) ltYf
        (fun x y => decide (x.2 < y.2)) ltYf_irr ltYf_trans
        (fun x y z _ _ h1 h2 => bltTrans x.2 y.2 z.2 h1 h2) x y z)

theorem ltEntry_connex : ∀ x y, x ≠ y →
    ltEntry x y = true ∨ ltEntry y x = true := by
  intro x y hne
  refine ifLex_connex (fun e : Prod' × ℚ => e.1.1) ltLabels
    (ifLex (fun e : Prod' × ℚ => e.1.2) ltYf (fun x y => decide (x.2 < y.2)))
    (fun _ _ => True) ltLabels_connex ?_ x y trivial hne
  intro x y _ h1 hne2
  refine ifLex_connex (fun e : Prod' × ℚ => e.1.2) ltYf
    (fun x y => decide (x.2 < y.2))
    (fun x y => x.1.1 = y.1.1) ltYf_connex ?_ x y h1 hne2
  intro x y hp h2 hne3
  exact bltConnex x.2 y.2 (fun hq => hne3 (Prod.ext (Prod.ext hp h2) hq))

theorem ddLt_irr : ∀ x, ddLt x x = false :=
  ifLex_irr (fun e : Prod' × ℚ => dopSortKey e.1) skLt
    (ifLex (fun e : Prod' × ℚ => hasSep (headLab e.1.1))
      (fun s1 s2 => !s1 && s2) ltEntry)
    (ifLex_irr (fun e : Prod' × ℚ => hasSep (headLab e.1.1))
      (fun s1 s2 => !s1 && s2) ltEntry ltEntry_irr)

theorem ddLt_trans : ∀ x y z, ddLt x y = true → ddLt y z = true →
    ddLt x z = true :=
  ifLex_trans (fun e : Prod' × ℚ => dopSortKey e.1) skLt
    (ifLex (fun e : Prod' × ℚ => hasSep (headLab e.1.1))
      (fun s1 s2 => !s1 && s2) ltEntry)
    skLt_irr skLt_trans
    (fun x y z _ _ =>
      ifLex_trans (fun e : Prod' × ℚ => hasSep (headLab e.1.1))
        (fun s1 s2 => !s1 && s2) ltEntry bbIrr bbTrans
        (fun x y z _ _ => ltEntry_trans x y z) x y z)

theorem ddLt_connex : ∀ x y, x ≠ y → ddLt x y = true ∨ ddLt y x = true := by
  intro x y hne
  refine ifLex_connex (fun e : Prod' × ℚ => dopSortKey e.1) skLt
    (ifLex (fun e : Prod' × ℚ => hasSep (headLab e.1.1))
      (fun s1 s2 => !s1 && s2) ltEntry)
    (fun _ _ => True) skLt_connex ?_ x y trivial hne
  intro x y _ _ hne2
  exact ifLex_connex (fun e : Prod' × ℚ => hasSep (headLab e.1.1))
    (fun s1 s2 => !s1 && s2) ltEntry (fun _ _ => True) bbConnex
    (fun x y _ _ hne3 => ltEntry_connex x y hne3) x y trivial hne2

theorem ltProdT_connex : ∀ x y : Prod', x ≠ y →
    ltProdT x y = true ∨ ltProdT y x = true := by
  intro x y hne
  refine ifLex_connex (fun p : Prod' => p.1) ltLabels
    (ifLex (fun p : Prod' => p.2) ltYf (fun _ _ => false))
    (fun _ _ => True) ltLabels_connex ?_ x y trivial hne
  intro x y _ h1 hne2
  refine ifLex_connex (fun p : Prod' => p.2) ltYf (fun _ _ => false)
    (fun x y : Prod' => x.1 = y.1) ltYf_connex ?_ x y h1 hne2
  intro x y hp h2 hne3
  exact absurd (Prod.ext hp h2) hne3

theorem pkLt_connex : ∀ x y : Prod', x ≠ y →
    pkLt x y = true ∨ pkLt y x = true := by
  intro x y hne
  refine ifLex_connex (fun p : Prod' => dopSortKey p) skLt
    (ifLex (fun p : Prod' => hasSep (headLab p.1))
      (fun s1 s2 => !s1 && s2)
      (ifLex (fun p : Prod' => p.1) ltLabels
        (ifLex (fun p : Prod' => p.2) ltYf (fun _ _ => false))))
    (fun _ _ => True) skLt_connex ?_ x y trivial hne
  intro x y _ _ hne2
  exact ifLex_connex (fun p : Prod' => hasSep (headLab p.1))
    (fun s1 s2 => !s1 && s2)
    (ifLex (fun p : Prod' => p.1) ltLabels
      (ifLex (fun p : Prod' => p.2) ltYf (fun _ _ => false)))
    (fun _ _ => True) bbConnex
    (fun x y _ _ hne3 => ltProdT_connex x y hne3) x y trivial hne2

theorem ddLt_eq_pkLt (x y : Prod' × ℚ) (hne : x.1 ≠ y.1) :
    ddLt x y = pkLt x.1 y.1 := by
  unfold ddLt pkLt
  by_cases h1 : dopSortKey x.1 = dopSortKey y.1
  · rw [if_pos h1, if_pos h1]
    by_cases h2 : hasSep (headLab x.1.1) = hasSep (headLab y.1.1)
    · rw [if_pos h2, if_pos h2]
      unfold ltEntry ltProdT
      by_cases h3 : x.1.1 = y.1.1
      · rw [if_pos h3, if_pos h3]
        by_cases h4 : x.1.2 = y.1.2
        · exact absurd (Prod.ext h3 h4) hne
        · rw [if_neg h4, if_neg h4]
      · rw [if_neg h3, if_neg h3]
    · rw [if_neg h2, if_neg h2]
  · rw [if_neg h1, if_neg h1]

theorem odInsert_keys {κ β : Type} [DecidableEq κ] :
    ∀ (l : List (κ × β)) (k : κ) (v : β),
      (odInsert l k v).map Prod.fst =
        if k ∈ l.map Prod.fst then l.map Prod.fst
        else l.map Prod.fst ++ [k] := by
  intro l
  induction l with
  | nil => intro k v; rfl
  | cons e rest ih =>
    obtain ⟨kh, vh⟩ := e
    intro k v
    rw [odInsert]
    by_cases h : kh = k
    · subst h
      rw [if_pos rfl, List.map_cons, List.map_cons,
        if_pos (List.mem_cons_self _ _)]
    · rw [if_neg h, List.map_cons, List.map_cons, ih k v]
      by_cases h2 : k ∈ rest.map Prod.fst
      · rw [if_pos h2, if_pos (List.mem_cons_of_mem kh h2)]
      · rw [if_neg h2,
          if_neg (fun hh => (List.mem_cons.mp hh).elim (fun he => h he.symm) h2)]
        exact (List.cons_append kh _ _).symm

theorem odInsert_keys_nodup {κ β : Type} [DecidableEq κ] (l : List (κ × β))
    (k : κ) (v : β) (h : (l.map Prod.fst).Nodup) :
    ((odInsert l k v).map Prod.fst).Nodup := by
  rw [odInsert_keys]
  by_cases h2 : k ∈ l.map Prod.fst
  · rw [if_pos h2]
    exact h
  · rw [if_neg h2]
    refine h.append (List.nodup_singleton k) ?_
    intro a ha hb
    exact h2 ((List.mem_singleton.mp hb) ▸ ha)

theorem foldl_odInsert_nodup {κ β : Type} [DecidableEq κ] (c : β) :
    ∀ (qs : List κ) (g : List (κ × β)), (g.map Prod.fst).Nodup →
      ((qs.foldl (fun g q => odInsert g q c) g).map Prod.fst).Nodup := by
  intro qs
  induction qs with
  | nil => intro g h; exact h
  | cons q qs ih =>
    intro g h
    exact ih _ (odInsert_keys_nodup g q c h)

theorem ddLoop_keys_nodup {α : Type} [DecidableEq α]
    (fragments : List (α × FragVal))
    (flattenF : α → UniqueIDs String → (List Prod' × String) × UniqueIDs String)
    (ewe : Bool) :
    ∀ (rest : List (α × FragVal)) (grammar : List (Prod' × ℚ))
      (bt : List (Prod' × String)) (ids : UniqueIDs String),
      (grammar.map Prod.fst).Nodup →
      (((ddLoop fragments flattenF ewe rest grammar bt ids).1).map
        Prod.fst).Nodup := by
  intro rest
  induction rest with
  | nil => intro g bt ids h; exact h
  | cons fv rest ih =>
    intro g bt ids h
    obtain ⟨frag, v⟩ := fv
    rw [ddLoop]
    split
    · exact ih _ _ _ h
    · split
      · exact ih _ _ _ (odInsert_keys_nodup _ _ _ h)
      · exact ih _ _ _ (foldl_odInsert_nodup _ _ _ (odInsert_keys_nodup _ _ _ h))

theorem mem_enum_filterMap {β γ : Type} (l : List β) (f : β → Option γ)
    (n : Nat) (t : γ) :
    (n, t) ∈ l.enum.filterMap (fun ne => (f ne.2).map (fun x => (ne.1, x))) ↔
      ∃ e, l[n]? = some e ∧ f e = some t := by
  rw [List.mem_filterMap]
  constructor
  · rintro ⟨⟨i, x⟩, hmem, heq⟩
    simp only [Option.map_eq_some'] at heq
    obtain ⟨a, hfa, hpair⟩ := heq
    obtain ⟨rfl, rfl⟩ := Prod.mk.inj hpair
    exact ⟨x, (List.mk_mem_enum_iff_getElem?).mp hmem, hfa⟩
  · rintro ⟨e, hget, hfe⟩
    exact ⟨(n, e), (List.mk_mem_enum_iff_getElem?).mpr hget, by rw [hfe]; rfl⟩

theorem doubledop_parts {α : Type} [DecidableEq α]
    (fragments : List (α × FragVal))
    (flattenF : α → UniqueIDs String → (List Prod' × String) × UniqueIDs String)
    (ewe : Bool) :
    doubledop fragments flattenF ewe =
      ((sortStable ddLt
          (ddLoop fragments flattenF ewe fragments [] [] UniqueIDs.initU).1).map
        (fun e => (e.1, e.2 / ntfdQOf (sortStable ddLt
          (ddLoop fragments flattenF ewe fragments [] [] UniqueIDs.initU).1)
          (headLab e.1.1))),
       (sortStable ddLt
          (ddLoop fragments flattenF ewe fragments [] [] UniqueIDs.initU).1).enum.filterMap
         (fun ne => ((ddLoop fragments flattenF ewe fragments [] []
             UniqueIDs.initU).2.1.lookup ne.2.1).map
           (fun tmpl => (ne.1, tmpl)))) := rfl

/-- C7: the grammar returned by doubledop is sorted in the claimed
cluster order -- lexical rules last, grouped by word; among non-lexical
rules, fragment-head productions before binarization continuations
(detected by the reserved separator in the LHS); ties broken by the
rule tuple itself -- with pairwise distinct rules, and its
backtransform associates exactly the integer positions n of the final
sorted grammar whose rule is a recorded fragment head with that
fragment's reconstruction template. -/
theorem c7_doubledop_sorted {α : Type} [DecidableEq α]
    (fragments : List (α × FragVal))
    (flattenF : α → UniqueIDs String → (List Prod' × String) × UniqueIDs String)
    (ewe : Bool) :
    ((doubledop fragments flattenF ewe).1.map Prod.fst).Nodup ∧
    (doubledop fragments flattenF ewe).1.Pairwise
      (fun x y => pkLt x.1 y.1 = true) ∧
    (∀ n tmpl, (n, tmpl) ∈ (doubledop fragments flattenF ewe).2 ↔
      ∃ e, (doubledop fragments flattenF ewe).1[n]? = some e ∧
        (ddLoop fragments flattenF ewe fragments [] []
          UniqueIDs.initU).2.1.lookup e.1 = some tmpl) := by
  obtain ⟨hA, hT⟩ := ltCompl ddLt ddLt_irr ddLt_trans ddLt_connex
  have hnodup0 : (((ddLoop fragments flattenF ewe fragments [] []
      UniqueIDs.initU).1).map Prod.fst).Nodup :=
    ddLoop_keys_nodup fragments flattenF ewe fragments [] [] UniqueIDs.initU
      List.nodup_nil
  have hperm := sortStable_perm ddLt
    (ddLoop fragments flattenF ewe fragments [] [] UniqueIDs.initU).1
  have hnodupS : ((sortStable ddLt (ddLoop fragments flattenF ewe fragments
      [] [] UniqueIDs.initU).1).map Prod.fst).Nodup :=
    ((hperm.map Prod.fst).nodup_iff).mpr hnodup0
  have hpw := sortStable_pairwise ddLt hT hA
    (ddLoop fragments flattenF ewe fragments [] [] UniqueIDs.initU).1
  have hnePW : (sortStable ddLt (ddLoop fragments flattenF ewe fragments
      [] [] UniqueIDs.initU).1).Pairwise (fun x y => x.1 ≠ y.1) := by
    rw [List.Nodup, List.pairwise_map] at hnodupS
    exact hnodupS
  have hstrict : (sortStable ddLt (ddLoop fragments flattenF ewe fragments
      [] [] UniqueIDs.initU).1).Pairwise
      (fun x y => pkLt x.1 y.1 = true) := by
    refine (hpw.and hnePW).imp ?_
    intro x y hxy
    rcases pkLt_connex x.1 y.1 hxy.2 with hp | hp
    · exact hp
    · exfalso
      have hb := ddLt_eq_pkLt y x (fun h => hxy.2 h.symm)
      rw [hxy.1, hp] at hb
      exact Bool.noConfusion hb
  rw [doubledop_parts]
  refine ⟨?_, ?_, ?_⟩
  · have heq : (((sortStable ddLt (ddLoop fragments flattenF ewe fragments
        [] [] UniqueIDs.initU).1).map
          (fun e => (e.1, e.2 / ntfdQOf (sortStable ddLt (ddLoop fragments
            flattenF ewe fragments [] [] UniqueIDs.initU).1)
            (headLab e.1.1)))).map Prod.fst) =
        ((sortStable ddLt (ddLoop fragments flattenF ewe fragments [] []
          UniqueIDs.initU).1).map Prod.fst) := by
      rw [List.map_map]
      rfl
    rw [heq]
    exact hnodupS
  · exact hstrict.map _ (fun a b h => h)
  · intro n tmpl
    refine (mem_enum_filterMap
      (sortStable ddLt (ddLoop fragments flattenF ewe fragments [] []
        UniqueIDs.initU).1)
      (fun e : Prod' × ℚ => (ddLoop fragments flattenF ewe fragments [] []
        UniqueIDs.initU).2.1.lookup e.1) n tmpl).trans ?_
    constructor
    · rintro ⟨e, he, hl⟩
      refine ⟨(e.1, e.2 / ntfdQOf (sortStable ddLt (ddLoop fragments flattenF
        ewe fragments [] [] UniqueIDs.initU).1) (headLab e.1.1)), ?_, hl⟩
      rw [List.getElem?_map, he]
      rfl
    · rintro ⟨e, he, hl⟩
      rw [List.getElem?_map] at he
      cases hs : (sortStable ddLt (ddLoop fragments flattenF ewe fragments
          [] [] UniqueIDs.initU).1)[n]? with
      | none => rw [hs] at he; exact Option.noConfusion he
      | some e0 =>
        rw [hs] at he
        have he2 := Option.some.inj he
        refine ⟨e0, rfl, ?_⟩
        rw [← he2] at hl
        exact hl

set_option maxHeartbeats 4000000 in
set_option synthInstance.maxHeartbeats 1000000 in
set_option maxRecDepth 8000 in
/-- C6 (code bug): when two distinct fragments flatten to the same
head production, the source constructs the disambiguating label and the
spliced productions prod1 and prod2, but then still keys the grammar
mass and the backtransform template by the ORIGINAL head production
(grammar[prod] and backtransform[prod]) and updates the grammar only
with prods[1:]: with two fragments of masses 2 and 3 flattening to the
head S -> NP VP, the resulting grammar holds the shared head rule once
(with the second fragment's mass, normalized here to 1), holds the
splice continuation S}<0> -> NP, never contains the respliced head
S -> S}<0> VP, and the backtransform keeps only the second fragment's
template t2 while the first fragment's template t1 is lost. -/
theorem c6_collision_bug :
    (doubledop [(0, FragVal.freqVal 2), (1, FragVal.freqVal 3)]
      (fun f ids => (([((["S", "NP", "VP"] : List String), Yf.comps [[0, 1]])],
        if f = 0 then "t1" else "t2"), ids)) false =
      ([((["S", "NP", "VP"], Yf.comps [[0, 1]]), 1),
        ((["S\x7d<0>", "NP"], Yf.comps [[0]]), 1)],
       [(0, "t2")])) ∧
    ((["S", "S\x7d<0>", "VP"], Yf.comps [[0, 1]]) ∉
      (doubledop [(0, FragVal.freqVal 2), (1, FragVal.freqVal 3)]
        (fun f ids => (([((["S", "NP", "VP"] : List String), Yf.comps [[0, 1]])],
          if f = 0 then "t1" else "t2"), ids)) false).1.map Prod.fst) ∧
    ("t1" ∉ (doubledop [(0, FragVal.freqVal 2), (1, FragVal.freqVal 3)]
        (fun f ids => (([((["S", "NP", "VP"] : List String), Yf.comps [[0, 1]])],
          if f = 0 then "t1" else "t2"), ids)) false).2.map Prod.snd) := by
  have h : doubledop [(0, FragVal.freqVal 2), (1, FragVal.freqVal 3)]
      (fun f ids => (([((["S", "NP", "VP"] : List String), Yf.comps [[0, 1]])],
        if f = 0 then "t1" else "t2"), ids)) false =
      ([((["S", "NP", "VP"], Yf.comps [[0, 1]]), 1),
        ((["S\x7d<0>", "NP"], Yf.comps [[0]]), 1)],
       [(0, "t2")]) := by
    norm_num +decide [doubledop, ddLoop, odInsert, getprob, sortStable, insertStrict,
      ddLt, ltEntry, ltLabels, pyListLt, ltYf, skLt, dopSortKey, hasSep, listHasSep,
      headLab, numComps, countZeros, ntfdQOf, UniqueIDs.nextU, UniqueIDs.initU,
      Nat.repr, Nat.toDigits, Nat.toDigitsCore, Nat.digitChar, List.lookup,
      List.enum, List.enumFrom, List.filterMap]
  refine ⟨h, ?_, ?_⟩
  · rw [h]
    decide
  · rw [h]
    decide

/-- C8 (corrected): in packed-graph decoration the packed_graph_ids
counter is reset to 0 at the start of EVERY decorate_with_ids_mem call,
i.e. once per tree (the result never depends on the incoming counter);
the cache is NOT reset at run start -- dopreduction clears it only
after a successful corpus pass, returning an empty cache -- and it
persists across the trees of a run, so an equal fragment recurring in a
later tree is decorated with exactly the labels cached at its first
occurrence (the decorated results of the two trees coincide even
though their tree indices differ). -/
theorem c8_packedgraph_cache :
    (∀ (n : Nat) (t : PT) (sent : Sent) (c c' : Nat)
      (cache : List ((PT × Sent) × PT)),
      decorate_with_ids_mem n t sent ⟨c, cache⟩ =
        decorate_with_ids_mem n t sent ⟨c', cache⟩) ∧
    (∀ (trees : List PT) (sents : List Sent) (ewe : Bool) (gst : PGState),
      (dopreduction trees sents ewe true gst).1.isOk = true →
      (dopreduction trees sents ewe true gst).2.cache = []) ∧
    ((decorate_with_ids_mem 1
        (PT.mkNode "S" [PT.mkNode "NP" [PT.idx 0], PT.mkNode "VP" [PT.idx 1]])
        [some "mary", some "walks"]
        (decorate_with_ids_mem 0
          (PT.mkNode "S" [PT.mkNode "NP" [PT.idx 0], PT.mkNode "VP" [PT.idx 1]])
          [some "mary", some "walks"] ⟨0, []⟩).2).1 =
      (decorate_with_ids_mem 0
        (PT.mkNode "S" [PT.mkNode "NP" [PT.idx 0], PT.mkNode "VP" [PT.idx 1]])
        [some "mary", some "walks"] ⟨0, []⟩).1) ∧
    ((decorate_with_ids_mem 1
        (PT.mkNode "S" [PT.mkNode "X" [PT.idx 0], PT.mkNode "Y" [PT.idx 1]])
        [some "mary", some "walks"]
        (decorate_with_ids_mem 0
          (PT.mkNode "S" [PT.mkNode "NP" [PT.idx 0], PT.mkNode "VP" [PT.idx 1]])
          [some "mary", some "walks"] ⟨0, []⟩).2).2.cache.take 2 =
      (decorate_with_ids_mem 0
        (PT.mkNode "S" [PT.mkNode "NP" [PT.idx 0], PT.mkNode "VP" [PT.idx 1]])
        [some "mary", some "walks"] ⟨0, []⟩).2.cache) := by
  refine ⟨?_, ?_, by decide, by decide⟩
  · intro n t sent c c' cache
    rfl
  · intro trees sents ewe gst h
    unfold dopreduction at h ⊢
    rcases hq : dopCollect true 0 trees sents (fun _ => 0) (fun _ => 0) [] gst
      with ⟨res, g2⟩
    rw [hq] at h
    rcases res with er | ⟨fd, ntfd, keys⟩
    · exact Bool.noConfusion h
    · rfl

theorem c8_packedgraph_cache_witness :
    (dopreduction
      [PT.mkNode "S" [PT.mkNode "NP" [PT.idx 0], PT.mkNode "VP" [PT.idx 1]]]
      [[some "mary", some "walks"]] false true ⟨0, []⟩).1.isOk = true ∧
    (dopreduction
      [PT.mkNode "S" [PT.mkNode "NP" [PT.idx 0], PT.mkNode "VP" [PT.idx 1]]]
      [[some "mary", some "walks"]] false true ⟨0, []⟩).2.cache = [] := by
  refine ⟨?ok, (c8_packedgraph_cache.2.1
    [PT.mkNode "S" [PT.mkNode "NP" [PT.idx 0], PT.mkNode "VP" [PT.idx 1]]]
    [[some "mary", some "walks"]] false ⟨0, []⟩ ?ok)⟩
  case ok => decide

/-- C8 counterexample: after decorating the first tree of a run the
counter stands at 2, yet the first fresh subtree of the SECOND tree of
the same run is labelled with id 1 again ((X 0)@1-1): the counter
restarts per tree, not per run. Moreover a decoration call reuses the
cache carried in from before the run (decorating the same tree with
tree index 1 on the carried-in cache reproduces the tree-0 labels,
unlike a run started with an empty cache), so the cache is not reset at
run start either. -/
theorem c8_counterexample :
    ((decorate_with_ids_mem 0
        (PT.mkNode "S" [PT.mkNode "NP" [PT.idx 0], PT.mkNode "VP" [PT.idx 1]])
        [some "mary", some "walks"] ⟨0, []⟩).2.pgIds = 2) ∧
    ((decorate_with_ids_mem 1
        (PT.mkNode "S" [PT.mkNode "X" [PT.idx 0], PT.mkNode "Y" [PT.idx 1]])
        [some "mary", some "walks"]
        (decorate_with_ids_mem 0
          (PT.mkNode "S" [PT.mkNode "NP" [PT.idx 0], PT.mkNode "VP" [PT.idx 1]])
          [some "mary", some "walks"] ⟨0, []⟩).2).1 =
      PT.mkNode "S" [PT.mkNode "(X 0)@1-1" [PT.idx 0],
        PT.mkNode "(Y 1)@1-2" [PT.idx 1]]) ∧
    ((decorate_with_ids_mem 1
        (PT.mkNode "S" [PT.mkNode "NP" [PT.idx 0], PT.mkNode "VP" [PT.idx 1]])
        [some "mary", some "walks"]
        (decorate_with_ids_mem 0
          (PT.mkNode "S" [PT.mkNode "NP" [PT.idx 0], PT.mkNode "VP" [PT.idx 1]])
          [some "mary", some "walks"] ⟨0, []⟩).2).1 ≠
      (decorate_with_ids_mem 1
        (PT.mkNode "S" [PT.mkNode "NP" [PT.idx 0], PT.mkNode "VP" [PT.idx 1]])
        [some "mary", some "walks"] ⟨0, []⟩).1) := by
  refine ⟨by decide, by decide, by decide⟩

/-! ## Normalization of the estimators (claim C1) -/

theorem pyDedupAux_nodup {α : Type} [DecidableEq α] :
    ∀ (l seen : List α), (pyDedupAux seen l).Nodup ∧
      ∀ x ∈ pyDedupAux seen l, x ∉ seen := by
  intro l
  induction l with
  | nil => intro seen; exact ⟨List.nodup_nil, fun x hx => absurd hx (List.not_mem_nil x)⟩
  | cons a t ih =>
    intro seen
    rw [pyDedupAux]
    split
    · exact ih seen
    · obtain ⟨hnd, hns⟩ := ih (seen ++ [a])
      constructor
      · rw [List.nodup_cons]
        refine ⟨fun hmem => ?_, hnd⟩
        exact hns a hmem (List.mem_append_right seen (List.mem_singleton_self a))
      · intro x hx hxs
        rcases List.mem_cons.mp hx with rfl | hx2
        · rename_i hne
          exact hne hxs
        · exact hns x hx2 (List.mem_append_left _ hxs)

theorem pyDedup_nodup {α : Type} [DecidableEq α] (l : List α) :
    (pyDedup l).Nodup :=
  (pyDedupAux_nodup l []).1

theorem pyDedupAux_complete {α : Type} [DecidableEq α] :
    ∀ (l seen : List α), ∀ x ∈ l, x ∉ seen → x ∈ pyDedupAux seen l := by
  intro l
  induction l with
  | nil => intro seen x hx; exact absurd hx (List.not_mem_nil x)
  | cons a t ih =>
    intro seen x hx hxs
    rw [pyDedupAux]
    split
    · rcases List.mem_cons.mp hx with rfl | hx2
      · rename_i hmem
        exact absurd hmem hxs
      · exact ih seen x hx2 hxs
    · rcases List.mem_cons.mp hx with rfl | hx2
      · exact List.mem_cons_self _ _
      · by_cases hxa : x = a
        · exact hxa ▸ List.mem_cons_self _ _
        · refine List.mem_cons_of_mem a (ih (seen ++ [a]) x hx2 ?_)
          intro hmem
          rcases List.mem_append.mp hmem with h2 | h2
          · exact hxs h2
          · exact hxa (List.mem_singleton.mp h2)

theorem mem_pyDedup_iff {α : Type} [DecidableEq α] (l : List α) (x : α) :
    x ∈ pyDedup l ↔ x ∈ l :=
  ⟨mem_pyDedup l x, fun h =>
    pyDedupAux_complete l [] x h (List.not_mem_nil x)⟩

theorem sum_indicator_nodup (g : Prod' → ℚ) (a : Prod') :
    ∀ d : List Prod', d.Nodup → a ∈ d →
      (d.map (fun x => if x = a then g x else 0)).sum = g a := by
  intro d
  induction d with
  | nil => intro _ h; exact absurd h (List.not_mem_nil a)
  | cons b t ih =>
    intro hnd hmem
    rw [List.map_cons, List.sum_cons]
    rcases List.mem_cons.mp hmem with rfl | hm
    · rw [if_pos rfl]
      have hz : (t.map (fun x => if x = a then g x else 0)).sum = 0 := by
        apply List.sum_eq_zero
        intro y hy
        obtain ⟨x, hx, rfl⟩ := List.mem_map.mp hy
        rw [if_neg (show ¬ x = a from fun h => (List.nodup_cons.mp hnd).1 (h ▸ hx))]
      rw [hz, add_zero]
    · have hb : ¬ (b = a) := by
        rintro rfl
        exact (List.nodup_cons.mp hnd).1 hm
      rw [if_neg hb, zero_add]
      exact ih (List.nodup_cons.mp hnd).2 hm

theorem count_weighted_sum (f : Prod' → ℚ) :
    ∀ (l d : List Prod'), d.Nodup → (∀ x ∈ l, x ∈ d) →
      (d.map (fun x => (l.count x : ℚ) * f x)).sum = (l.map f).sum := by
  intro l
  induction l with
  | nil =>
    intro d _ _
    simp [List.count_nil]
  | cons a t ih =>
    intro d hnd hsub
    have h1 : (d.map (fun x => (t.count x : ℚ) * f x)).sum = (t.map f).sum :=
      ih d hnd (fun x hx => hsub x (List.mem_cons_of_mem a hx))
    have hsplit : ∀ x, ((a :: t).count x : ℚ) * f x =
        (t.count x : ℚ) * f x + (if x = a then f x else 0) := by
      intro x
      rw [List.count_cons]
      by_cases h : x = a
      · subst h
        simp only [beq_self_eq_true, if_pos rfl]
        push_cast
        ring
      · have hb : (a == x) = false := beq_eq_false_iff_ne.mpr (fun hh => h hh.symm)
        rw [if_neg h, hb]
        push_cast
        simp
    rw [List.map_cons, List.sum_cons]
    calc (d.map (fun x => ((a :: t).count x : ℚ) * f x)).sum
        = (d.map (fun x => (t.count x : ℚ) * f x +
            (if x = a then f x else 0))).sum := by
          exact congrArg List.sum (List.map_congr_left (fun x _ => hsplit x))
      _ = (d.map (fun x => (t.count x : ℚ) * f x)).sum +
            (d.map (fun x => if x = a then f x else 0)).sum := List.sum_map_add
      _ = (t.map f).sum + f a := by
          rw [h1, sum_indicator_nodup f a d hnd (hsub a (List.mem_cons_self a t))]
      _ = f a + (t.map f).sum := add_comm _ _

theorem sum_div_const (l : List ℚ) (d : ℚ) :
    (l.map (fun x => x / d)).sum = l.sum / d := by
  induction l with
  | nil => simp
  | cons a t ih =>
    rw [List.map_cons, List.sum_cons, List.sum_cons, ih, add_div]

theorem normalize_sumW (items : List (Prod' × ℚ)) (den : String → ℚ)
    (hden : ∀ L, den L =
      ((items.filter (fun e => headLab e.1.1 = L)).map (fun e => e.2)).sum)
    (L : String) (hpos : den L ≠ 0) :
    sumW (items.map (fun e => (e.1, e.2 / den (headLab e.1.1)))) L = 1 := by
  rw [sumW, List.filter_map, List.map_map]
  have hcong : List.map ((fun e : Prod' × ℚ => e.2) ∘
        (fun e : Prod' × ℚ => (e.1, e.2 / den (headLab e.1.1))))
      (items.filter ((fun e : Prod' × ℚ => decide (headLab e.1.1 = L)) ∘
        (fun e : Prod' × ℚ => (e.1, e.2 / den (headLab e.1.1))))) =
      List.map (fun e : Prod' × ℚ => e.2 / den L)
        (items.filter (fun e => headLab e.1.1 = L)) := by
    apply List.map_congr_left
    intro e he
    have := List.mem_filter.mp he
    have hL : headLab e.1.1 = L := of_decide_eq_true this.2
    show e.2 / den (headLab e.1.1) = e.2 / den L
    rw [hL]
  rw [hcong]
  have h2 : List.map (fun e : Prod' × ℚ => e.2 / den L)
      (items.filter (fun e => headLab e.1.1 = L)) =
      ((items.filter (fun e => headLab e.1.1 = L)).map
        (fun e : Prod' × ℚ => e.2)).map (fun x => x / den L) := by
    rw [List.map_map]
    rfl
  rw [h2, sum_div_const, ← hden L]
  exact div_self hpos

theorem dedup_items_norm (A : List Prod') (L : String)
    (hex : ∃ p ∈ A, headLab p.1 = L) :
    sumW (((pyDedup A).map (fun p => (p, A.count p))).map
      (fun pf => (pf.1, (pf.2 : ℚ) /
        (lhsfdOf ((pyDedup A).map (fun p => (p, A.count p)))
          (headLab pf.1.1) : ℚ)))) L = 1 := by
  obtain ⟨p0, hp0, hL0⟩ := hex
  have hpD : p0 ∈ pyDedup A := (mem_pyDedup_iff A p0).mpr hp0
  have hpI : (p0, A.count p0) ∈
      ((pyDedup A).map (fun p => (p, A.count p))).filter
        (fun pf => headLab pf.1.1 = L) :=
    List.mem_filter.mpr ⟨List.mem_map_of_mem _ hpD, decide_eq_true hL0⟩
  have hcnt : 0 < A.count p0 := List.count_pos_iff.mpr hp0
  have hle : A.count p0 ≤
      lhsfdOf ((pyDedup A).map (fun p => (p, A.count p))) L :=
    List.single_le_sum (fun y _ => Nat.zero_le y) _
      (List.mem_map_of_mem (fun pf => pf.2) hpI)
  have hpos : ((lhsfdOf ((pyDedup A).map (fun p => (p, A.count p))) L : Nat) : ℚ) ≠ 0 := by
    rw [Nat.cast_ne_zero]
    exact (lt_of_lt_of_le hcnt hle).ne'
  have hden : ∀ M, ((lhsfdOf ((pyDedup A).map (fun p => (p, A.count p))) M : Nat) : ℚ) =
      (((((pyDedup A).map (fun p => (p, A.count p))).map
          (fun pf => (pf.1, (pf.2 : ℚ)))).filter
        (fun e => headLab e.1.1 = M)).map (fun e => e.2)).sum := by
    intro M
    rw [List.filter_map, List.map_map, lhsfdOf, Nat.cast_list_sum, List.map_map]
    rfl
  have hn := normalize_sumW
    (((pyDedup A).map (fun p => (p, A.count p))).map (fun pf => (pf.1, (pf.2 : ℚ))))
    (fun M => (lhsfdOf ((pyDedup A).map (fun p => (p, A.count p))) M : ℚ))
    hden L hpos
  rw [List.map_map] at hn
  exact hn

theorem induce_plcfrs_norm (trees : List PT) (sents : List Sent)
    (g : List (Prod' × ℚ)) (h : induce_plcfrs trees sents = .ok g) :
    ∀ L ∈ g.map (fun e => headLab e.1.1), sumW g L = 1 := by
  rcases hm : (trees.zip sents).mapM (fun ts => lcfrs_productions ts.1 ts.2 false)
    with er | prodlists
  · unfold induce_plcfrs at h
    rw [hm] at h
    exact Except.noConfusion h
  · unfold induce_plcfrs at h
    rw [hm] at h
    have hgeq : g = ((pyDedup (prodlists.flatten)).map
        (fun p => (p, (prodlists.flatten).count p))).map
        (fun pf => (pf.1, (pf.2 : ℚ) /
          (lhsfdOf ((pyDedup (prodlists.flatten)).map
            (fun p => (p, (prodlists.flatten).count p)))
            (headLab pf.1.1) : ℚ))) := (Except.ok.inj h).symm
    intro L hL
    rw [hgeq] at hL ⊢
    obtain ⟨e, he, hLe⟩ := List.mem_map.mp hL
    obtain ⟨pf, hpf, rfl⟩ := List.mem_map.mp he
    obtain ⟨p, hp, rfl⟩ := List.mem_map.mp hpf
    exact dedup_items_norm (prodlists.flatten) L
      ⟨p, (mem_pyDedup_iff _ p).mp hp, hLe⟩

theorem doubledop_norm {α : Type} [DecidableEq α]
    (fragments : List (α × FragVal))
    (flattenF : α → UniqueIDs String → (List Prod' × String) × UniqueIDs String)
    (ewe : Bool)
    (hpos : ∀ e ∈ (ddLoop fragments flattenF ewe fragments [] []
      UniqueIDs.initU).1, 0 < e.2) :
    ∀ L ∈ (doubledop fragments flattenF ewe).1.map (fun e => headLab e.1.1),
      sumW (doubledop fragments flattenF ewe).1 L = 1 := by
  intro L hL
  replace hL : L ∈ ((sortStable ddLt (ddLoop fragments flattenF ewe fragments
      [] [] UniqueIDs.initU).1).map
      (fun e => (e.1, e.2 / ntfdQOf (sortStable ddLt (ddLoop fragments flattenF
        ewe fragments [] [] UniqueIDs.initU).1) (headLab e.1.1)))).map
      (fun e => headLab e.1.1) := hL
  show sumW ((sortStable ddLt (ddLoop fragments flattenF ewe fragments
      [] [] UniqueIDs.initU).1).map
      (fun e => (e.1, e.2 / ntfdQOf (sortStable ddLt (ddLoop fragments flattenF
        ewe fragments [] [] UniqueIDs.initU).1) (headLab e.1.1)))) L = 1
  have hposS : ∀ e ∈ sortStable ddLt (ddLoop fragments flattenF ewe fragments
      [] [] UniqueIDs.initU).1, 0 < e.2 := by
    intro e he
    exact hpos e ((sortStable_perm ddLt _).mem_iff.mp he)
  obtain ⟨e, he, hLe⟩ := List.mem_map.mp hL
  obtain ⟨e0, he0, rfl⟩ := List.mem_map.mp he
  have hmemf : e0 ∈ (sortStable ddLt (ddLoop fragments flattenF ewe fragments
      [] [] UniqueIDs.initU).1).filter (fun e => headLab e.1.1 = L) :=
    List.mem_filter.mpr ⟨he0, decide_eq_true hLe⟩
  have hne : ((sortStable ddLt (ddLoop fragments flattenF ewe fragments
      [] [] UniqueIDs.initU).1).filter (fun e => headLab e.1.1 = L)).map
      (fun e => e.2) ≠ [] :=
    List.ne_nil_of_mem (List.mem_map_of_mem (fun e => e.2) hmemf)
  have hsumpos : 0 < (((sortStable ddLt (ddLoop fragments flattenF ewe fragments
      [] [] UniqueIDs.initU).1).filter (fun e => headLab e.1.1 = L)).map
      (fun e => e.2)).sum := by
    apply List.sum_pos
    · intro x hx
      obtain ⟨e1, he1, rfl⟩ := List.mem_map.mp hx
      exact hposS e1 (List.mem_filter.mp he1).1
    · exact hne
  exact normalize_sumW _ (ntfdQOf (sortStable ddLt (ddLoop fragments flattenF
      ewe fragments [] [] UniqueIDs.initU).1)) (fun M => rfl) L hsumpos.ne'

/-! ## Decimal rendering and decorated-label injectivity -/

theorem toDigitsCore_eq_natDigs :
    ∀ (fuel n : Nat) (acc : List Char), n < fuel →
      Nat.toDigitsCore 10 fuel n acc = natDigs n ++ acc := by
  intro fuel
  induction fuel with
  | zero => intro n acc h; exact absurd h (Nat.not_lt_zero n)
  | succ f ih =>
    intro n acc h
    rw [Nat.toDigitsCore]
    by_cases h10 : n / 10 = 0
    · have hn : n < 10 := by omega
      rw [if_pos h10, natDigs, if_pos hn, Nat.mod_eq_of_lt hn]
      rfl
    · have hn : ¬ n < 10 := fun hl => h10 (Nat.div_eq_of_lt hl)
      have hlt : n / 10 < f := by
        have := Nat.div_lt_self (show 0 < n by omega) (show 1 < 10 by omega)
        omega
      rw [if_neg h10, natDigs, if_neg hn, ih (n / 10) _ hlt, List.append_assoc]
      rfl

theorem digitChar_lt10 (n : Nat) (h : n < 10) :
    digVal (Nat.digitChar n) = n ∧ Nat.digitChar n ≠ '@' ∧
      Nat.digitChar n ≠ '-' := by
  interval_cases n <;> exact ⟨rfl, by decide, by decide⟩

theorem natDigs_spec : ∀ n, (∀ c ∈ natDigs n, c ≠ '@' ∧ c ≠ '-') ∧
    digsVal (natDigs n) = n := by
  intro n
  induction n using Nat.strong_induction_on with
  | _ n ih =>
    by_cases h : n < 10
    · rw [natDigs, if_pos h]
      refine ⟨?_, ?_⟩
      · intro c hc
        rw [List.mem_singleton] at hc
        subst hc
        exact (digitChar_lt10 n h).2
      · have hd := (digitChar_lt10 n h).1
        simp [digsVal, List.foldl, hd]
    · rw [natDigs, if_neg h]
      have hrec := ih (n / 10) (Nat.div_lt_self (by omega) (by omega))
      refine ⟨?_, ?_⟩
      · intro c hc
        rcases List.mem_append.mp hc with h1 | h1
        · exact hrec.1 c h1
        · rw [List.mem_singleton] at h1
          subst h1
          exact (digitChar_lt10 (n % 10) (Nat.mod_lt n (by omega))).2
      · have h2 := hrec.2
        rw [digsVal] at h2 ⊢
        rw [List.foldl_append, h2]
        show (n / 10) * 10 + digVal (Nat.digitChar (n % 10)) = n
        rw [(digitChar_lt10 (n % 10) (Nat.mod_lt n (by omega))).1]
        omega

theorem natDigs_inj (a b : Nat) (h : natDigs a = natDigs b) : a = b := by
  have ha := (natDigs_spec a).2
  have hb := (natDigs_spec b).2
  rw [← ha, ← hb, h]

theorem repr_data_eq_natDigs (n : Nat) : (Nat.repr n).data = natDigs n := by
  show (Nat.toDigits 10 n).asString.data = natDigs n
  rw [Nat.toDigits, toDigitsCore_eq_natDigs (n + 1) n [] (Nat.lt_succ_self n),
    List.append_nil]
  rfl

theorem decLabel_data (s : String) (n i : Nat) :
    (decLabel s n i).data =
      s.data ++ '@' :: (natDigs n ++ '-' :: natDigs i) := by
  show (s ++ "@" ++ Nat.repr n ++ "-" ++ Nat.repr i).data = _
  rw [String.data_append, String.data_append, String.data_append,
    String.data_append, repr_data_eq_natDigs, repr_data_eq_natDigs]
  simp

theorem hasAt_decLabel (s : String) (n i : Nat) :
    hasAt (decLabel s n i) = true := by
  rw [hasAt, decLabel_data]
  rw [List.any_eq_true]
  exact ⟨'@', List.mem_append_right _ (List.mem_cons_self _ _), by decide⟩

theorem hasAt_false_not_mem (s : String) (h : hasAt s = false) :
    '@' ∉ s.data := by
  intro hmem
  rw [hasAt, List.any_eq_false] at h
  have h2 := h '@' hmem
  simp at h2

theorem append_marker_inj {α : Type} (m : α) :
    ∀ (a b c d : List α), m ∉ a → m ∉ b → a ++ m :: c = b ++ m :: d →
      a = b ∧ c = d := by
  intro a
  induction a with
  | nil =>
    intro b c d _ hb he
    cases b with
    | nil =>
      rw [List.nil_append, List.nil_append] at he
      exact ⟨rfl, (List.cons.inj he).2⟩
    | cons x b2 =>
      rw [List.nil_append, List.cons_append] at he
      obtain ⟨h1, _⟩ := List.cons.inj he
      exact absurd (h1 ▸ List.mem_cons_self x b2) hb
  | cons y a2 ih =>
    intro b c d ha hb he
    cases b with
    | nil =>
      rw [List.nil_append, List.cons_append] at he
      obtain ⟨h1, _⟩ := List.cons.inj he
      exact absurd (h1.symm ▸ List.mem_cons_self y a2) ha
    | cons x b2 =>
      rw [List.cons_append, List.cons_append] at he
      obtain ⟨h1, h2⟩ := List.cons.inj he
      obtain ⟨h3, h4⟩ := ih b2 c d (fun hm => ha (List.mem_cons_of_mem y hm))
        (fun hm => hb (List.mem_cons_of_mem x hm)) h2
      exact ⟨by rw [h1, h3], h4⟩

theorem natDigs_no_dash (n : Nat) : '-' ∉ natDigs n := by
  intro h
  exact ((natDigs_spec n).1 '-' h).2 rfl

theorem decLabel_inj (s1 s2 : String) (n1 i1 n2 i2 : Nat)
    (h1 : hasAt s1 = false) (h2 : hasAt s2 = false)
    (he : decLabel s1 n1 i1 = decLabel s2 n2 i2) :
    s1 = s2 ∧ n1 = n2 ∧ i1 = i2 := by
  have hd : (decLabel s1 n1 i1).data = (decLabel s2 n2 i2).data := by rw [he]
  rw [decLabel_data, decLabel_data] at hd
  obtain ⟨hs, hrest⟩ := append_marker_inj '@' s1.data s2.data _ _
    (hasAt_false_not_mem s1 h1) (hasAt_false_not_mem s2 h2) hd
  obtain ⟨hn, hi⟩ := append_marker_inj '-' (natDigs n1) (natDigs n2) _ _
    (natDigs_no_dash n1) (natDigs_no_dash n2) hrest
  exact ⟨String.ext hs, natDigs_inj _ _ hn, natDigs_inj _ _ hi⟩

/-! ## Decoration structure lemmas -/

theorem decoL_counter (n : Nat) :
    ∀ (cs : PTs) (c : Nat), (PTs.decoL n cs c).2 = c + cs.numNodes := by
  intro cs
  induction cs using PTs.rec
    (motive_1 := fun t => ∀ c, (PT.decoT n t c).2 = c + t.numNodes) with
  | leaf v => rename_i c; simp [PT.decoT, PT.numNodes]
  | node l cs ih =>
    rename_i c
    show (PTs.decoL n cs (c + 1)).2 = c + (1 + cs.numNodes)
    rw [ih (c + 1)]
    omega
  | nil => intro c; simp [PTs.decoL, PTs.numNodes]
  | cons t ts iht ihts =>
    intro c
    show (PTs.decoL n ts (PT.decoT n t c).2).2 = c + (t.numNodes + ts.numNodes)
    rw [ihts, iht c]
    omega

theorem decoT_counter (n : Nat) (t : PT) (c : Nat) :
    (PT.decoT n t c).2 = c + t.numNodes := by
  cases t with
  | leaf v => simp [PT.decoT, PT.numNodes]
  | node l cs =>
    show (PTs.decoL n cs (c + 1)).2 = c + (1 + cs.numNodes)
    rw [decoL_counter]
    omega

theorem decoL_leaves (n : Nat) :
    ∀ (cs : PTs) (c : Nat), (PTs.decoL n cs c).1.leavesLV = cs.leavesLV := by
  intro cs
  induction cs using PTs.rec
    (motive_1 := fun t => ∀ c, (PT.decoT n t c).1.leavesLV = t.leavesLV) with
  | leaf v => rename_i c; rfl
  | node l cs ih =>
    rename_i c
    show (PTs.decoL n cs (c + 1)).1.leavesLV = cs.leavesLV
    exact ih (c + 1)
  | nil => intro c; rfl
  | cons t ts iht ihts =>
    intro c
    show (PT.decoT n t c).1.leavesLV ++
      (PTs.decoL n ts (PT.decoT n t c).2).1.leavesLV = t.leavesLV ++ ts.leavesLV
    rw [iht c, ihts]

theorem decoT_leaves (n : Nat) (t : PT) (c : Nat) :
    (PT.decoT n t c).1.leavesLV = t.leavesLV := by
  cases t with
  | leaf v => rfl
  | node l cs => exact decoL_leaves n cs (c + 1)

theorem decoL_toList (n : Nat) :
    ∀ (cs : PTs) (c : Nat), (PTs.decoL n cs c).1.toList =
      (cs.childIds c).map (fun p => (PT.decoT n p.1 p.2).1) := by
  intro cs
  induction cs using PTs.indPTs with
  | hnil => intro c; rfl
  | hcons t ts ih =>
    intro c
    show (PT.decoT n t c).1 ::
        (PTs.decoL n ts (PT.decoT n t c).2).1.toList = _
    rw [decoT_counter, ih (c + t.numNodes)]
    rfl

theorem decoL_subtrees (n : Nat) :
    ∀ (cs : PTs) (c : Nat), (PTs.decoL n cs c).1.subtreesPT =
      (cs.subIdsL c).map (fun p => (PT.decoT n p.1 p.2).1) := by
  intro cs
  induction cs using PTs.rec
    (motive_1 := fun t => ∀ c, (PT.decoT n t c).1.subtreesPT =
      (t.subIds c).map (fun p => (PT.decoT n p.1 p.2).1)) with
  | leaf v => rename_i c; rfl
  | node l cs ih =>
    rename_i c
    show PT.node (decLabel l n c) (PTs.decoL n cs (c + 1)).1 ::
        (PTs.decoL n cs (c + 1)).1.subtreesPT = _
    rw [ih (c + 1)]
    rfl
  | nil => intro c; rfl
  | cons t ts iht ihts =>
    intro c
    show (PT.decoT n t c).1.subtreesPT ++
        (PTs.decoL n ts (PT.decoT n t c).2).1.subtreesPT = _
    rw [decoT_counter, iht c, ihts (c + t.numNodes), PTs.subIdsL, List.map_append]

theorem decoT_isNode (n : Nat) (t : PT) (c : Nat) :
    (PT.decoT n t c).1.isNode = t.isNode := by
  cases t <;> rfl

theorem decoT_node_eq (n : Nat) (l : String) (cs : PTs) (c : Nat) :
    (PT.decoT n (.node l cs) c).1 =
      .node (decLabel l n c) (PTs.decoL n cs (c + 1)).1 := rfl

/-! ## Production alignment lemmas -/

theorem subIdsL_fst : ∀ (cs : PTs) (c : Nat),
    (cs.subIdsL c).map Prod.fst = cs.subtreesPT := by
  intro cs
  induction cs using PTs.rec
    (motive_1 := fun t => ∀ c, (t.subIds c).map Prod.fst = t.subtreesPT) with
  | leaf v => rename_i c; rfl
  | node l cs ih =>
    rename_i c
    show (PT.node l cs, c).1 :: (cs.subIdsL (c + 1)).map Prod.fst = _
    rw [ih (c + 1)]
    rfl
  | nil => intro c; rfl
  | cons t ts iht ihts =>
    intro c
    show ((t.subIds c) ++ ts.subIdsL (c + t.numNodes)).map Prod.fst = _
    rw [List.map_append, iht c, ihts (c + t.numNodes)]
    rfl

theorem subIds_fst (t : PT) (c : Nat) :
    (t.subIds c).map Prod.fst = t.subtreesPT := by
  cases t with
  | leaf v => rfl
  | node l cs =>
    show (PT.node l cs, c).1 :: (cs.subIdsL (c + 1)).map Prod.fst = _
    rw [subIdsL_fst]
    rfl

theorem subtreesPT_isNode :
    ∀ (cs : PTs), ∀ st ∈ cs.subtreesPT, st.isNode = true := by
  intro cs
  induction cs using PTs.rec
    (motive_1 := fun t => ∀ st ∈ t.subtreesPT, st.isNode = true) with
  | leaf v => rename_i st hst; exact absurd hst (List.not_mem_nil st)
  | node l cs ih =>
    rename_i st hst
    rcases List.mem_cons.mp hst with rfl | h
    · rfl
    · exact ih st h
  | nil => intro st hst; exact absurd hst (List.not_mem_nil st)
  | cons t ts iht ihts =>
    intro st hst
    rcases List.mem_append.mp hst with h | h
    · exact iht st h
    · exact ihts st h

theorem prodsLoop_map_ok (t : PT) (lv : List LV) (s : Sent)
    (f : PT → Prod') :
    ∀ sts : List PT,
      (∀ st ∈ sts, prodOfSubtree t lv s false st = .ok (some (f st))) →
      prodsLoop t lv s false sts = .ok (sts.map f) := by
  intro sts
  induction sts with
  | nil => intro _; rfl
  | cons st rest ih =>
    intro h
    rw [prodsLoop, h st (List.mem_cons_self _ _),
      ih (fun x hx => h x (List.mem_cons_of_mem st hx))]
    rfl

theorem dopPairKeys_ok : ∀ (ps : List (Prod' × Prod')),
    (∀ p ∈ ps, p.1.2 = p.2.2) →
    dopPairKeys (ps.map Prod.fst) (ps.map Prod.snd) =
      .ok (ps.flatMap (fun ab => genKeysPair ab.1 ab.2)) := by
  intro ps
  induction ps with
  | nil => intro _; rfl
  | cons ab rest ih =>
    intro h
    rw [List.map_cons, List.map_cons, dopPairKeys]
    rw [if_pos (h ab (List.mem_cons_self _ _))]
    rw [ih (fun x hx => h x (List.mem_cons_of_mem ab hx))]
    rfl

theorem flatMap_congr_mem {α β : Type} (l : List α) (f g : α → List β)
    (h : ∀ x ∈ l, f x = g x) : l.flatMap f = l.flatMap g := by
  induction l with
  | nil => rfl
  | cons a t ih =>
    rw [List.flatMap_cons, List.flatMap_cons, h a (List.mem_cons_self _ _),
      ih (fun x hx => h x (List.mem_cons_of_mem a hx))]

theorem nodePairs_map_eq (pairs : List (PT × Nat)) (F : PT × Nat → PT)
    (hF : ∀ p ∈ pairs, (F p).leavesLV = p.1.leavesLV) :
    nodePairs (pairs.map F) = nodePairs (pairs.map Prod.fst) := by
  rw [nodePairs, nodePairs, List.enum_map, List.enum_map, List.flatMap_map,
    List.flatMap_map]
  apply flatMap_congr_mem
  intro x hx
  obtain ⟨i, p⟩ := x
  have hp : p ∈ pairs := List.getElem?_mem ((List.mk_mem_enum_iff_getElem?).mp hx)
  show ((F p).leavesLV).filterMap _ = (p.1.leavesLV).filterMap _
  rw [hF p hp]

theorem prodOf_plain (t : PT) (lv : List LV) (s : Sent) (l : String) (cs : PTs)
    (hd : goodDopSub s (.node l cs) = true)
    (hg : goodSubtree (.node l cs) = true) :
    prodOfSubtree t lv s false (.node l cs) =
      .ok (some (plainProd s (.node l cs))) := by
  have hpp : plainProd s (.node l cs) = (match cs.toList with
      | [.leaf (.ival i)] =>
        ([l, "Epsilon"], Yf.lex ((s.getD i.toNat none).getD ""))
      | cl => (l :: cl.map PT.labelOf, yfOf cl)) := rfl
  have hps : prodOfSubtree t lv s false (.node l cs) = (match cs.toList with
      | [] => .error (.emptyNode t lv s)
      | c0 :: rest =>
        match c0 with
        | .leaf (.ival i) =>
          if rest = [] ∧ (s.getD i.toNat none) ≠ none then
            .ok (some ([l, "Epsilon"], .lex ((s.getD i.toNat none).getD "")))
          else .ok none
        | .leaf (.sval w) => .error (.neitherNode (.leaf (.sval w)))
        | .node l0 cs0 =>
          if (c0 :: rest).all PT.isNode = true then
            match sortedNodePairs (c0 :: rest) with
            | [] => .error .popEmpty
            | p :: ps =>
              .ok (some (l :: (c0 :: rest).map PT.labelOf,
                .comps (scanYF p ps)))
          else .error (.neitherNode (.node l0 cs0))) := rfl
  have hd2 : (match cs.toList with
      | [.leaf (.ival i)] => decide ((s.getD i.toNat none) ≠ none)
      | [] => false
      | c0 :: rest => (c0 :: rest).all PT.isNode) = true := hd
  have hg2 : (match cs.toList with
      | [] => false
      | c0 :: rest =>
        match c0 with
        | .leaf _ => true
        | .node _ _ =>
          (c0 :: rest).all PT.isNode &&
            !(sortedNodePairs (c0 :: rest)).isEmpty) = true := hg
  clear hd hg
  rw [hps, hpp]
  cases hcl : cs.toList with
  | nil => rw [hcl] at hd2; exact Bool.noConfusion hd2
  | cons c0 rest =>
    rw [hcl] at hd2 hg2
    cases c0 with
    | leaf v =>
      cases v with
      | ival i =>
        cases rest with
        | nil =>
          have hw : (s.getD i.toNat none) ≠ none := of_decide_eq_true hd2
          show (if ([] : List PT) = [] ∧ (s.getD i.toNat none) ≠ none then
              Except.ok (some ([l, "Epsilon"],
                Yf.lex ((s.getD i.toNat none).getD "")))
            else Except.ok none) =
            Except.ok (some ([l, "Epsilon"],
              Yf.lex ((s.getD i.toNat none).getD "")))
          rw [if_pos ⟨rfl, hw⟩]
        | cons c1 rest2 => exact Bool.noConfusion hd2
      | sval w => exact Bool.noConfusion hd2
    | node l0 cs0 =>
      have hall : (PT.node l0 cs0 :: rest).all PT.isNode = true := hd2
      have hne :
          ¬ (sortedNodePairs (PT.node l0 cs0 :: rest)).isEmpty = true := by
        simp only [Bool.and_eq_true, Bool.not_eq_true'] at hg2
        rw [hg2.2]
        exact Bool.noConfusion
      show (if (PT.node l0 cs0 :: rest).all PT.isNode = true then
          match sortedNodePairs (PT.node l0 cs0 :: rest) with
          | [] => Except.error PErr.popEmpty
          | p :: ps =>
            Except.ok (some (l :: (PT.node l0 cs0 :: rest).map PT.labelOf,
              Yf.comps (scanYF p ps)))
        else Except.error (PErr.neitherNode (PT.node l0 cs0))) =
        Except.ok (some (l :: (PT.node l0 cs0 :: rest).map PT.labelOf,
          yfOf (PT.node l0 cs0 :: rest)))
      rw [if_pos hall]
      cases hsp : sortedNodePairs (PT.node l0 cs0 :: rest) with
      | nil => exact absurd (by rw [hsp]; rfl) hne
      | cons p ps =>
        rw [yfOf, hsp]

theorem childIds_fst : ∀ (cs : PTs) (c : Nat),
    (cs.childIds c).map Prod.fst = cs.toList := by
  intro cs
  induction cs using PTs.indPTs with
  | hnil => intro c; rfl
  | hcons t ts ih =>
    intro c
    show t :: (ts.childIds (c + t.numNodes)).map Prod.fst = _
    rw [ih]
    rfl

theorem decoT_labelOf_node (n : Nat) (p : PT × Nat) (hn : p.1.isNode = true) :
    (PT.decoT n p.1 p.2).1.labelOf = decLabel p.1.labelOf n p.2 := by
  obtain ⟨st, c⟩ := p
  cases st with
  | leaf v => exact Bool.noConfusion hn
  | node l cs => rfl

theorem prodOf_dec (n : Nat) (t' : PT) (lv' : List LV) (s : Sent)
    (hd0 : String) (l : String) (cs : PTs) (cbase : Nat)
    (hdp : goodDopSub s (.node l cs) = true)
    (hg : goodSubtree (.node l cs) = true) :
    prodOfSubtree t' lv' s false (.node hd0 (PTs.decoL n cs cbase).1) =
      .ok (some (decProd n s hd0 cbase (.node l cs))) := by
  have hps : prodOfSubtree t' lv' s false
      (.node hd0 (PTs.decoL n cs cbase).1) =
      (match (PTs.decoL n cs cbase).1.toList with
      | [] => .error (.emptyNode t' lv' s)
      | c0 :: rest =>
        match c0 with
        | .leaf (.ival i) =>
          if rest = [] ∧ (s.getD i.toNat none) ≠ none then
            .ok (some ([hd0, "Epsilon"],
              .lex ((s.getD i.toNat none).getD "")))
          else .ok none
        | .leaf (.sval w) => .error (.neitherNode (.leaf (.sval w)))
        | .node l0 cs0 =>
          if (c0 :: rest).all PT.isNode = true then
            match sortedNodePairs (c0 :: rest) with
            | [] => .error .popEmpty
            | p :: ps =>
              .ok (some (hd0 :: (c0 :: rest).map PT.labelOf,
                .comps (scanYF p ps)))
          else .error (.neitherNode (.node l0 cs0))) := rfl
  have hdd : decProd n s hd0 cbase (.node l cs) = (match cs.toList with
      | [.leaf (.ival i)] =>
        ([hd0, "Epsilon"], .lex ((s.getD i.toNat none).getD ""))
      | cl => (hd0 :: (cs.childIds cbase).map
          (fun p => decLabel p.1.labelOf n p.2), yfOf cl)) := rfl
  have hd2 : (match cs.toList with
      | [.leaf (.ival i)] => decide ((s.getD i.toNat none) ≠ none)
      | [] => false
      | c0 :: rest => (c0 :: rest).all PT.isNode) = true := hdp
  have hg2 : (match cs.toList with
      | [] => false
      | c0 :: rest =>
        match c0 with
        | .leaf _ => true
        | .node _ _ =>
          (c0 :: rest).all PT.isNode &&
            !(sortedNodePairs (c0 :: rest)).isEmpty) = true := hg
  clear hdp hg
  rw [hps, hdd, decoL_toList]
  cases cs with
  | nil => exact Bool.noConfusion hd2
  | cons c0 rest =>
    cases c0 with
    | leaf v =>
      cases v with
      | ival i =>
        cases rest using PTs.casesOn with
        | nil =>
          have hw : (s.getD i.toNat none) ≠ none := of_decide_eq_true hd2
          show (if ([] : List PT) = [] ∧ (s.getD i.toNat none) ≠ none then
              Except.ok (some ([hd0, "Epsilon"],
                Yf.lex ((s.getD i.toNat none).getD "")))
            else Except.ok none) = _
          rw [if_pos ⟨rfl, hw⟩]
          rfl
        | cons c1 rest2 => exact Bool.noConfusion hd2
      | sval w => exact Bool.noConfusion hd2
    | node l0 cs0 =>
      have hd3 : (PT.node l0 cs0 :: rest.toList).all PT.isNode = true := hd2
      have hg3 : ((PT.node l0 cs0 :: rest.toList).all PT.isNode &&
          !(sortedNodePairs (PT.node l0 cs0 :: rest.toList)).isEmpty) = true := hg2
      have hmemN : ∀ p ∈ (PTs.cons (.node l0 cs0) rest).childIds cbase,
          p.1.isNode = true := by
        intro p hp
        have hmem : p.1 ∈ PT.node l0 cs0 :: rest.toList := by
          have hm2 : p.1 ∈ (PTs.cons (.node l0 cs0) rest).toList := by
            rw [← childIds_fst (PTs.cons (.node l0 cs0) rest) cbase]
            exact List.mem_map_of_mem Prod.fst hp
          exact hm2
        exact List.all_eq_true.mp hd3 p.1 hmem
      have hsplit : ((PTs.cons (PT.node l0 cs0) rest).childIds cbase).map
          (fun p => (PT.decoT n p.1 p.2).1) =
          PT.node (decLabel l0 n cbase) (PTs.decoL n cs0 (cbase + 1)).1 ::
            (rest.childIds (cbase + (PT.node l0 cs0).numNodes)).map
              (fun p => (PT.decoT n p.1 p.2).1) := rfl
  -- continued below
      have hallD : (PT.node (decLabel l0 n cbase)
            (PTs.decoL n cs0 (cbase + 1)).1 ::
          (rest.childIds (cbase + (PT.node l0 cs0).numNodes)).map
            (fun p => (PT.decoT n p.1 p.2).1)).all PT.isNode = true := by
        simp only [List.all_cons, Bool.and_eq_true]
        refine ⟨rfl, ?_⟩
        rw [List.all_eq_true]
        intro x hx
        obtain ⟨p, hp, rfl⟩ := List.mem_map.mp hx
        rw [decoT_isNode]
        exact hmemN p (List.mem_cons_of_mem _ hp)
      have hnp := nodePairs_map_eq
        ((PTs.cons (PT.node l0 cs0) rest).childIds cbase)
        (fun p => (PT.decoT n p.1 p.2).1)
        (fun p _ => decoT_leaves n p.1 p.2)
      rw [childIds_fst] at hnp
      have hsnp : sortedNodePairs
          (PT.node (decLabel l0 n cbase) (PTs.decoL n cs0 (cbase + 1)).1 ::
            (rest.childIds (cbase + (PT.node l0 cs0).numNodes)).map
              (fun p => (PT.decoT n p.1 p.2).1)) =
          sortedNodePairs (PT.node l0 cs0 :: rest.toList) := by
        rw [sortedNodePairs, sortedNodePairs, ← hsplit, hnp]
        rfl
      have hlabs : (PT.node (decLabel l0 n cbase)
            (PTs.decoL n cs0 (cbase + 1)).1 ::
          (rest.childIds (cbase + (PT.node l0 cs0).numNodes)).map
            (fun p => (PT.decoT n p.1 p.2).1)).map PT.labelOf =
          ((PTs.cons (PT.node l0 cs0) rest).childIds cbase).map
            (fun p => decLabel p.1.labelOf n p.2) := by
        rw [← hsplit, List.map_map]
        exact List.map_congr_left
          (fun p hp => decoT_labelOf_node n p (hmemN p hp))
      have hne : ¬ (sortedNodePairs
          (PT.node l0 cs0 :: rest.toList)).isEmpty = true := by
        simp only [Bool.and_eq_true, Bool.not_eq_true'] at hg3
        rw [hg3.2]
        exact Bool.noConfusion
      rw [hsplit]
      show (if (PT.node (decLabel l0 n cbase)
              (PTs.decoL n cs0 (cbase + 1)).1 ::
            (rest.childIds (cbase + (PT.node l0 cs0).numNodes)).map
              (fun p => (PT.decoT n p.1 p.2).1)).all PT.isNode = true then
          match sortedNodePairs (PT.node (decLabel l0 n cbase)
              (PTs.decoL n cs0 (cbase + 1)).1 ::
            (rest.childIds (cbase + (PT.node l0 cs0).numNodes)).map
              (fun p => (PT.decoT n p.1 p.2).1)) with
          | [] => Except.error PErr.popEmpty
          | p :: ps =>
            Except.ok (some (hd0 :: (PT.node (decLabel l0 n cbase)
                (PTs.decoL n cs0 (cbase + 1)).1 ::
              (rest.childIds (cbase + (PT.node l0 cs0).numNodes)).map
                (fun p => (PT.decoT n p.1 p.2).1)).map PT.labelOf,
              Yf.comps (scanYF p ps)))
          else Except.error (PErr.neitherNode (PT.node (decLabel l0 n cbase)
            (PTs.decoL n cs0 (cbase + 1)).1))) =
        Except.ok (some (hd0 ::
          ((PTs.cons (PT.node l0 cs0) rest).childIds cbase).map
            (fun p => decLabel p.1.labelOf n p.2),
          yfOf (PT.node l0 cs0 :: rest.toList)))
      rw [if_pos hallD, hsnp, hlabs]
      cases hsp : sortedNodePairs (PT.node l0 cs0 :: rest.toList) with
      | nil => exact absurd (by rw [hsp]; rfl) hne
      | cons p ps =>
        rw [yfOf, hsp]

theorem lcfrs_ok_of_good (t : PT) (s : Sent) (hgi : goodInput t s = true) :
    lcfrs_productions t s false =
      prodsLoop t t.leavesLV s false t.subtreesPT := by
  rw [goodInput] at hgi
  simp only [Bool.and_eq_true] at hgi
  obtain ⟨⟨⟨⟨h1, h2⟩, h3⟩, h4⟩, _⟩ := hgi
  rw [lcfrs_productions]
  rw [if_neg (fun hc => hc (of_decide_eq_true h1)),
    if_neg (of_decide_eq_true h2),
    if_neg (fun hc => hc h3),
    if_neg (fun hc => hc h4)]

theorem prodsLoop_map_ok2 {α : Type} (t : PT) (lv : List LV) (s : Sent)
    (G : α → PT) (f : α → Prod') :
    ∀ pairs : List α,
      (∀ x ∈ pairs, prodOfSubtree t lv s false (G x) = .ok (some (f x))) →
      prodsLoop t lv s false (pairs.map G) = .ok (pairs.map f) := by
  intro pairs
  induction pairs with
  | nil => intro _; rfl
  | cons x rest ih =>
    intro h
    rw [List.map_cons, prodsLoop, h x (List.mem_cons_self _ _),
      ih (fun y hy => h y (List.mem_cons_of_mem x hy))]
    rfl

theorem decProd_yf (nn : Nat) (s : Sent) (hd0 : String) (cbase : Nat)
    (l : String) (cs : PTs) :
    (decProd nn s hd0 cbase (.node l cs)).2 = (plainProd s (.node l cs)).2 := by
  have h1 : (decProd nn s hd0 cbase (.node l cs)).2 = (match cs.toList with
      | [.leaf (.ival i)] => Yf.lex ((s.getD i.toNat none).getD "")
      | cl => yfOf cl) := by
    rw [decProd]
    cases hcl : cs.toList with
    | nil => rfl
    | cons c0 rest =>
      cases c0 with
      | leaf v =>
        cases v with
        | ival i => cases rest with | nil => rfl | cons c1 r2 => rfl
        | sval w => rfl
      | node l0 cs0 => rfl
  have h2 : (plainProd s (.node l cs)).2 = (match cs.toList with
      | [.leaf (.ival i)] => Yf.lex ((s.getD i.toNat none).getD "")
      | cl => yfOf cl) := by
    have hpp : plainProd s (.node l cs) = (match cs.toList with
        | [.leaf (.ival i)] =>
          ([l, "Epsilon"], Yf.lex ((s.getD i.toNat none).getD ""))
        | cl => (l :: cl.map PT.labelOf, yfOf cl)) := rfl
    rw [hpp]
    cases hcl : cs.toList with
    | nil => rfl
    | cons c0 rest =>
      cases c0 with
      | leaf v =>
        cases v with
        | ival i => cases rest with | nil => rfl | cons c1 r2 => rfl
        | sval w => rfl
      | node l0 cs0 => rfl
  rw [h1, h2]

theorem treePairs_fst (nn : Nat) (s : Sent) (t : PT) :
    (treePairs nn s t).map Prod.fst = t.subtreesPT.map (plainProd s) := by
  cases t with
  | leaf v => rfl
  | node l cs =>
    show plainProd s (.node l cs) ::
        ((cs.subIdsL 0).map (fun stc =>
          (plainProd s stc.1, decProd nn s (decLabel stc.1.labelOf nn stc.2)
            (stc.2 + 1) stc.1))).map Prod.fst =
      plainProd s (.node l cs) :: cs.subtreesPT.map (plainProd s)
    rw [List.map_map, ← subIdsL_fst cs 0, List.map_map]
    rfl

theorem decorate_leaves (nn : Nat) (t : PT) :
    (decorate_with_ids nn t).leavesLV = t.leavesLV := by
  cases t with
  | leaf v => rfl
  | node l cs => exact decoL_leaves nn cs 0

theorem goodInput_parts (t : PT) (s : Sent) (hgi : goodInput t s = true) :
    t.leavesLV.Nodup ∧ s ≠ [] ∧
    t.leavesLV.all (fun v => match v with
      | LV.ival _ => true | LV.sval _ => false) = true ∧
    t.leavesLV.all (fun v => match v with
      | LV.ival i => 0 ≤ i && i < s.length | LV.sval _ => false) = true ∧
    (∀ st ∈ t.subtreesPT, goodSubtree st = true) := by
  rw [goodInput] at hgi
  simp only [Bool.and_eq_true] at hgi
  obtain ⟨⟨⟨⟨h1, h2⟩, h3⟩, h4⟩, h5⟩ := hgi
  exact ⟨of_decide_eq_true h1, of_decide_eq_true h2, h3, h4,
    List.all_eq_true.mp h5⟩

theorem tree_prods (nn : Nat) (t : PT) (s : Sent)
    (hgt : goodDopTree t s = true) :
    lcfrs_productions t s false = .ok ((treePairs nn s t).map Prod.fst) ∧
    lcfrs_productions (decorate_with_ids nn t) s false =
      .ok ((treePairs nn s t).map Prod.snd) := by
  rw [goodDopTree] at hgt
  simp only [Bool.and_eq_true] at hgt
  obtain ⟨⟨hgi, hshape⟩, _⟩ := hgt
  obtain ⟨h1, h2, h3, h4, h5⟩ := goodInput_parts t s hgi
  have hshape' : ∀ st ∈ t.subtreesPT, goodDopSub s st = true :=
    List.all_eq_true.mp hshape
  constructor
  · rw [lcfrs_ok_of_good t s hgi, treePairs_fst]
    apply prodsLoop_map_ok
    intro st hst
    have hnode : st.isNode = true := by
      cases t with
      | leaf v => exact absurd hst (List.not_mem_nil st)
      | node l cs =>
        rcases List.mem_cons.mp hst with rfl | hm
        · rfl
        · exact subtreesPT_isNode cs st hm
    cases st with
    | leaf v => exact Bool.noConfusion hnode
    | node l' cs' =>
      exact prodOf_plain t t.leavesLV s l' cs'
        (hshape' _ hst) (h5 _ hst)
  · have hlv : (decorate_with_ids nn t).leavesLV = t.leavesLV :=
      decorate_leaves nn t
    rw [lcfrs_productions, hlv]
    rw [if_neg (fun hc => hc h1),
      if_neg h2,
      if_neg (fun hc => hc h3),
      if_neg (fun hc => hc h4)]
    cases t with
    | leaf v => rfl
    | node l cs =>
      have hroot : PT.node l cs ∈ (PT.node l cs).subtreesPT :=
        List.mem_cons_self _ _
      have hsubs : (decorate_with_ids nn (PT.node l cs)).subtreesPT =
          PT.node l (PTs.decoL nn cs 0).1 ::
            (cs.subIdsL 0).map (fun p => (PT.decoT nn p.1 p.2).1) := by
        show PT.node l (PTs.decoL nn cs 0).1 ::
            (PTs.decoL nn cs 0).1.subtreesPT = _
        rw [decoL_subtrees]
      rw [hsubs, prodsLoop]
      rw [prodOf_dec nn (decorate_with_ids nn (PT.node l cs))
        (PT.node l cs).leavesLV s l l cs 0 (hshape' _ hroot) (h5 _ hroot)]
      rw [prodsLoop_map_ok2 (decorate_with_ids nn (PT.node l cs))
        (PT.node l cs).leavesLV s (fun p => (PT.decoT nn p.1 p.2).1)
        (fun stc => decProd nn s (decLabel stc.1.labelOf nn stc.2)
          (stc.2 + 1) stc.1)
        (cs.subIdsL 0) ?_]
      · show Except.ok _ = _
        have hm : (treePairs nn s (PT.node l cs)).map Prod.snd =
            decProd nn s l 0 (.node l cs) ::
              (cs.subIdsL 0).map (fun stc =>
                decProd nn s (decLabel stc.1.labelOf nn stc.2)
                  (stc.2 + 1) stc.1) := by
          show (decProd nn s l 0 (.node l cs)) ::
              ((cs.subIdsL 0).map _).map Prod.snd = _
          rw [List.map_map]
          rfl
        rw [hm]
      · intro x hx
        obtain ⟨st', c'⟩ := x
        have hstm : st' ∈ cs.subtreesPT := by
          rw [← subIdsL_fst cs 0]
          exact List.mem_map_of_mem Prod.fst hx
        have hstm2 : st' ∈ (PT.node l cs).subtreesPT :=
          List.mem_cons_of_mem _ hstm
        have hnode := subtreesPT_isNode cs st' hstm
        cases st' with
        | leaf v => exact Bool.noConfusion hnode
        | node l' cs'' =>
          show prodOfSubtree _ _ s false
            (PT.node (decLabel l' nn c') (PTs.decoL nn cs'' (c' + 1)).1) = _
          exact prodOf_dec nn (decorate_with_ids nn (PT.node l cs))
            (PT.node l cs).leavesLV s (decLabel l' nn c') l' cs'' (c' + 1)
            (hshape' _ hstm2) (h5 _ hstm2)

theorem nsubt_node (l : String) (cs : PTs) :
    (PT.node l cs).nsubt = match cs.toList.head? with
      | some (.node _ _) => cs.nsubtL
      | _ => 1 := rfl

theorem nsubt_pos : ∀ t : PT, 1 ≤ t.nsubt := by
  intro t
  induction t using PT.rec (motive_2 := fun cs => 1 ≤ cs.nsubtL) with
  | leaf v => exact le_refl 1
  | node l cs ih =>
    rw [nsubt_node]
    cases hh : cs.toList.head? with
    | none => exact le_refl 1
    | some v =>
      cases v with
      | leaf w => exact le_refl 1
      | node l2 cs2 => exact ih
  | nil => exact le_refl 1
  | cons t ts iht ihts =>
    show 1 ≤ (t.nsubt + 1) * ts.nsubtL
    exact Nat.mul_pos (Nat.succ_pos t.nsubt) ihts

theorem nsubtL_pos : ∀ cs : PTs, 1 ≤ cs.nsubtL := by
  intro cs
  induction cs using PTs.rec (motive_1 := fun t => 1 ≤ t.nsubt) with
  | leaf v => exact le_refl 1
  | node l cs ih =>
    rw [nsubt_node]
    cases hh : cs.toList.head? with
    | none => exact le_refl 1
    | some v =>
      cases v with
      | leaf w => exact le_refl 1
      | node l2 cs2 => exact ih
  | nil => exact le_refl 1
  | cons t ts iht ihts =>
    show 1 ≤ (t.nsubt + 1) * ts.nsubtL
    exact Nat.mul_pos (Nat.succ_pos t.nsubt) ihts

theorem prod_filter_hasAt (fd : FD) : ∀ l : List String,
    ((l.filter hasAt).map (fun z => (fd z : ℚ))).prod = (l.map (gQ fd)).prod := by
  intro l
  induction l with
  | nil => rfl
  | cons a t ih =>
    rw [List.filter_cons, List.map_cons, List.prod_cons, ← ih]
    by_cases h : hasAt a = true
    · rw [if_pos h, List.map_cons, List.prod_cons, gQ, if_pos h]
    · rw [if_neg h, gQ, if_neg h, one_mul]

theorem sum_filter_indicator {α : Type} (p : α → Bool) (f : α → ℚ) :
    ∀ l : List α, ((l.filter p).map f).sum =
      (l.map (fun x => if p x = true then f x else 0)).sum := by
  intro l
  induction l with
  | nil => rfl
  | cons a t ih =>
    rw [List.filter_cons, List.map_cons, List.sum_cons, ← ih]
    by_cases h : p a = true
    · rw [if_pos h, if_pos h, List.map_cons, List.sum_cons]
    · rw [if_neg h, if_neg h, zero_add]

theorem sum_flatMap {α β : Type} (F : α → List β) (f : β → ℚ) :
    ∀ l : List α, ((l.flatMap F).map f).sum =
      (l.map (fun x => ((F x).map f).sum)).sum := by
  intro l
  induction l with
  | nil => rfl
  | cons a t ih =>
    rw [List.flatMap_cons, List.map_append, List.sum_append, ih,
      List.map_cons, List.sum_cons]

theorem cartpi_sum_prod (g : String → ℚ) : ∀ opts : List (List String),
    ((cartpi opts).map (fun c => (c.map g).prod)).sum =
      (opts.map (fun o => (o.map g).sum)).prod := by
  intro opts
  induction opts with
  | nil =>
    rw [cartpi_nil]
    simp
  | cons o rest ih =>
    have hinner : ∀ x : String,
        (((cartpi rest).map (fun c => x :: c)).map
          (fun c => (c.map g).prod)).sum =
        g x * ((cartpi rest).map (fun c => (c.map g).prod)).sum := by
      intro x
      rw [List.map_map]
      have hc : ((fun c : List String => (List.map g c).prod) ∘
          (fun c => x :: c)) =
          (fun c : List String => g x * (List.map g c).prod) := by
        funext c
        show (List.map g (x :: c)).prod = _
        rw [List.map_cons, List.prod_cons]
      rw [hc]
      exact List.sum_map_mul_left _ _ _
    rw [cartpi_cons, sum_flatMap, List.map_cons, List.prod_cons, ← ih,
      List.map_congr_left (fun x _ => hinner x)]
    exact List.sum_map_mul_right _ _ _

theorem decLabel_ne (s : String) (n i : Nat) : decLabel s n i ≠ s := by
  intro h
  have hd := congrArg String.data h
  rw [decLabel_data] at hd
  have hlen := congrArg List.length hd
  rw [List.length_append, List.length_cons, List.length_append,
    List.length_cons] at hlen
  omega

theorem subIdsL_range : ∀ (cs : PTs) (c : Nat), ∀ p ∈ cs.subIdsL c,
    c ≤ p.2 ∧ p.2 + p.1.numNodes ≤ c + cs.numNodes := by
  intro cs
  induction cs using PTs.rec
    (motive_1 := fun t => ∀ c, ∀ p ∈ t.subIds c,
      c ≤ p.2 ∧ p.2 + p.1.numNodes ≤ c + t.numNodes) with
  | leaf v =>
    rename_i c p hp
    exact absurd hp (List.not_mem_nil p)
  | node l cs ih =>
    rename_i c p hp
    rcases List.mem_cons.mp hp with rfl | h
    · exact ⟨le_refl c, le_refl _⟩
    · have h1 := ih (c + 1) p h
      have hnn : (PT.node l cs).numNodes = 1 + cs.numNodes := rfl
      refine ⟨le_trans (Nat.le_succ c) h1.1, ?_⟩
      rw [hnn]
      omega
  | nil =>
    intro c p hp
    exact absurd hp (List.not_mem_nil p)
  | cons t ts iht ihts =>
    intro c p hp
    have hnn : PTs.numNodes (.cons t ts) = t.numNodes + ts.numNodes := rfl
    rcases List.mem_append.mp hp with h | h
    · have h1 := iht c p h
      rw [hnn]
      omega
    · have h1 := ihts (c + t.numNodes) p h
      rw [hnn]
      omega

theorem subIds_range (t : PT) (c : Nat) : ∀ p ∈ t.subIds c,
    c ≤ p.2 ∧ p.2 + p.1.numNodes ≤ c + t.numNodes := by
  cases t with
  | leaf v =>
    intro p hp
    exact absurd hp (List.not_mem_nil p)
  | node l cs =>
    intro p hp
    rcases List.mem_cons.mp hp with rfl | h
    · exact ⟨le_refl c, le_refl _⟩
    · have h1 := subIdsL_range cs (c + 1) p h
      have hnn : (PT.node l cs).numNodes = 1 + cs.numNodes := rfl
      refine ⟨le_trans (Nat.le_succ c) h1.1, ?_⟩
      rw [hnn]
      omega

theorem subIds_isNode (t : PT) (c : Nat) : ∀ p ∈ t.subIds c,
    p.1.isNode = true := by
  intro p hp
  have h1 : p.1 ∈ t.subtreesPT := by
    rw [← subIds_fst t c]
    exact List.mem_map_of_mem Prod.fst hp
  cases t with
  | leaf v => exact absurd h1 (List.not_mem_nil _)
  | node l cs =>
    rcases List.mem_cons.mp h1 with he | h
    · rw [he]
      rfl
    · exact subtreesPT_isNode cs p.1 h

theorem subIdsL_isNode (cs : PTs) (c : Nat) : ∀ p ∈ cs.subIdsL c,
    p.1.isNode = true := by
  intro p hp
  have h1 : p.1 ∈ cs.subtreesPT := by
    rw [← subIdsL_fst cs c]
    exact List.mem_map_of_mem Prod.fst hp
  exact subtreesPT_isNode cs p.1 h1

theorem numNodes_pos_of_isNode (t : PT) (h : t.isNode = true) :
    1 ≤ t.numNodes := by
  cases t with
  | leaf v => exact Bool.noConfusion h
  | node l cs => exact Nat.le_add_right 1 cs.numNodes

theorem subIdsL_lt (cs : PTs) (c : Nat) : ∀ p ∈ cs.subIdsL c,
    p.2 < c + cs.numNodes := by
  intro p hp
  have h1 := subIdsL_range cs c p hp
  have h2 := numNodes_pos_of_isNode p.1 (subIdsL_isNode cs c p hp)
  omega

theorem subIds_lt (t : PT) (c : Nat) : ∀ p ∈ t.subIds c,
    p.2 < c + t.numNodes := by
  intro p hp
  have h1 := subIds_range t c p hp
  have h2 := numNodes_pos_of_isNode p.1 (subIds_isNode t c p hp)
  omega

theorem subIdsL_id_inj : ∀ (cs : PTs) (c : Nat),
    ∀ p ∈ cs.subIdsL c, ∀ q ∈ cs.subIdsL c, p.2 = q.2 → p = q := by
  intro cs
  induction cs using PTs.rec
    (motive_1 := fun t => ∀ c, ∀ p ∈ t.subIds c, ∀ q ∈ t.subIds c,
      p.2 = q.2 → p = q) with
  | leaf v =>
    rename_i c p hp q hq he
    exact absurd hp (List.not_mem_nil p)
  | node l cs ih =>
    rename_i c p hp q hq he
    rcases List.mem_cons.mp hp with rfl | hp2
    · rcases List.mem_cons.mp hq with rfl | hq2
      · rfl
      · have := (subIdsL_range cs (c + 1) q hq2).1
        omega
    · rcases List.mem_cons.mp hq with rfl | hq2
      · have := (subIdsL_range cs (c + 1) p hp2).1
        omega
      · exact ih (c + 1) p hp2 q hq2 he
  | nil =>
    intro c p hp q hq he
    exact absurd hp (List.not_mem_nil p)
  | cons t ts iht ihts =>
    intro c p hp q hq he
    rcases List.mem_append.mp hp with hp2 | hp2
    · rcases List.mem_append.mp hq with hq2 | hq2
      · exact iht c p hp2 q hq2 he
      · have h1 := subIds_lt t c p hp2
        have h2 := (subIdsL_range ts (c + t.numNodes) q hq2).1
        omega
    · rcases List.mem_append.mp hq with hq2 | hq2
      · have h1 := subIds_lt t c q hq2
        have h2 := (subIdsL_range ts (c + t.numNodes) p hp2).1
        omega
      · exact ihts (c + t.numNodes) p hp2 q hq2 he

theorem childIds_mem_subIdsL : ∀ (cs : PTs) (c : Nat),
    (∀ x ∈ cs.toList, x.isNode = true) →
    ∀ q ∈ cs.childIds c, q ∈ cs.subIdsL c := by
  intro cs
  induction cs using PTs.indPTs with
  | hnil =>
    intro c _ q hq
    exact absurd hq (List.not_mem_nil q)
  | hcons t ts ih =>
    intro c hall q hq
    have ht : t.isNode = true := hall t (List.mem_cons_self _ _)
    rcases List.mem_cons.mp hq with rfl | hq2
    · apply List.mem_append_left
      cases t with
      | leaf v => exact Bool.noConfusion ht
      | node l cs2 => exact List.mem_cons_self _ _
    · exact List.mem_append_right _
        (ih (c + t.numNodes) (fun x hx => hall x (List.mem_cons_of_mem t hx))
          q hq2)

theorem mem_subtreesPT_of_child : ∀ (cs : PTs), ∀ x ∈ cs.toList,
    x.isNode = true → x ∈ cs.subtreesPT := by
  intro cs
  induction cs using PTs.indPTs with
  | hnil =>
    intro x hx _
    exact absurd hx (List.not_mem_nil x)
  | hcons t ts ih =>
    intro x hx hn
    rcases List.mem_cons.mp hx with rfl | hx2
    · apply List.mem_append_left
      cases x with
      | leaf v => exact Bool.noConfusion hn
      | node l cs2 => exact List.mem_cons_self _ _
    · exact List.mem_append_right _ (ih x hx2 hn)

theorem forall2_mem_left {α β : Type} (R : α → β → Prop) :
    ∀ (c : List α) (d : List β), List.Forall₂ R c d → ∀ z ∈ c, ∃ w ∈ d, R z w := by
  intro c
  induction c with
  | nil =>
    intro d h z hz
    exact absurd hz (List.not_mem_nil z)
  | cons a t ih =>
    intro d h z hz
    obtain ⟨b, u, hR, hrest, rfl⟩ := List.forall₂_cons_left_iff.mp h
    rcases List.mem_cons.mp hz with rfl | hz2
    · exact ⟨b, List.mem_cons_self _ _, hR⟩
    · obtain ⟨w, hw, hRw⟩ := ih u hrest z hz2
      exact ⟨w, List.mem_cons_of_mem _ hw, hRw⟩

theorem mem_genKeysPair (a b : Prod') (k : Prod') :
    k ∈ genKeysPair a b ↔ k.2 = a.2 ∧
      List.Forall₂ (fun z xy => z = xy.1 ∨ z = xy.2) k.1 (a.1.zip b.1) := by
  constructor
  · intro h
    obtain ⟨c, hc, rfl⟩ := List.mem_map.mp h
    exact ⟨rfl, (genLabels_mem a.1 b.1 c).mp hc⟩
  · intro h
    obtain ⟨h2, hf⟩ := h
    have hke : k = (k.1, a.2) := by rw [← h2]
    rw [hke]
    exact List.mem_map_of_mem _ ((genLabels_mem a.1 b.1 k.1).mpr hf)

theorem genKeysPair_cons (x y : String) (ta tb : List String) (ya yb : Yf)
    (k : Prod') (hk : k ∈ genKeysPair (x :: ta, ya) (y :: tb, yb)) :
    k.2 = ya ∧ ∃ h hs, k.1 = h :: hs ∧ (h = x ∨ h = y) ∧
      List.Forall₂ (fun z xy => z = xy.1 ∨ z = xy.2) hs (ta.zip tb) := by
  obtain ⟨h2, hf⟩ := (mem_genKeysPair _ _ k).mp hk
  rw [List.zip_cons_cons] at hf
  obtain ⟨h, hs, hR, hrest, he⟩ := List.forall₂_cons_right_iff.mp hf
  exact ⟨h2, h, hs, he, hR, hrest⟩

theorem key_tail_mem (ta tb : List String) (hs : List String)
    (hf : List.Forall₂ (fun z xy => z = xy.1 ∨ z = xy.2) hs (ta.zip tb)) :
    ∀ z ∈ hs, z ∈ ta ∨ z ∈ tb := by
  intro z hz
  obtain ⟨w, hw, hRw⟩ := forall2_mem_left _ hs (ta.zip tb) hf z hz
  rcases hRw with h | h
  · exact Or.inl (h ▸ (List.of_mem_zip hw).1)
  · exact Or.inr (h ▸ (List.of_mem_zip hw).2)

theorem goodDopSub_cases (s : Sent) (l : String) (cs : PTs)
    (h : goodDopSub s (.node l cs) = true) :
    (∃ i : Int, cs.toList = [PT.leaf (.ival i)] ∧
      (s.getD i.toNat none) ≠ none) ∨
    (cs.toList ≠ [] ∧ ∀ x ∈ cs.toList, x.isNode = true) := by
  have h2 : goodDopSub s (.node l cs) = (match cs.toList with
      | [PT.leaf (LV.ival i)] => decide ((s.getD i.toNat none) ≠ none)
      | [] => false
      | c0 :: rest => (c0 :: rest).all PT.isNode) := rfl
  rw [h2] at h
  cases hcl : cs.toList with
  | nil =>
    rw [hcl] at h
    exact Bool.noConfusion h
  | cons c0 rest =>
    rw [hcl] at h
    cases c0 with
    | leaf v =>
      cases v with
      | ival i =>
        cases rest with
        | nil => exact Or.inl ⟨i, rfl, of_decide_eq_true h⟩
        | cons r rs =>
          have h3 : (PT.leaf (LV.ival i) :: r :: rs).all PT.isNode = true := h
          rw [List.all_cons, Bool.and_eq_true] at h3
          exact Bool.noConfusion h3.1
      | sval w =>
        have h3 : (PT.leaf (LV.sval w) :: rest).all PT.isNode = true := h
        rw [List.all_cons, Bool.and_eq_true] at h3
        exact Bool.noConfusion h3.1
    | node l0 cs0 =>
      have h3 : (PT.node l0 cs0 :: rest).all PT.isNode = true := h
      exact Or.inr ⟨List.cons_ne_nil _ _, List.all_eq_true.mp h3⟩

theorem plainProd_eq (s : Sent) (l : String) (cs : PTs) :
    plainProd s (.node l cs) = (match cs.toList with
      | [PT.leaf (LV.ival i)] =>
        ([l, "Epsilon"], Yf.lex ((s.getD i.toNat none).getD ""))
      | cl => (l :: cl.map PT.labelOf, yfOf cl)) := rfl

theorem decProd_eq (nn : Nat) (s : Sent) (hd : String) (cb : Nat)
    (l : String) (cs : PTs) :
    decProd nn s hd cb (.node l cs) = (match cs.toList with
      | [PT.leaf (LV.ival i)] =>
        ([hd, "Epsilon"], Yf.lex ((s.getD i.toNat none).getD ""))
      | cl => (hd :: (cs.childIds cb).map
          (fun p => decLabel p.1.labelOf nn p.2), yfOf cl)) := rfl

theorem pairKeys_struct (nn : Nat) (s : Sent) (hd : String) (cb : Nat)
    (l : String) (cs : PTs) (hg : goodDopSub s (.node l cs) = true)
    (k : Prod')
    (hk : k ∈ genKeysPair (plainProd s (.node l cs))
      (decProd nn s hd cb (.node l cs))) :
    ∃ h hs, k.1 = h :: hs ∧ (h = l ∨ h = hd) ∧
    ∀ lab ∈ hs, lab = "Epsilon" ∨
      (∃ x ∈ cs.toList, x.isNode = true ∧ lab = x.labelOf) ∨
      ∃ q, q ∈ cs.childIds cb ∧ q ∈ cs.subIdsL cb ∧ q.1.isNode = true ∧
        lab = decLabel q.1.labelOf nn q.2 := by
  rcases goodDopSub_cases s l cs hg with ⟨i, hcl, hw⟩ | ⟨hne, hall⟩
  · have ha : plainProd s (.node l cs) =
        ([l, "Epsilon"], Yf.lex ((s.getD i.toNat none).getD "")) := by
      rw [plainProd_eq, hcl]
    have hb : decProd nn s hd cb (.node l cs) =
        ([hd, "Epsilon"], Yf.lex ((s.getD i.toNat none).getD "")) := by
      rw [decProd_eq, hcl]
    rw [ha, hb] at hk
    obtain ⟨h2, h, hs, hk1, hor, hf⟩ :=
      genKeysPair_cons l hd ["Epsilon"] ["Epsilon"] _ _ k hk
    refine ⟨h, hs, hk1, hor, ?_⟩
    intro lab hlab
    rcases key_tail_mem _ _ hs hf lab hlab with hm | hm
    · exact Or.inl (List.mem_singleton.mp hm)
    · exact Or.inl (List.mem_singleton.mp hm)
  · cases hcl : cs.toList with
    | nil => exact absurd hcl hne
    | cons c0 rest =>
      have hc0 : c0.isNode = true := hall c0 (by rw [hcl]; exact List.mem_cons_self _ _)
      cases c0 with
      | leaf v => exact Bool.noConfusion hc0
      | node l0 cs0 =>
        have ha : plainProd s (.node l cs) =
            (l :: (PT.node l0 cs0 :: rest).map PT.labelOf,
              yfOf (PT.node l0 cs0 :: rest)) := by
          rw [plainProd_eq, hcl]
        have hb : decProd nn s hd cb (.node l cs) =
            (hd :: (cs.childIds cb).map
              (fun p => decLabel p.1.labelOf nn p.2),
              yfOf (PT.node l0 cs0 :: rest)) := by
          rw [decProd_eq, hcl]
        rw [ha, hb] at hk
        obtain ⟨h2, h, hs, hk1, hor, hf⟩ := genKeysPair_cons l hd _ _ _ _ k hk
        refine ⟨h, hs, hk1, hor, ?_⟩
        intro lab hlab
        rcases key_tail_mem _ _ hs hf lab hlab with hm | hm
        · obtain ⟨x, hx, rfl⟩ := List.mem_map.mp hm
          exact Or.inr (Or.inl ⟨x, hx,
            hall x (by rw [hcl]; exact hx), rfl⟩)
        · obtain ⟨q, hq, rfl⟩ := List.mem_map.mp hm
          have hqn : q.1.isNode = true := by
            apply hall
            rw [← childIds_fst cs cb]
            exact List.mem_map_of_mem Prod.fst hq
          exact Or.inr (Or.inr ⟨q, hq,
            childIds_mem_subIdsL cs cb hall q hq, hqn, rfl⟩)

theorem subtreesPT_transL : ∀ (cs : PTs), ∀ ν ∈ cs.subtreesPT,
    ∀ μ ∈ ν.subtreesPT, μ ∈ cs.subtreesPT := by
  intro cs
  induction cs using PTs.rec
    (motive_1 := fun t => ∀ ν ∈ t.subtreesPT, ∀ μ ∈ ν.subtreesPT,
      μ ∈ t.subtreesPT) with
  | leaf v =>
    rename_i ν hν μ hμ
    exact absurd hν (List.not_mem_nil ν)
  | node l cs ih =>
    rename_i ν hν μ hμ
    rcases List.mem_cons.mp hν with rfl | h
    · exact hμ
    · exact List.mem_cons_of_mem _ (ih ν h μ hμ)
  | nil =>
    intro ν hν μ hμ
    exact absurd hν (List.not_mem_nil ν)
  | cons t ts iht ihts =>
    intro ν hν μ hμ
    rcases List.mem_append.mp hν with h | h
    · exact List.mem_append_left _ (iht ν h μ hμ)
    · exact List.mem_append_right _ (ihts ν h μ hμ)

theorem subtreesPT_trans (t : PT) : ∀ ν ∈ t.subtreesPT,
    ∀ μ ∈ ν.subtreesPT, μ ∈ t.subtreesPT := by
  intro ν hν μ hμ
  cases t with
  | leaf v => exact absurd hν (List.not_mem_nil ν)
  | node l cs =>
    rcases List.mem_cons.mp hν with rfl | h
    · exact hμ
    · exact List.mem_cons_of_mem _ (subtreesPT_transL cs ν h μ hμ)

theorem entryKeys_labs (nn : Nat) (s : Sent) (ν : PT) (i : Nat)
    (hnode : ν.isNode = true)
    (hfree : ∀ μ ∈ ν.subtreesPT, hasAt μ.labelOf = false)
    (hshape : goodDopSub s ν = true)
    (lo hi : Nat) (hlo : lo ≤ i) (hhi : i + ν.numNodes ≤ hi) :
    ∀ k ∈ genKeysPair (dpair nn s (ν, i)).1 (dpair nn s (ν, i)).2,
      ∀ lab ∈ k.1, hasAt lab = true →
        ∃ x j, hasAt x = false ∧ lab = decLabel x nn j ∧ lo ≤ j ∧ j < hi := by
  intro k hk lab hlab hat
  cases ν with
  | leaf v => exact Bool.noConfusion hnode
  | node lν csν =>
    have hself : PT.node lν csν ∈ (PT.node lν csν).subtreesPT :=
      List.mem_cons_self _ _
    have hfr : hasAt lν = false := hfree _ hself
    have hnn1 : 1 ≤ (PT.node lν csν).numNodes := Nat.le_add_right 1 _
    have hk2 : k ∈ genKeysPair (plainProd s (.node lν csν))
        (decProd nn s (decLabel lν nn i) (i + 1) (.node lν csν)) := hk
    obtain ⟨h, hs, hk1, hor, htail⟩ :=
      pairKeys_struct nn s (decLabel lν nn i) (i + 1) lν csν hshape k hk2
    rw [hk1] at hlab
    rcases List.mem_cons.mp hlab with rfl | htl
    · rcases hor with rfl | rfl
      · exact Bool.noConfusion (hfr.symm.trans hat)
      · exact ⟨lν, i, hfr, rfl, hlo, by omega⟩
    · rcases htail lab htl with rfl | ⟨x, hx, hxn, rfl⟩ | ⟨q, hqc, hqs, hqn, rfl⟩
      · have he : hasAt "Epsilon" = false := rfl
        exact Bool.noConfusion (he.symm.trans hat)
      · have hxm : x ∈ (PT.node lν csν).subtreesPT :=
          List.mem_cons_of_mem _ (mem_subtreesPT_of_child csν x hx hxn)
        exact Bool.noConfusion ((hfree x hxm).symm.trans hat)
      · have hqm : q.1 ∈ (PT.node lν csν).subtreesPT := by
          apply List.mem_cons_of_mem
          rw [← subIdsL_fst csν (i + 1)]
          exact List.mem_map_of_mem Prod.fst hqs
        have hqr := subIdsL_range csν (i + 1) q hqs
        have hqlt := subIdsL_lt csν (i + 1) q hqs
        have hnn2 : (PT.node lν csν).numNodes = 1 + csν.numNodes := rfl
        exact ⟨q.1.labelOf, q.2, hfree q.1 hqm, rfl, by omega, by omega⟩

theorem keysBelowL_labs (nn : Nat) (s : Sent) (cs : PTs) (c : Nat)
    (hfree : ∀ μ ∈ cs.subtreesPT, hasAt μ.labelOf = false)
    (hshape : ∀ μ ∈ cs.subtreesPT, goodDopSub s μ = true) :
    ∀ k ∈ keysBelowL nn s cs c, ∀ lab ∈ k.1, hasAt lab = true →
      ∃ x j, hasAt x = false ∧ lab = decLabel x nn j ∧
        c ≤ j ∧ j < c + cs.numNodes := by
  intro k hk
  obtain ⟨p, hp, hkp⟩ := List.mem_flatMap.mp hk
  have hnode := subIdsL_isNode cs c p hp
  have hrange := subIdsL_range cs c p hp
  have hmem : p.1 ∈ cs.subtreesPT := by
    rw [← subIdsL_fst cs c]
    exact List.mem_map_of_mem Prod.fst hp
  exact entryKeys_labs nn s p.1 p.2 hnode
    (fun μ hμ => hfree μ (subtreesPT_transL cs p.1 hmem μ hμ))
    (hshape p.1 hmem) c (c + cs.numNodes) hrange.1 hrange.2 k hkp

theorem keysBelow_labs (nn : Nat) (s : Sent) (t : PT) (c : Nat)
    (hfree : ∀ μ ∈ t.subtreesPT, hasAt μ.labelOf = false)
    (hshape : ∀ μ ∈ t.subtreesPT, goodDopSub s μ = true) :
    ∀ k ∈ keysBelow nn s t c, ∀ lab ∈ k.1, hasAt lab = true →
      ∃ x j, hasAt x = false ∧ lab = decLabel x nn j ∧
        c ≤ j ∧ j < c + t.numNodes := by
  intro k hk
  obtain ⟨p, hp, hkp⟩ := List.mem_flatMap.mp hk
  have hnode := subIds_isNode t c p hp
  have hrange := subIds_range t c p hp
  have hmem : p.1 ∈ t.subtreesPT := by
    rw [← subIds_fst t c]
    exact List.mem_map_of_mem Prod.fst hp
  exact entryKeys_labs nn s p.1 p.2 hnode
    (fun μ hμ => hfree μ (subtreesPT_trans t p.1 hmem μ hμ))
    (hshape p.1 hmem) c (c + t.numNodes) hrange.1 hrange.2 k hkp

theorem entryKeys_struct (nn : Nat) (s : Sent) (ν : PT) (i : Nat)
    (hnode : ν.isNode = true)
    (hfree : ∀ μ ∈ ν.subtreesPT, hasAt μ.labelOf = false)
    (hshape : goodDopSub s ν = true) :
    ∀ k ∈ genKeysPair (dpair nn s (ν, i)).1 (dpair nn s (ν, i)).2,
      ∃ h hs, k.1 = h :: hs ∧
        (h = ν.labelOf ∨ h = decLabel ν.labelOf nn i) ∧
        ∀ lab ∈ hs, hasAt lab = true →
          ∃ x j, hasAt x = false ∧ lab = decLabel x nn j ∧
            i + 1 ≤ j ∧ j < i + ν.numNodes := by
  intro k hk
  cases ν with
  | leaf v => exact Bool.noConfusion hnode
  | node lν csν =>
    have hk2 : k ∈ genKeysPair (plainProd s (.node lν csν))
        (decProd nn s (decLabel lν nn i) (i + 1) (.node lν csν)) := hk
    obtain ⟨h, hs, hk1, hor, htail⟩ :=
      pairKeys_struct nn s (decLabel lν nn i) (i + 1) lν csν hshape k hk2
    refine ⟨h, hs, hk1, hor, ?_⟩
    intro lab hlab hat
    rcases htail lab hlab with rfl | ⟨x, hx, hxn, rfl⟩ | ⟨q, hqc, hqs, hqn, rfl⟩
    · have he : hasAt "Epsilon" = false := rfl
      exact Bool.noConfusion (he.symm.trans hat)
    · have hxm : x ∈ (PT.node lν csν).subtreesPT :=
        List.mem_cons_of_mem _ (mem_subtreesPT_of_child csν x hx hxn)
      exact Bool.noConfusion ((hfree x hxm).symm.trans hat)
    · have hqm : q.1 ∈ (PT.node lν csν).subtreesPT := by
        apply List.mem_cons_of_mem
        rw [← subIdsL_fst csν (i + 1)]
        exact List.mem_map_of_mem Prod.fst hqs
      have hqr := subIdsL_range csν (i + 1) q hqs
      have hqlt := subIdsL_lt csν (i + 1) q hqs
      have hnn2 : (PT.node lν csν).numNodes = 1 + csν.numNodes := rfl
      exact ⟨q.1.labelOf, q.2, hfree q.1 hqm, rfl, hqr.1, by omega⟩

theorem pair_below_disj (nn : Nat) (s : Sent) (k : Prod')
    (hk : k.1.any hasAt = true) :
    ∀ (cs : PTs) (b : Nat),
      (∀ x ∈ cs.toList, x.isNode = true) →
      (∀ μ ∈ cs.subtreesPT, hasAt μ.labelOf = false) →
      (∀ μ ∈ cs.subtreesPT, goodDopSub s μ = true) →
      (hasAt (headLab k.1) = true → ∃ x j, hasAt x = false ∧
        headLab k.1 = decLabel x nn j ∧ j < b) →
      (∀ lab ∈ k.1, hasAt lab = true → ∃ x j, hasAt x = false ∧
        lab = decLabel x nn j ∧
        (j < b ∨ ∃ q ∈ cs.childIds b, j = q.2)) →
      k ∉ keysBelowL nn s cs b := by
  intro cs
  induction cs using PTs.indPTs with
  | hnil =>
    intro b _ _ _ _ _ hmem
    exact absurd hmem (List.not_mem_nil k)
  | hcons t ts ih =>
    intro b hall hfree hshape hhead hlabs hmem
    have hsplit : keysBelowL nn s (.cons t ts) b =
        keysBelow nn s t b ++ keysBelowL nn s ts (b + t.numNodes) := by
      show (t.subIds b ++ ts.subIdsL (b + t.numNodes)).flatMap _ = _
      rw [List.flatMap_append]
      rfl
    rw [hsplit] at hmem
    have ht : t.isNode = true := hall t (List.mem_cons_self _ _)
    have htn : 1 ≤ t.numNodes := numNodes_pos_of_isNode t ht
    have hall_ts : ∀ x ∈ ts.toList, x.isNode = true :=
      fun x hx => hall x (List.mem_cons_of_mem t hx)
    have hfree_t : ∀ μ ∈ t.subtreesPT, hasAt μ.labelOf = false :=
      fun μ hμ => hfree μ (List.mem_append_left _ hμ)
    have hshape_t : ∀ μ ∈ t.subtreesPT, goodDopSub s μ = true :=
      fun μ hμ => hshape μ (List.mem_append_left _ hμ)
    have hfree_ts : ∀ μ ∈ ts.subtreesPT, hasAt μ.labelOf = false :=
      fun μ hμ => hfree μ (List.mem_append_right _ hμ)
    have hshape_ts : ∀ μ ∈ ts.subtreesPT, goodDopSub s μ = true :=
      fun μ hμ => hshape μ (List.mem_append_right _ hμ)
    have hcid : ∀ q ∈ ts.childIds (b + t.numNodes), b + t.numNodes ≤ q.2 :=
      fun q hq => (subIdsL_range ts _ q
        (childIds_mem_subIdsL ts _ hall_ts q hq)).1
    rcases List.mem_append.mp hmem with hmem1 | hmem2
    · cases t with
      | leaf v => exact Bool.noConfusion ht
      | node l0 cs0 =>
        have hnn0 : (PT.node l0 cs0).numNodes = 1 + cs0.numNodes := rfl
        have hsplit2 : keysBelow nn s (.node l0 cs0) b =
            genKeysPair (dpair nn s (.node l0 cs0, b)).1
              (dpair nn s (.node l0 cs0, b)).2 ++
            keysBelowL nn s cs0 (b + 1) := by
          show ((PT.node l0 cs0, b) :: cs0.subIdsL (b + 1)).flatMap _ = _
          rw [List.flatMap_cons]
          rfl
        rw [hsplit2] at hmem1
        obtain ⟨lab0, hlab0, hat0⟩ := List.any_eq_true.mp hk
        have hl0 : hasAt l0 = false :=
          hfree_t (PT.node l0 cs0) (List.mem_cons_self _ _)
        rcases List.mem_append.mp hmem1 with hp | hb2
        · obtain ⟨h, hs, hk1, hor, htail⟩ := entryKeys_struct nn s
            (.node l0 cs0) b ht hfree_t
            (hshape_t (PT.node l0 cs0) (List.mem_cons_self _ _)) k hp
          have htailno : ∀ lab ∈ hs, hasAt lab = false := by
            intro lab hlab
            cases hcase : hasAt lab with
            | false => rfl
            | true =>
              exfalso
              obtain ⟨x, j, hxf, he, hj1, hj2⟩ := htail lab hlab hcase
              obtain ⟨x2, j2, hx2f, he2, hc2⟩ := hlabs lab
                (by rw [hk1]; exact List.mem_cons_of_mem h hlab) hcase
              obtain ⟨_, _, hjj⟩ := decLabel_inj x2 x nn j2 nn j hx2f hxf
                (he2.symm.trans he)
              rw [hnn0] at hj2
              rcases hc2 with hlt | ⟨q, hq, rfl⟩
              · omega
              · rcases List.mem_cons.mp hq with rfl | hq2
                · omega
                · have := hcid q hq2
                  rw [hnn0] at this
                  omega
          have hhd : lab0 = h := by
            rw [hk1] at hlab0
            rcases List.mem_cons.mp hlab0 with rfl | htl
            · rfl
            · exact Bool.noConfusion ((htailno lab0 htl).symm.trans hat0)
          rcases hor with hpl | hdec
          · rw [hhd, hpl] at hat0
            exact Bool.noConfusion (hl0.symm.trans hat0)
          · have hhk : hasAt (headLab k.1) = true := by
              rw [hk1]
              show hasAt h = true
              rw [← hhd]
              exact hat0
            obtain ⟨x, j, hxf, he, hjb⟩ := hhead hhk
            have he2 : decLabel x nn j = decLabel l0 nn b := by
              rw [← he, hk1]
              show headLab (h :: hs) = _
              rw [hdec]
              rfl
            obtain ⟨_, _, hjj⟩ := decLabel_inj x l0 nn j nn b hxf hl0 he2
            omega
        · have hfree_cs0 : ∀ μ ∈ cs0.subtreesPT, hasAt μ.labelOf = false :=
            fun μ hμ => hfree_t μ (List.mem_cons_of_mem _ hμ)
          have hshape_cs0 : ∀ μ ∈ cs0.subtreesPT, goodDopSub s μ = true :=
            fun μ hμ => hshape_t μ (List.mem_cons_of_mem _ hμ)
          obtain ⟨lab1, hlab1, hat1⟩ := List.any_eq_true.mp hk
          obtain ⟨x, j, hxf, he, hj1, hj2⟩ := keysBelowL_labs nn s cs0 (b + 1)
            hfree_cs0 hshape_cs0 k hb2 lab1 hlab1 hat1
          obtain ⟨x2, j2, hx2f, he2, hc2⟩ := hlabs lab1 hlab1 hat1
          obtain ⟨_, _, hjj⟩ := decLabel_inj x2 x nn j2 nn j hx2f hxf
            (he2.symm.trans he)
          rcases hc2 with hlt | ⟨q, hq, rfl⟩
          · omega
          · rcases List.mem_cons.mp hq with rfl | hq2
            · omega
            · have h3 := hcid q hq2
              have hnn0 : (PT.node l0 cs0).numNodes = 1 + cs0.numNodes := rfl
              rw [hnn0] at h3
              omega
    · refine (ih (b + t.numNodes) hall_ts hfree_ts hshape_ts ?_ ?_) hmem2
      · intro hat
        obtain ⟨x, j, hxf, he, hjb⟩ := hhead hat
        exact ⟨x, j, hxf, he, by omega⟩
      · intro lab hlab hat
        obtain ⟨x, j, hxf, he, hc⟩ := hlabs lab hlab hat
        rcases hc with hlt | ⟨q, hq, rfl⟩
        · exact ⟨x, j, hxf, he, Or.inl (by omega)⟩
        · rcases List.mem_cons.mp hq with rfl | hq2
          · exact ⟨x, b, hxf, he, Or.inl (by omega)⟩
          · exact ⟨x, q.2, hxf, he, Or.inr ⟨q, hq2, rfl⟩⟩

theorem subIdsL_eq_nil_of_toList_leaf (cs : PTs) (v : LV)
    (h : cs.toList = [PT.leaf v]) : ∀ c, cs.subIdsL c = [] := by
  cases cs with
  | nil => exact List.noConfusion h
  | cons t ts =>
    have h2 := List.cons.inj h
    intro c
    obtain ⟨rfl, h3⟩ := h2
    show PT.subIds (.leaf v) c ++ ts.subIdsL (c + (PT.leaf v).numNodes) = []
    cases ts with
    | nil => rfl
    | cons a b2 => exact List.noConfusion h3

theorem genKeysPair_nodup (a b : Prod') : (genKeysPair a b).Nodup :=
  List.Nodup.map (fun c1 c2 hc => congrArg Prod.fst hc) (genLabels_nodup a.1 b.1)

theorem count_eq_zero_of_not_mem' {α : Type} [BEq α] [LawfulBEq α] (a : α) :
    ∀ l : List α, a ∉ l → l.count a = 0 := by
  intro l
  induction l with
  | nil => intro _; rfl
  | cons b t ih =>
    intro h
    rw [List.count_cons]
    have hb : (b == a) = false := beq_eq_false_iff_ne.mpr
      (fun he => h (List.mem_cons.mpr (Or.inl he.symm)))
    rw [hb, if_neg (Bool.false_ne_true), ih
      (fun hm => h (List.mem_cons_of_mem b hm)), Nat.add_zero]

theorem count_le_one_of_nodup' {α : Type} [BEq α] [LawfulBEq α] (a : α) :
    ∀ l : List α, l.Nodup → l.count a ≤ 1 := by
  intro l
  induction l with
  | nil => intro _; rw [List.count_nil]; exact Nat.zero_le 1
  | cons b t ih =>
    intro h
    obtain ⟨hb, ht⟩ := List.nodup_cons.mp h
    rw [List.count_cons]
    by_cases hab : b = a
    · subst hab
      rw [count_eq_zero_of_not_mem' b t hb, beq_self_eq_true, if_pos rfl]
    · have hbf : (b == a) = false := beq_eq_false_iff_ne.mpr hab
      rw [hbf, if_neg (Bool.false_ne_true), Nat.add_zero]
      exact ih ht

theorem keysBelow_count (nn : Nat) (s : Sent) (k : Prod')
    (hk : k.1.any hasAt = true) :
    ∀ (t : PT) (b : Nat),
      (∀ μ ∈ t.subtreesPT, hasAt μ.labelOf = false) →
      (∀ μ ∈ t.subtreesPT, goodDopSub s μ = true) →
      (keysBelow nn s t b).count k ≤ 1 := by
  intro t
  induction t using PT.rec
    (motive_2 := fun cs => ∀ b,
      (∀ x ∈ cs.toList, x.isNode = true) →
      (∀ μ ∈ cs.subtreesPT, hasAt μ.labelOf = false) →
      (∀ μ ∈ cs.subtreesPT, goodDopSub s μ = true) →
      (keysBelowL nn s cs b).count k ≤ 1) with
  | leaf v =>
    intro b _ _
    have hke : keysBelow nn s (.leaf v) b = [] := rfl
    rw [hke, List.count_nil]
    exact Nat.zero_le 1
  | node l0 cs0 ih =>
    intro b hfree hshape
    have hsplit2 : keysBelow nn s (.node l0 cs0) b =
        genKeysPair (dpair nn s (.node l0 cs0, b)).1
          (dpair nn s (.node l0 cs0, b)).2 ++
        keysBelowL nn s cs0 (b + 1) := by
      show ((PT.node l0 cs0, b) :: cs0.subIdsL (b + 1)).flatMap _ = _
      rw [List.flatMap_cons]
      rfl
    rw [hsplit2, List.count_append]
    have hgood : goodDopSub s (.node l0 cs0) = true :=
      hshape _ (List.mem_cons_self _ _)
    have hl0 : hasAt l0 = false := hfree _ (List.mem_cons_self _ _)
    have hpair1 := count_le_one_of_nodup' k
      (genKeysPair (dpair nn s (.node l0 cs0, b)).1
        (dpair nn s (.node l0 cs0, b)).2)
      (genKeysPair_nodup (dpair nn s (.node l0 cs0, b)).1
        (dpair nn s (.node l0 cs0, b)).2)
    rcases goodDopSub_cases s l0 cs0 hgood with ⟨i, hcl, hw⟩ | ⟨hne, hall⟩
    · have hnil : keysBelowL nn s cs0 (b + 1) = [] := by
        show (cs0.subIdsL (b + 1)).flatMap _ = []
        rw [subIdsL_eq_nil_of_toList_leaf cs0 _ hcl (b + 1)]
        rfl
      rw [hnil, List.count_nil]
      omega
    · have hfree_cs0 : ∀ μ ∈ cs0.subtreesPT, hasAt μ.labelOf = false :=
        fun μ hμ => hfree μ (List.mem_cons_of_mem _ hμ)
      have hshape_cs0 : ∀ μ ∈ cs0.subtreesPT, goodDopSub s μ = true :=
        fun μ hμ => hshape μ (List.mem_cons_of_mem _ hμ)
      have hcnt2 : (keysBelowL nn s cs0 (b + 1)).count k ≤ 1 :=
        ih (b + 1) hall hfree_cs0 hshape_cs0
      by_cases hmem : k ∈ keysBelowL nn s cs0 (b + 1)
      · have hnp : k ∉ genKeysPair (dpair nn s (.node l0 cs0, b)).1
            (dpair nn s (.node l0 cs0, b)).2 := by
          intro hp
          have hk2 : k ∈ genKeysPair (plainProd s (.node l0 cs0))
              (decProd nn s (decLabel l0 nn b) (b + 1) (.node l0 cs0)) := hp
          obtain ⟨h, hs, hk1, hor, htail⟩ :=
            pairKeys_struct nn s (decLabel l0 nn b) (b + 1) l0 cs0 hgood k hk2
          refine pair_below_disj nn s k hk cs0 (b + 1) hall hfree_cs0
            hshape_cs0 ?_ ?_ hmem
          · intro hat
            rw [hk1] at hat
            have hat2 : hasAt h = true := hat
            rcases hor with rfl | rfl
            · exact Bool.noConfusion (hl0.symm.trans hat2)
            · exact ⟨l0, b, hl0, by rw [hk1]; rfl, Nat.lt_succ_self b⟩
          · intro lab hlab hat
            rw [hk1] at hlab
            rcases List.mem_cons.mp hlab with rfl | htl
            · rcases hor with rfl | rfl
              · exact Bool.noConfusion (hl0.symm.trans hat)
              · exact ⟨l0, b, hl0, rfl, Or.inl (Nat.lt_succ_self b)⟩
            · rcases htail lab htl
                with rfl | ⟨x, hx, hxn, rfl⟩ | ⟨q, hqc, hqs, hqn, rfl⟩
              · exact Bool.noConfusion
                  ((rfl : hasAt "Epsilon" = false).symm.trans hat)
              · have hxm : x ∈ (PT.node l0 cs0).subtreesPT :=
                  List.mem_cons_of_mem _ (mem_subtreesPT_of_child cs0 x hx hxn)
                exact Bool.noConfusion ((hfree x hxm).symm.trans hat)
              · have hqm : q.1 ∈ (PT.node l0 cs0).subtreesPT := by
                  apply List.mem_cons_of_mem
                  rw [← subIdsL_fst cs0 (b + 1)]
                  exact List.mem_map_of_mem Prod.fst hqs
                exact ⟨q.1.labelOf, q.2, hfree q.1 hqm, rfl,
                  Or.inr ⟨q, hqc, rfl⟩⟩
        rw [count_eq_zero_of_not_mem' k _ hnp]
        omega
      · rw [count_eq_zero_of_not_mem' k _ hmem]
        omega
  | nil =>
    rename_i b hall hfree hshape
    have hke : keysBelowL nn s .nil b = [] := rfl
    rw [hke, List.count_nil]
    exact Nat.zero_le 1
  | cons t ts iht ihts =>
    rename_i b hall hfree hshape
    have hsplit : keysBelowL nn s (.cons t ts) b =
        keysBelow nn s t b ++ keysBelowL nn s ts (b + t.numNodes) := by
      show (t.subIds b ++ ts.subIdsL (b + t.numNodes)).flatMap _ = _
      rw [List.flatMap_append]
      rfl
    rw [hsplit, List.count_append]
    have hall_ts : ∀ x ∈ ts.toList, x.isNode = true :=
      fun x hx => hall x (List.mem_cons_of_mem t hx)
    have hfree_t : ∀ μ ∈ t.subtreesPT, hasAt μ.labelOf = false :=
      fun μ hμ => hfree μ (List.mem_append_left _ hμ)
    have hshape_t : ∀ μ ∈ t.subtreesPT, goodDopSub s μ = true :=
      fun μ hμ => hshape μ (List.mem_append_left _ hμ)
    have hfree_ts : ∀ μ ∈ ts.subtreesPT, hasAt μ.labelOf = false :=
      fun μ hμ => hfree μ (List.mem_append_right _ hμ)
    have hshape_ts : ∀ μ ∈ ts.subtreesPT, goodDopSub s μ = true :=
      fun μ hμ => hshape μ (List.mem_append_right _ hμ)
    have hcnt1 : (keysBelow nn s t b).count k ≤ 1 := iht b hfree_t hshape_t
    have hcnt2 : (keysBelowL nn s ts (b + t.numNodes)).count k ≤ 1 :=
      ihts (b + t.numNodes) hall_ts hfree_ts hshape_ts
    by_cases hmem : k ∈ keysBelowL nn s ts (b + t.numNodes)
    · have hnp : k ∉ keysBelow nn s t b := by
        intro hp
        obtain ⟨lab0, hl0m, hat0⟩ := List.any_eq_true.mp hk
        obtain ⟨x, j, hxf, he, hj1, hj2⟩ :=
          keysBelow_labs nn s t b hfree_t hshape_t k hp lab0 hl0m hat0
        obtain ⟨x2, j2, hx2f, he2, hj21, hj22⟩ :=
          keysBelowL_labs nn s ts (b + t.numNodes) hfree_ts hshape_ts
            k hmem lab0 hl0m hat0
        obtain ⟨_, _, hjj⟩ := decLabel_inj x x2 nn j nn j2 hxf hx2f
          (he.symm.trans he2)
        omega
      rw [count_eq_zero_of_not_mem' k _ hnp]
      omega
    · rw [count_eq_zero_of_not_mem' k _ hmem]
      omega

theorem treeKeys_eq (nn : Nat) (s : Sent) (l : String) (cs : PTs) :
    treeKeys nn s (.node l cs) =
      genKeysPair (plainProd s (.node l cs)) (decProd nn s l 0 (.node l cs)) ++
      keysBelowL nn s cs 0 := by
  show (((plainProd s (.node l cs), decProd nn s l 0 (.node l cs)) ::
      (cs.subIdsL 0).map (fun stc =>
        (plainProd s stc.1,
          decProd nn s (decLabel stc.1.labelOf nn stc.2) (stc.2 + 1) stc.1))
      ).flatMap (fun p => genKeysPair p.1 p.2)) = _
  rw [List.flatMap_cons, List.flatMap_map]
  rfl

theorem goodDopTree_parts (t : PT) (s : Sent) (h : goodDopTree t s = true) :
    goodInput t s = true ∧ (∀ μ ∈ t.subtreesPT, goodDopSub s μ = true) ∧
    (∀ μ ∈ t.subtreesPT, hasAt μ.labelOf = false) := by
  rw [goodDopTree] at h
  simp only [Bool.and_eq_true] at h
  obtain ⟨⟨h1, h2⟩, h3⟩ := h
  refine ⟨h1, List.all_eq_true.mp h2, ?_⟩
  intro μ hμ
  have h4 := List.all_eq_true.mp h3 μ hμ
  cases hb : hasAt μ.labelOf with
  | false => rfl
  | true =>
    rw [hb] at h4
    exact Bool.noConfusion h4

theorem keysBelowL_count (nn : Nat) (s : Sent) (k : Prod')
    (hk : k.1.any hasAt = true) :
    ∀ (cs : PTs) (b : Nat),
      (∀ μ ∈ cs.subtreesPT, hasAt μ.labelOf = false) →
      (∀ μ ∈ cs.subtreesPT, goodDopSub s μ = true) →
      (keysBelowL nn s cs b).count k ≤ 1 := by
  intro cs
  induction cs using PTs.indPTs with
  | hnil =>
    intro b _ _
    have hke : keysBelowL nn s .nil b = [] := rfl
    rw [hke, List.count_nil]
    exact Nat.zero_le 1
  | hcons t ts ih =>
    intro b hfree hshape
    have hsplit : keysBelowL nn s (.cons t ts) b =
        keysBelow nn s t b ++ keysBelowL nn s ts (b + t.numNodes) := by
      show (t.subIds b ++ ts.subIdsL (b + t.numNodes)).flatMap _ = _
      rw [List.flatMap_append]
      rfl
    rw [hsplit, List.count_append]
    have hfree_t : ∀ μ ∈ t.subtreesPT, hasAt μ.labelOf = false :=
      fun μ hμ => hfree μ (List.mem_append_left _ hμ)
    have hshape_t : ∀ μ ∈ t.subtreesPT, goodDopSub s μ = true :=
      fun μ hμ => hshape μ (List.mem_append_left _ hμ)
    have hfree_ts : ∀ μ ∈ ts.subtreesPT, hasAt μ.labelOf = false :=
      fun μ hμ => hfree μ (List.mem_append_right _ hμ)
    have hshape_ts : ∀ μ ∈ ts.subtreesPT, goodDopSub s μ = true :=
      fun μ hμ => hshape μ (List.mem_append_right _ hμ)
    have hcnt1 : (keysBelow nn s t b).count k ≤ 1 :=
      keysBelow_count nn s k hk t b hfree_t hshape_t
    have hcnt2 : (keysBelowL nn s ts (b + t.numNodes)).count k ≤ 1 :=
      ih (b + t.numNodes) hfree_ts hshape_ts
    by_cases hmem : k ∈ keysBelowL nn s ts (b + t.numNodes)
    · have hnp : k ∉ keysBelow nn s t b := by
        intro hp
        obtain ⟨lab0, hl0m, hat0⟩ := List.any_eq_true.mp hk
        obtain ⟨x, j, hxf, he, hj1, hj2⟩ :=
          keysBelow_labs nn s t b hfree_t hshape_t k hp lab0 hl0m hat0
        obtain ⟨x2, j2, hx2f, he2, hj21, hj22⟩ :=
          keysBelowL_labs nn s ts (b + t.numNodes) hfree_ts hshape_ts
            k hmem lab0 hl0m hat0
        obtain ⟨_, _, hjj⟩ := decLabel_inj x x2 nn j nn j2 hxf hx2f
          (he.symm.trans he2)
        omega
      rw [count_eq_zero_of_not_mem' k _ hnp]
      omega
    · rw [count_eq_zero_of_not_mem' k _ hmem]
      omega

theorem treeKeys_count (nn : Nat) (s : Sent) (t : PT)
    (hfree : ∀ μ ∈ t.subtreesPT, hasAt μ.labelOf = false)
    (hshape : ∀ μ ∈ t.subtreesPT, goodDopSub s μ = true)
    (k : Prod') (hk : k.1.any hasAt = true) :
    (treeKeys nn s t).count k ≤ 1 := by
  cases t with
  | leaf v =>
    have hke : treeKeys nn s (.leaf v) = [] := rfl
    rw [hke, List.count_nil]
    exact Nat.zero_le 1
  | node l cs =>
    rw [treeKeys_eq, List.count_append]
    have hgood : goodDopSub s (.node l cs) = true :=
      hshape _ (List.mem_cons_self _ _)
    have hl : hasAt l = false := hfree _ (List.mem_cons_self _ _)
    have hfree_cs : ∀ μ ∈ cs.subtreesPT, hasAt μ.labelOf = false :=
      fun μ hμ => hfree μ (List.mem_cons_of_mem _ hμ)
    have hshape_cs : ∀ μ ∈ cs.subtreesPT, goodDopSub s μ = true :=
      fun μ hμ => hshape μ (List.mem_cons_of_mem _ hμ)
    have hpair1 := count_le_one_of_nodup' k
      (genKeysPair (plainProd s (.node l cs)) (decProd nn s l 0 (.node l cs)))
      (genKeysPair_nodup (plainProd s (.node l cs))
        (decProd nn s l 0 (.node l cs)))
    rcases goodDopSub_cases s l cs hgood with ⟨i, hcl, hw⟩ | ⟨hne, hall⟩
    · have hnil : keysBelowL nn s cs 0 = [] := by
        show (cs.subIdsL 0).flatMap _ = []
        rw [subIdsL_eq_nil_of_toList_leaf cs _ hcl 0]
        rfl
      rw [hnil, List.count_nil]
      omega
    · have hcnt2 : (keysBelowL nn s cs 0).count k ≤ 1 :=
        keysBelowL_count nn s k hk cs 0 hfree_cs hshape_cs
      by_cases hmem : k ∈ keysBelowL nn s cs 0
      · have hnp : k ∉ genKeysPair (plainProd s (.node l cs))
            (decProd nn s l 0 (.node l cs)) := by
          intro hp
          obtain ⟨h, hs, hk1, hor, htail⟩ :=
            pairKeys_struct nn s l 0 l cs hgood k hp
          refine pair_below_disj nn s k hk cs 0 hall hfree_cs
            hshape_cs ?_ ?_ hmem
          · intro hat
            rw [hk1] at hat
            have hat2 : hasAt h = true := hat
            rcases hor with rfl | rfl
            · exact Bool.noConfusion (hl.symm.trans hat2)
            · exact Bool.noConfusion (hl.symm.trans hat2)
          · intro lab hlab hat
            rw [hk1] at hlab
            rcases List.mem_cons.mp hlab with rfl | htl
            · rcases hor with rfl | rfl
              · exact Bool.noConfusion (hl.symm.trans hat)
              · exact Bool.noConfusion (hl.symm.trans hat)
            · rcases htail lab htl
                with rfl | ⟨x, hx, hxn, rfl⟩ | ⟨q, hqc, hqs, hqn, rfl⟩
              · exact Bool.noConfusion
                  ((rfl : hasAt "Epsilon" = false).symm.trans hat)
              · have hxm : x ∈ (PT.node l cs).subtreesPT :=
                  List.mem_cons_of_mem _ (mem_subtreesPT_of_child cs x hx hxn)
                exact Bool.noConfusion ((hfree x hxm).symm.trans hat)
              · have hqm : q.1 ∈ (PT.node l cs).subtreesPT := by
                  apply List.mem_cons_of_mem
                  rw [← subIdsL_fst cs 0]
                  exact List.mem_map_of_mem Prod.fst hqs
                exact ⟨q.1.labelOf, q.2, hfree q.1 hqm, rfl,
                  Or.inr ⟨q, hqc, rfl⟩⟩
        rw [count_eq_zero_of_not_mem' k _ hnp]
        omega
      · rw [count_eq_zero_of_not_mem' k _ hmem]
        omega

theorem treeKeys_labs (nn : Nat) (s : Sent) (t : PT)
    (hfree : ∀ μ ∈ t.subtreesPT, hasAt μ.labelOf = false)
    (hshape : ∀ μ ∈ t.subtreesPT, goodDopSub s μ = true) :
    ∀ k ∈ treeKeys nn s t, ∀ lab ∈ k.1, hasAt lab = true →
      ∃ x j, hasAt x = false ∧ lab = decLabel x nn j := by
  cases t with
  | leaf v =>
    intro k hkm
    have hke : treeKeys nn s (.leaf v) = [] := rfl
    rw [hke] at hkm
    exact absurd hkm (List.not_mem_nil k)
  | node l cs =>
    intro k hkm lab hlab hat
    have hgood : goodDopSub s (.node l cs) = true :=
      hshape _ (List.mem_cons_self _ _)
    have hl : hasAt l = false := hfree _ (List.mem_cons_self _ _)
    have hfree_cs : ∀ μ ∈ cs.subtreesPT, hasAt μ.labelOf = false :=
      fun μ hμ => hfree μ (List.mem_cons_of_mem _ hμ)
    have hshape_cs : ∀ μ ∈ cs.subtreesPT, goodDopSub s μ = true :=
      fun μ hμ => hshape μ (List.mem_cons_of_mem _ hμ)
    rw [treeKeys_eq] at hkm
    rcases List.mem_append.mp hkm with hp | hb
    · obtain ⟨h, hs, hk1, hor, htail⟩ :=
        pairKeys_struct nn s l 0 l cs hgood k hp
      rw [hk1] at hlab
      rcases List.mem_cons.mp hlab with rfl | htl
      · rcases hor with rfl | rfl
        · exact Bool.noConfusion (hl.symm.trans hat)
        · exact Bool.noConfusion (hl.symm.trans hat)
      · rcases htail lab htl
          with rfl | ⟨x, hx, hxn, rfl⟩ | ⟨q, hqc, hqs, hqn, rfl⟩
        · exact Bool.noConfusion
            ((rfl : hasAt "Epsilon" = false).symm.trans hat)
        · have hxm : x ∈ (PT.node l cs).subtreesPT :=
            List.mem_cons_of_mem _ (mem_subtreesPT_of_child cs x hx hxn)
          exact Bool.noConfusion ((hfree x hxm).symm.trans hat)
        · have hqm : q.1 ∈ (PT.node l cs).subtreesPT := by
            apply List.mem_cons_of_mem
            rw [← subIdsL_fst cs 0]
            exact List.mem_map_of_mem Prod.fst hqs
          exact ⟨q.1.labelOf, q.2, hfree q.1 hqm, rfl⟩
    · obtain ⟨x, j, hxf, he, _, _⟩ :=
        keysBelowL_labs nn s cs 0 hfree_cs hshape_cs k hb lab hlab hat
      exact ⟨x, j, hxf, he⟩

theorem keysCorpus_labs : ∀ (trees : List PT) (sents : List Sent) (n : Nat),
    (∀ p ∈ trees.zip sents, goodDopTree p.1 p.2 = true) →
    ∀ k ∈ keysCorpus n trees sents, ∀ lab ∈ k.1, hasAt lab = true →
      ∃ x m j, hasAt x = false ∧ lab = decLabel x m j ∧ n ≤ m := by
  intro trees
  induction trees with
  | nil =>
    intro sents n _ k hkm
    exact absurd hkm (List.not_mem_nil k)
  | cons t ts ih =>
    intro sents n hgood k hkm lab hlab hat
    cases sents with
    | nil => exact absurd hkm (List.not_mem_nil k)
    | cons s ss =>
      have hke : keysCorpus n (t :: ts) (s :: ss) =
          treeKeys n s t ++ keysCorpus (n + 1) ts ss := rfl
      rw [hke] at hkm
      have hg1 : goodDopTree t s = true := by
        apply hgood (t, s)
        rw [List.zip_cons_cons]
        exact List.mem_cons_self _ _
      obtain ⟨_, hshape, hfree⟩ := goodDopTree_parts t s hg1
      rcases List.mem_append.mp hkm with hp | hb
      · obtain ⟨x, j, hxf, he⟩ :=
          treeKeys_labs n s t hfree hshape k hp lab hlab hat
        exact ⟨x, n, j, hxf, he, le_refl n⟩
      · have hgood_ts : ∀ p ∈ ts.zip ss, goodDopTree p.1 p.2 = true := by
          intro p hp
          apply hgood p
          rw [List.zip_cons_cons]
          exact List.mem_cons_of_mem _ hp
        obtain ⟨x, m, j, hxf, he, hm⟩ :=
          ih ss (n + 1) hgood_ts k hb lab hlab hat
        exact ⟨x, m, j, hxf, he, by omega⟩

theorem keysCorpus_count : ∀ (trees : List PT) (sents : List Sent) (n : Nat),
    (∀ p ∈ trees.zip sents, goodDopTree p.1 p.2 = true) →
    ∀ k : Prod', k.1.any hasAt = true →
      (keysCorpus n trees sents).count k ≤ 1 := by
  intro trees
  induction trees with
  | nil =>
    intro sents n _ k _
    have hke : keysCorpus n [] sents = [] := rfl
    rw [hke, List.count_nil]
    exact Nat.zero_le 1
  | cons t ts ih =>
    intro sents n hgood k hk
    cases sents with
    | nil =>
      have hke : keysCorpus n (t :: ts) [] = [] := rfl
      rw [hke, List.count_nil]
      exact Nat.zero_le 1
    | cons s ss =>
      have hke : keysCorpus n (t :: ts) (s :: ss) =
          treeKeys n s t ++ keysCorpus (n + 1) ts ss := rfl
      rw [hke, List.count_append]
      have hg1 : goodDopTree t s = true := by
        apply hgood (t, s)
        rw [List.zip_cons_cons]
        exact List.mem_cons_self _ _
      have hgood_ts : ∀ p ∈ ts.zip ss, goodDopTree p.1 p.2 = true := by
        intro p hp
        apply hgood p
        rw [List.zip_cons_cons]
        exact List.mem_cons_of_mem _ hp
      obtain ⟨_, hshape, hfree⟩ := goodDopTree_parts t s hg1
      have hcnt1 : (treeKeys n s t).count k ≤ 1 :=
        treeKeys_count n s t hfree hshape k hk
      have hcnt2 : (keysCorpus (n + 1) ts ss).count k ≤ 1 :=
        ih ss (n + 1) hgood_ts k hk
      by_cases hmem : k ∈ keysCorpus (n + 1) ts ss
      · have hnp : k ∉ treeKeys n s t := by
          intro hp
          obtain ⟨lab0, hl0m, hat0⟩ := List.any_eq_true.mp hk
          obtain ⟨x, j, hxf, he⟩ :=
            treeKeys_labs n s t hfree hshape k hp lab0 hl0m hat0
          obtain ⟨x2, m, j2, hx2f, he2, hm2⟩ :=
            keysCorpus_labs ts ss (n + 1) hgood_ts k hmem lab0 hl0m hat0
          obtain ⟨_, hnm, _⟩ := decLabel_inj x x2 n j m j2 hxf hx2f
            (he.symm.trans he2)
          omega
        rw [count_eq_zero_of_not_mem' k _ hnp]
        omega
      · rw [count_eq_zero_of_not_mem' k _ hmem]
        omega

theorem keysSum_append (fd : FD) (l1 l2 : List Prod') (L : String) :
    keysSum fd (l1 ++ l2) L = keysSum fd l1 L + keysSum fd l2 L := by
  rw [keysSum, keysSum, keysSum, List.filter_append, List.map_append,
    List.sum_append]

theorem keysSum_genKeysPair (fd : FD) (x y : String) (ta tb : List String)
    (ya yb : Yf) (L : String) :
    keysSum fd (genKeysPair (x :: ta, ya) (y :: tb, yb)) L =
      (((if x = y then [x] else [x, y]).map
        (fun h => if h = L then (1 : ℚ) else 0)).sum) *
      ((genOptions ta tb).map (fun o => (o.map (gQ fd)).sum)).prod := by
  rw [keysSum, sum_filter_indicator]
  have h1 : genKeysPair (x :: ta, ya) (y :: tb, yb) =
      ((if x = y then [x] else [x, y]).flatMap
        (fun h => (cartpi (genOptions ta tb)).map (fun c => h :: c))).map
        (fun c => (c, ya)) := by
    show (genLabels (x :: ta) (y :: tb)).map _ = _
    rw [genLabels, genOptions_cons, cartpi_cons]
  rw [h1, List.map_map, sum_flatMap]
  have hin : ∀ h : String,
      (((cartpi (genOptions ta tb)).map (fun c => h :: c)).map
        ((fun k : Prod' =>
          if (fun e : Prod' => decide (headLab e.1 = L)) k = true
          then prodG fd k else 0) ∘ (fun c => (c, ya)))).sum =
      (if h = L then (1 : ℚ) else 0) *
        ((genOptions ta tb).map (fun o => (o.map (gQ fd)).sum)).prod := by
    intro h
    rw [List.map_map]
    have hfe : (((fun k : Prod' =>
          if (fun e : Prod' => decide (headLab e.1 = L)) k = true
          then prodG fd k else 0) ∘ (fun c => (c, ya))) ∘ (fun c => h :: c)) =
        fun c : List String =>
          if h = L then (c.map (gQ fd)).prod else 0 := by
      funext c
      show (if decide (headLab (h :: c) = L) = true
          then prodG fd (h :: c, ya) else 0) = _
      by_cases hL : h = L
      · have hd : decide (headLab (h :: c) = L) = true :=
          decide_eq_true (show headLab (h :: c) = L from hL)
        rw [hd, if_pos rfl, if_pos hL]
        rfl
      · have hd : decide (headLab (h :: c) = L) = false :=
          decide_eq_false (show ¬ headLab (h :: c) = L from hL)
        rw [hd, if_neg Bool.false_ne_true, if_neg hL]
    rw [hfe]
    by_cases hL : h = L
    · rw [if_pos hL]
      simp only [if_pos hL]
      rw [cartpi_sum_prod, one_mul]
    · rw [if_neg hL]
      simp only [if_neg hL]
      simp
  rw [List.map_congr_left (fun h _ => hin h)]
  exact List.sum_map_mul_right _ _ _

theorem genOptions_map {α : Type} (f g : α → String) : ∀ l : List α,
    genOptions (l.map f) (l.map g) =
      l.map (fun q => if f q = g q then [f q] else [f q, g q]) := by
  intro l
  induction l with
  | nil => rfl
  | cons a t ih =>
    rw [List.map_cons, List.map_cons, genOptions_cons, ih, List.map_cons]

theorem nsubtL_prod (fd : FD) : ∀ (cs : PTs) (cb : Nat),
    ((cs.childIds cb).map (fun q => (1 : ℚ) + (q.1.nsubt : ℚ))).prod =
      (cs.nsubtL : ℚ) := by
  intro cs
  induction cs using PTs.indPTs with
  | hnil =>
    intro cb
    show (1 : ℚ) = ((1 : Nat) : ℚ)
    rw [Nat.cast_one]
  | hcons t ts ih =>
    intro cb
    show ((1 : ℚ) + (t.nsubt : ℚ)) *
      ((ts.childIds (cb + t.numNodes)).map
        (fun q => (1 : ℚ) + (q.1.nsubt : ℚ))).prod = _
    rw [ih (cb + t.numNodes)]
    show _ = (((t.nsubt + 1) * ts.nsubtL : Nat) : ℚ)
    push_cast
    ring

theorem keysSum_pair (fd : FD) (nn : Nat) (s : Sent) (l : String) (cs : PTs)
    (hd : String) (cb : Nat) (L : String)
    (hshape : goodDopSub s (.node l cs) = true)
    (hfree : ∀ μ ∈ (PT.node l cs).subtreesPT, hasAt μ.labelOf = false)
    (hfd : ∀ q ∈ cs.childIds cb, q.1.isNode = true →
      fd (decLabel q.1.labelOf nn q.2) = q.1.nsubt) :
    keysSum fd (genKeysPair (plainProd s (.node l cs))
      (decProd nn s hd cb (.node l cs))) L =
    (((if l = hd then [l] else [l, hd]).map
      (fun h => if h = L then (1 : ℚ) else 0)).sum) *
    ((PT.node l cs).nsubt : ℚ) := by
  rcases goodDopSub_cases s l cs hshape with ⟨i, hcl, hw⟩ | ⟨hne, hall⟩
  · have ha : plainProd s (.node l cs) =
        ([l, "Epsilon"], Yf.lex ((s.getD i.toNat none).getD "")) := by
      rw [plainProd_eq, hcl]
    have hb : decProd nn s hd cb (.node l cs) =
        ([hd, "Epsilon"], Yf.lex ((s.getD i.toNat none).getD "")) := by
      rw [decProd_eq, hcl]
    rw [ha, hb, keysSum_genKeysPair]
    have hns : (PT.node l cs).nsubt = 1 := by
      rw [nsubt_node, hcl]
      rfl
    rw [hns]
    have hgo : genOptions ["Epsilon"] ["Epsilon"] = [["Epsilon"]] := by
      simp [genOptions]
    rw [hgo]
    have hq : gQ fd "Epsilon" = 1 := by
      rw [gQ, if_neg (show ¬ hasAt "Epsilon" = true from Bool.false_ne_true)]
    simp [hq]
  · cases hcl : cs.toList with
    | nil => exact absurd hcl hne
    | cons c0 rest =>
      have hc0 : c0.isNode = true :=
        hall c0 (by rw [hcl]; exact List.mem_cons_self _ _)
      cases c0 with
      | leaf v => exact Bool.noConfusion hc0
      | node l0 cs0 =>
        have ha : plainProd s (.node l cs) =
            (l :: (PT.node l0 cs0 :: rest).map PT.labelOf,
              yfOf (PT.node l0 cs0 :: rest)) := by
          rw [plainProd_eq, hcl]
        have hb : decProd nn s hd cb (.node l cs) =
            (hd :: (cs.childIds cb).map
              (fun p => decLabel p.1.labelOf nn p.2),
              yfOf (PT.node l0 cs0 :: rest)) := by
          rw [decProd_eq, hcl]
        rw [ha, hb, keysSum_genKeysPair]
        have hta : (PT.node l0 cs0 :: rest).map PT.labelOf =
            (cs.childIds cb).map (fun q => q.1.labelOf) := by
          have h1 : (cs.childIds cb).map (fun q : PT × Nat => q.1.labelOf) =
              ((cs.childIds cb).map Prod.fst).map PT.labelOf := by
            rw [List.map_map]
            rfl
          rw [h1, childIds_fst, hcl]
        rw [hta, genOptions_map (fun q : PT × Nat => q.1.labelOf)
          (fun q : PT × Nat => decLabel q.1.labelOf nn q.2) (cs.childIds cb)]
        have hne2 : ∀ q ∈ cs.childIds cb,
            ¬ (q.1.labelOf = decLabel q.1.labelOf nn q.2) :=
          fun q _ he => decLabel_ne q.1.labelOf nn q.2 he.symm
        rw [List.map_congr_left (fun q hq => if_neg (hne2 q hq)),
          List.map_map]
        have hfe : ∀ q ∈ cs.childIds cb,
            ((fun o : List String => (o.map (gQ fd)).sum) ∘
              (fun q : PT × Nat =>
                [q.1.labelOf, decLabel q.1.labelOf nn q.2])) q =
            (1 : ℚ) + (q.1.nsubt : ℚ) := by
          intro q hq
          have hqm : q.1 ∈ cs.toList := by
            rw [← childIds_fst cs cb]
            exact List.mem_map_of_mem Prod.fst hq
          have hqn : q.1.isNode = true := hall q.1 hqm
          have hql : hasAt q.1.labelOf = false := by
            apply hfree
            exact List.mem_cons_of_mem _
              (mem_subtreesPT_of_child cs q.1 hqm hqn)
          have hg1 : gQ fd q.1.labelOf = 1 := by
            rw [gQ, hql, if_neg Bool.false_ne_true]
          have hg2 : gQ fd (decLabel q.1.labelOf nn q.2) = (q.1.nsubt : ℚ) := by
            rw [gQ, hasAt_decLabel, if_pos rfl, hfd q hq hqn]
          show ([q.1.labelOf, decLabel q.1.labelOf nn q.2].map (gQ fd)).sum = _
          show gQ fd q.1.labelOf + (gQ fd (decLabel q.1.labelOf nn q.2) + 0) = _
          rw [hg1, hg2, add_zero]
        rw [List.map_congr_left hfe, nsubtL_prod fd cs cb]
        have hns : (PT.node l cs).nsubt = cs.nsubtL := by
          rw [nsubt_node, hcl]
          rfl
        rw [hns]

theorem childIds_mem_subIdsL2 : ∀ (cs : PTs) (c : Nat),
    ∀ q ∈ cs.childIds c, q.1.isNode = true → q ∈ cs.subIdsL c := by
  intro cs
  induction cs using PTs.indPTs with
  | hnil =>
    intro c q hq _
    exact absurd hq (List.not_mem_nil q)
  | hcons t ts ih =>
    intro c q hq hn
    rcases List.mem_cons.mp hq with rfl | hq2
    · apply List.mem_append_left
      cases t with
      | leaf v => exact Bool.noConfusion hn
      | node l cs2 => exact List.mem_cons_self _ _
    · exact List.mem_append_right _ (ih (c + t.numNodes) q hq2 hn)

theorem subIdsL_child_mem : ∀ (cs : PTs) (c : Nat), ∀ p ∈ cs.subIdsL c,
    ∀ (l' : String) (cs' : PTs), p.1 = PT.node l' cs' →
    ∀ q ∈ cs'.childIds (p.2 + 1), q.1.isNode = true → q ∈ cs.subIdsL c := by
  intro cs
  induction cs using PTs.rec
    (motive_1 := fun t => ∀ c, ∀ p ∈ t.subIds c,
      ∀ (l' : String) (cs' : PTs), p.1 = PT.node l' cs' →
      ∀ q ∈ cs'.childIds (p.2 + 1), q.1.isNode = true → q ∈ t.subIds c) with
  | leaf v =>
    rename_i c p hp l' cs' hpe q hq hn
    exact absurd hp (List.not_mem_nil p)
  | node l cs ih =>
    rename_i c p hp l' cs' hpe q hq hn
    rcases List.mem_cons.mp hp with rfl | hp2
    · have hl : l = l' ∧ cs = cs' := by
        have h1 := PT.node.inj hpe
        exact ⟨h1.1, h1.2⟩
      obtain ⟨rfl, rfl⟩ := hl
      exact List.mem_cons_of_mem _ (childIds_mem_subIdsL2 cs (c + 1) q hq hn)
    · exact List.mem_cons_of_mem _ (ih (c + 1) p hp2 l' cs' hpe q hq hn)
  | nil =>
    intro c p hp l' cs' hpe q hq hn
    exact absurd hp (List.not_mem_nil p)
  | cons t ts iht ihts =>
    intro c p hp l' cs' hpe q hq hn
    rcases List.mem_append.mp hp with hp2 | hp2
    · exact List.mem_append_left _ (iht c p hp2 l' cs' hpe q hq hn)
    · exact List.mem_append_right _
        (ihts (c + t.numNodes) p hp2 l' cs' hpe q hq hn)

theorem keysSum_flatMap {α : Type} (fd : FD) (F : α → List Prod')
    (L : String) : ∀ l : List α,
    keysSum fd (l.flatMap F) L = (l.map (fun x => keysSum fd (F x) L)).sum := by
  intro l
  induction l with
  | nil => rfl
  | cons a t ih =>
    rw [List.flatMap_cons, keysSum_append, ih, List.map_cons, List.sum_cons]

theorem keysSum_tree (fd : FD) (nn : Nat) (s : Sent) (l : String) (cs : PTs)
    (L : String)
    (hfree : ∀ μ ∈ (PT.node l cs).subtreesPT, hasAt μ.labelOf = false)
    (hshape : ∀ μ ∈ (PT.node l cs).subtreesPT, goodDopSub s μ = true)
    (hfd : ∀ p ∈ cs.subIdsL 0, fd (decLabel p.1.labelOf nn p.2) = p.1.nsubt) :
    keysSum fd (treeKeys nn s (.node l cs)) L =
      (fdTree nn (.node l cs) L : ℚ) := by
  rw [treeKeys_eq, keysSum_append]
  have hgood : goodDopSub s (.node l cs) = true :=
    hshape _ (List.mem_cons_self _ _)
  have hfdroot : ∀ q ∈ cs.childIds 0, q.1.isNode = true →
      fd (decLabel q.1.labelOf nn q.2) = q.1.nsubt :=
    fun q hq hn => hfd q (childIds_mem_subIdsL2 cs 0 q hq hn)
  rw [keysSum_pair fd nn s l cs l 0 L hgood hfree hfdroot, if_pos rfl]
  have hbelow : keysSum fd (keysBelowL nn s cs 0) L =
      ((cs.subIdsL 0).map (fun p => (fdEntry nn L p : ℚ))).sum := by
    show keysSum fd ((cs.subIdsL 0).flatMap
      (fun p => genKeysPair (dpair nn s p).1 (dpair nn s p).2)) L = _
    rw [keysSum_flatMap]
    apply congrArg List.sum
    apply List.map_congr_left
    intro p hp
    have hn := subIdsL_isNode cs 0 p hp
    have hmem : p.1 ∈ cs.subtreesPT := by
      rw [← subIdsL_fst cs 0]
      exact List.mem_map_of_mem Prod.fst hp
    obtain ⟨ν, i⟩ := p
    cases ν with
    | leaf v => exact Bool.noConfusion hn
    | node lν csν =>
      have hgν : goodDopSub s (.node lν csν) = true :=
        hshape _ (List.mem_cons_of_mem _ hmem)
      have hfreeν : ∀ μ ∈ (PT.node lν csν).subtreesPT,
          hasAt μ.labelOf = false :=
        fun μ hμ => hfree μ
          (List.mem_cons_of_mem _ (subtreesPT_transL cs _ hmem μ hμ))
      have hfdν : ∀ q ∈ csν.childIds (i + 1), q.1.isNode = true →
          fd (decLabel q.1.labelOf nn q.2) = q.1.nsubt := by
        intro q hq hn2
        apply hfd
        exact subIdsL_child_mem cs 0 (PT.node lν csν, i) hp lν csν rfl q hq hn2
      have hpair := keysSum_pair fd nn s lν csν (decLabel lν nn i) (i + 1) L
        hgν hfreeν hfdν
      show keysSum fd (genKeysPair (plainProd s (.node lν csν))
        (decProd nn s (decLabel lν nn i) (i + 1) (.node lν csν))) L = _
      rw [hpair, if_neg (fun he => decLabel_ne lν nn i he.symm)]
      have hfde : fdEntry nn L (PT.node lν csν, i) =
          (PT.node lν csν).nsubt *
            ((if lν = L then 1 else 0) +
             (if decLabel lν nn i = L then 1 else 0)) := rfl
      rw [hfde]
      by_cases h1 : lν = L <;> by_cases h2 : decLabel lν nn i = L <;>
        simp [h1, h2] <;> push_cast <;> ring
  rw [hbelow]
  have hft : fdTree nn (.node l cs) L =
      (PT.node l cs).nsubt * (if l = L then 1 else 0) + fdSubL nn cs 0 L := rfl
  rw [hft, fdSubL, Nat.cast_add, Nat.cast_mul, Nat.cast_list_sum,
    List.map_map]
  have hmm : (List.map (Nat.cast ∘ fdEntry nn L) (cs.subIdsL 0) : List ℚ) =
      List.map (fun p => (fdEntry nn L p : ℚ)) (cs.subIdsL 0) := rfl
  rw [hmm]
  by_cases h : l = L <;> simp [h] <;> push_cast <;> ring

theorem bump_apply (X : FD) (k : String) (v : Nat) (z : String) :
    bump X k v z = if z = k then X z + v else X z := rfl

theorem fdSub_leaf (nn : Nat) (v : LV) (c : Nat) (L : String) :
    fdSub nn (.leaf v) c L = 0 := rfl

theorem fdSub_node (nn : Nat) (l : String) (cs : PTs) (c : Nat) (L : String) :
    fdSub nn (.node l cs) c L =
      fdEntry nn L (.node l cs, c) + fdSubL nn cs (c + 1) L := by
  show ((((PT.node l cs, c) :: cs.subIdsL (c + 1)).map (fdEntry nn L)).sum) = _
  rw [List.map_cons, List.sum_cons]
  rfl

theorem fdSubL_cons (nn : Nat) (t : PT) (ts : PTs) (c : Nat) (L : String) :
    fdSubL nn (.cons t ts) c L =
      fdSub nn t c L + fdSubL nn ts (c + t.numNodes) L := by
  show ((t.subIds c ++ ts.subIdsL (c + t.numNodes)).map (fdEntry nn L)).sum = _
  rw [List.map_append, List.sum_append]
  rfl

theorem fdEntry_node (nn : Nat) (L : String) (l : String) (cs : PTs) (c : Nat) :
    fdEntry nn L (.node l cs, c) =
      (PT.node l cs).nsubt * ((if l = L then 1 else 0) +
        (if decLabel l nn c = L then 1 else 0)) := rfl

theorem nodefreqL_deco (nn : Nat) (s : Sent) : ∀ (cs : PTs) (c : Nat)
    (fd ntfd : FD),
    (∀ μ ∈ cs.subtreesPT, goodDopSub s μ = true) →
    (PTs.nodefreqL cs (PTs.decoL nn cs c).1 fd ntfd).1 = cs.nsubtL ∧
    ∀ L, (PTs.nodefreqL cs (PTs.decoL nn cs c).1 fd ntfd).2.1 L =
      fd L + fdSubL nn cs c L := by
  intro cs
  induction cs using PTs.rec
    (motive_1 := fun t => ∀ c fd ntfd,
      (∀ μ ∈ t.subtreesPT, goodDopSub s μ = true) →
      (nodefreqT t (PT.decoT nn t c).1 fd ntfd).1 = t.nsubt ∧
      ∀ L, (nodefreqT t (PT.decoT nn t c).1 fd ntfd).2.1 L =
        fd L + fdSub nn t c L) with
  | leaf v =>
    rename_i c fd ntfd hsh
    refine ⟨rfl, fun L => ?_⟩
    rw [fdSub_leaf]
    exact (Nat.add_zero (fd L)).symm
  | node l cs ih =>
    rename_i c fd ntfd hsh
    have hdt : (PT.decoT nn (.node l cs) c).1 =
        .node (decLabel l nn c) (PTs.decoL nn cs (c + 1)).1 := rfl
    rw [hdt]
    have h1 : nodefreqT (.node l cs)
        (.node (decLabel l nn c) (PTs.decoL nn cs (c + 1)).1) fd ntfd =
        (fun r : Nat × FD × FD =>
          (r.1,
           if decLabel l nn c ≠ l then
             bump (bump r.2.1 l r.1) (decLabel l nn c) r.1
           else bump r.2.1 l r.1,
           r.2.2))
        (match cs.toList.head? with
         | some (.node _ _) => PTs.nodefreqL cs (PTs.decoL nn cs (c + 1)).1 fd
             (bump (bump ntfd l 1) (decLabel l nn c) 1)
         | _ => (1, fd, bump (bump ntfd l 1) (decLabel l nn c) 1)) := rfl
    rw [h1]
    have hroot : goodDopSub s (.node l cs) = true :=
      hsh _ (List.mem_cons_self _ _)
    have hsh_cs : ∀ μ ∈ cs.subtreesPT, goodDopSub s μ = true :=
      fun μ hμ => hsh μ (List.mem_cons_of_mem _ hμ)
    rcases goodDopSub_cases s l cs hroot with ⟨i, hcl, hw⟩ | ⟨hne, hall⟩
    · rw [hcl]
      constructor
      · rw [nsubt_node, hcl]
        rfl
      · intro L
        show (if decLabel l nn c ≠ l then
            bump (bump fd l 1) (decLabel l nn c) 1
          else bump fd l 1) L = fd L + fdSub nn (.node l cs) c L
        rw [if_pos (decLabel_ne l nn c), fdSub_node, fdEntry_node]
        have hsub0 : fdSubL nn cs (c + 1) L = 0 := by
          rw [fdSubL, subIdsL_eq_nil_of_toList_leaf cs _ hcl (c + 1)]
          rfl
        have hns : (PT.node l cs).nsubt = 1 := by
          rw [nsubt_node, hcl]
          rfl
        rw [hsub0, hns, one_mul, Nat.add_zero, bump_apply, bump_apply]
        by_cases h2 : L = decLabel l nn c
        · have hLl : ¬ L = l := fun he =>
            decLabel_ne l nn c (he.symm.trans h2).symm
          rw [if_pos h2, if_neg hLl, if_neg (fun he => hLl he.symm),
            if_pos h2.symm]
        · by_cases h3 : L = l
          · rw [if_neg h2, if_pos h3, if_pos h3.symm,
              if_neg (fun he => h2 he.symm)]
          · rw [if_neg h2, if_neg h3, if_neg (fun he => h3 he.symm),
              if_neg (fun he => h2 he.symm)]
            omega
    · cases hcl : cs.toList with
      | nil => exact absurd hcl hne
      | cons c0 rest =>
        have hc0 : c0.isNode = true :=
          hall c0 (by rw [hcl]; exact List.mem_cons_self _ _)
        cases c0 with
        | leaf v => exact Bool.noConfusion hc0
        | node l2 cs2 =>
          obtain ⟨hr1, hr2⟩ := ih (c + 1) fd
            (bump (bump ntfd l 1) (decLabel l nn c) 1) hsh_cs
          constructor
          · show (PTs.nodefreqL cs (PTs.decoL nn cs (c + 1)).1 fd
              (bump (bump ntfd l 1) (decLabel l nn c) 1)).1 =
              (PT.node l cs).nsubt
            rw [hr1, nsubt_node, hcl]
            rfl
          · intro L
            show (if decLabel l nn c ≠ l then
                bump (bump (PTs.nodefreqL cs (PTs.decoL nn cs (c + 1)).1 fd
                  (bump (bump ntfd l 1) (decLabel l nn c) 1)).2.1 l
                  (PTs.nodefreqL cs (PTs.decoL nn cs (c + 1)).1 fd
                    (bump (bump ntfd l 1) (decLabel l nn c) 1)).1)
                  (decLabel l nn c)
                  (PTs.nodefreqL cs (PTs.decoL nn cs (c + 1)).1 fd
                    (bump (bump ntfd l 1) (decLabel l nn c) 1)).1
              else bump (PTs.nodefreqL cs (PTs.decoL nn cs (c + 1)).1 fd
                  (bump (bump ntfd l 1) (decLabel l nn c) 1)).2.1 l
                  (PTs.nodefreqL cs (PTs.decoL nn cs (c + 1)).1 fd
                    (bump (bump ntfd l 1) (decLabel l nn c) 1)).1) L =
              fd L + fdSub nn (.node l cs) c L
            rw [if_pos (decLabel_ne l nn c), fdSub_node, fdEntry_node,
              bump_apply, bump_apply, hr1]
            have hns : (PT.node l cs).nsubt = cs.nsubtL := by
              rw [nsubt_node, hcl]
              rfl
            rw [hns]
            by_cases h2 : L = decLabel l nn c
            · have hLl : ¬ L = l := fun he =>
                decLabel_ne l nn c (he.symm.trans h2).symm
              rw [if_pos h2, if_neg hLl, if_neg (fun he => hLl he.symm),
                if_pos h2.symm, hr2 L]
              omega
            · by_cases h3 : L = l
              · rw [if_neg h2, if_pos h3, if_pos h3.symm,
                  if_neg (fun he => h2 he.symm), hr2 L]
                omega
              · rw [if_neg h2, if_neg h3, if_neg (fun he => h3 he.symm),
                  if_neg (fun he => h2 he.symm), hr2 L]
                omega
  | nil =>
    intro c fd ntfd hsh
    refine ⟨rfl, fun L => ?_⟩
    show fd L = fd L + fdSubL nn .nil c L
    show fd L = fd L + 0
    rw [Nat.add_zero]
  | cons t ts iht ihts =>
    intro c fd ntfd hsh
    have hdl : (PTs.decoL nn (.cons t ts) c).1 =
        .cons (PT.decoT nn t c).1 (PTs.decoL nn ts (c + t.numNodes)).1 := by
      show PTs.cons (PT.decoT nn t c).1
        ((PTs.decoL nn ts ((PT.decoT nn t c).2)).1) = _
      rw [decoT_counter]
    rw [hdl]
    have h2 : PTs.nodefreqL (.cons t ts)
        (.cons (PT.decoT nn t c).1 (PTs.decoL nn ts (c + t.numNodes)).1)
        fd ntfd =
        (((nodefreqT t (PT.decoT nn t c).1 fd ntfd).1 + 1) *
          (PTs.nodefreqL ts (PTs.decoL nn ts (c + t.numNodes)).1
            (nodefreqT t (PT.decoT nn t c).1 fd ntfd).2.1
            (nodefreqT t (PT.decoT nn t c).1 fd ntfd).2.2).1,
         (PTs.nodefreqL ts (PTs.decoL nn ts (c + t.numNodes)).1
            (nodefreqT t (PT.decoT nn t c).1 fd ntfd).2.1
            (nodefreqT t (PT.decoT nn t c).1 fd ntfd).2.2).2) := rfl
    rw [h2]
    have hsh_t : ∀ μ ∈ t.subtreesPT, goodDopSub s μ = true :=
      fun μ hμ => hsh μ (List.mem_append_left _ hμ)
    have hsh_ts : ∀ μ ∈ ts.subtreesPT, goodDopSub s μ = true :=
      fun μ hμ => hsh μ (List.mem_append_right _ hμ)
    obtain ⟨ht1, ht2⟩ := iht c fd ntfd hsh_t
    obtain ⟨hl1, hl2⟩ := ihts (c + t.numNodes)
      (nodefreqT t (PT.decoT nn t c).1 fd ntfd).2.1
      (nodefreqT t (PT.decoT nn t c).1 fd ntfd).2.2 hsh_ts
    constructor
    · show (_ + 1) * _ = (t.nsubt + 1) * ts.nsubtL
      rw [ht1, hl1]
    · intro L
      show (PTs.nodefreqL ts (PTs.decoL nn ts (c + t.numNodes)).1
          (nodefreqT t (PT.decoT nn t c).1 fd ntfd).2.1
          (nodefreqT t (PT.decoT nn t c).1 fd ntfd).2.2).2.1 L =
        fd L + fdSubL nn (.cons t ts) c L
      rw [hl2 L, ht2 L, fdSubL_cons]
      omega

theorem nodefreq_decorate (nn : Nat) (s : Sent) (t : PT) (fd ntfd : FD)
    (hshape : ∀ μ ∈ t.subtreesPT, goodDopSub s μ = true) :
    (nodefreqT t (decorate_with_ids nn t) fd ntfd).1 = t.nsubt ∧
    ∀ L, (nodefreqT t (decorate_with_ids nn t) fd ntfd).2.1 L =
      fd L + fdTree nn t L := by
  cases t with
  | leaf v =>
    refine ⟨rfl, fun L => ?_⟩
    show fd L = fd L + 0
    rw [Nat.add_zero]
  | node l cs =>
    have hde : decorate_with_ids nn (.node l cs) =
        .node l (PTs.decoL nn cs 0).1 := rfl
    rw [hde]
    have h1 : nodefreqT (.node l cs) (.node l (PTs.decoL nn cs 0).1) fd ntfd =
        (fun r : Nat × FD × FD =>
          (r.1,
           if l ≠ l then bump (bump r.2.1 l r.1) l r.1
           else bump r.2.1 l r.1,
           r.2.2))
        (match cs.toList.head? with
         | some (.node _ _) => PTs.nodefreqL cs (PTs.decoL nn cs 0).1 fd
             (bump (bump ntfd l 1) l 1)
         | _ => (1, fd, bump (bump ntfd l 1) l 1)) := rfl
    rw [h1]
    have hroot : goodDopSub s (.node l cs) = true :=
      hshape _ (List.mem_cons_self _ _)
    have hsh_cs : ∀ μ ∈ cs.subtreesPT, goodDopSub s μ = true :=
      fun μ hμ => hshape μ (List.mem_cons_of_mem _ hμ)
    have hft : ∀ L, fdTree nn (.node l cs) L =
        (PT.node l cs).nsubt * (if l = L then 1 else 0) + fdSubL nn cs 0 L :=
      fun L => rfl
    rcases goodDopSub_cases s l cs hroot with ⟨i, hcl, hw⟩ | ⟨hne, hall⟩
    · rw [hcl]
      constructor
      · rw [nsubt_node, hcl]
        rfl
      · intro L
        show (if l ≠ l then bump (bump fd l 1) l 1 else bump fd l 1) L =
          fd L + fdTree nn (.node l cs) L
        rw [if_neg (fun hc => hc rfl), hft L, bump_apply]
        have hsub0 : fdSubL nn cs 0 L = 0 := by
          rw [fdSubL, subIdsL_eq_nil_of_toList_leaf cs _ hcl 0]
          rfl
        have hns : (PT.node l cs).nsubt = 1 := by
          rw [nsubt_node, hcl]
          rfl
        rw [hsub0, hns, one_mul, Nat.add_zero]
        by_cases h3 : L = l
        · rw [if_pos h3, if_pos h3.symm]
        · rw [if_neg h3, if_neg (fun he => h3 he.symm)]
          omega
    · cases hcl : cs.toList with
      | nil => exact absurd hcl hne
      | cons c0 rest =>
        have hc0 : c0.isNode = true :=
          hall c0 (by rw [hcl]; exact List.mem_cons_self _ _)
        cases c0 with
        | leaf v => exact Bool.noConfusion hc0
        | node l2 cs2 =>
          obtain ⟨hr1, hr2⟩ := nodefreqL_deco nn s cs 0 fd
            (bump (bump ntfd l 1) l 1) hsh_cs
          constructor
          · show (PTs.nodefreqL cs (PTs.decoL nn cs 0).1 fd
              (bump (bump ntfd l 1) l 1)).1 = (PT.node l cs).nsubt
            rw [hr1, nsubt_node, hcl]
            rfl
          · intro L
            show (if l ≠ l then
                bump (bump (PTs.nodefreqL cs (PTs.decoL nn cs 0).1 fd
                  (bump (bump ntfd l 1) l 1)).2.1 l
                  (PTs.nodefreqL cs (PTs.decoL nn cs 0).1 fd
                    (bump (bump ntfd l 1) l 1)).1) l
                  (PTs.nodefreqL cs (PTs.decoL nn cs 0).1 fd
                    (bump (bump ntfd l 1) l 1)).1
              else bump (PTs.nodefreqL cs (PTs.decoL nn cs 0).1 fd
                  (bump (bump ntfd l 1) l 1)).2.1 l
                  (PTs.nodefreqL cs (PTs.decoL nn cs 0).1 fd
                    (bump (bump ntfd l 1) l 1)).1) L =
              fd L + fdTree nn (.node l cs) L
            rw [if_neg (fun hc => hc rfl), bump_apply, hr1, hr2 L, hft L]
            have hns : (PT.node l cs).nsubt = cs.nsubtL := by
              rw [nsubt_node, hcl]
              rfl
            rw [hns]
            by_cases h3 : L = l
            · rw [if_pos h3, if_pos h3.symm]
              omega
            · rw [if_neg h3, if_neg (fun he => h3 he.symm)]
              omega

theorem treePairs_yf (nn : Nat) (s : Sent) (t : PT) :
    ∀ p ∈ treePairs nn s t, p.1.2 = p.2.2 := by
  cases t with
  | leaf v =>
    intro p hp
    exact absurd hp (List.not_mem_nil p)
  | node l cs =>
    intro p hp
    rcases List.mem_cons.mp hp with rfl | hp2
    · exact (decProd_yf nn s l 0 l cs).symm
    · obtain ⟨stc, hstc, rfl⟩ := List.mem_map.mp hp2
      have hn := subIdsL_isNode cs 0 stc hstc
      obtain ⟨ν, i⟩ := stc
      cases ν with
      | leaf v => exact Bool.noConfusion hn
      | node lν csν =>
        exact (decProd_yf nn s (decLabel lν nn i) (i + 1) lν csν).symm

theorem dopCollect_good : ∀ (trees : List PT) (sents : List Sent) (n : Nat)
    (fd ntfd : FD) (keys : List Prod') (gst : PGState),
    (∀ p ∈ trees.zip sents, goodDopTree p.1 p.2 = true) →
    ∃ fd' ntfd',
      dopCollect false n trees sents fd ntfd keys gst =
        (.ok (fd', ntfd', keys ++ keysCorpus n trees sents), gst) ∧
      ∀ L, fd' L = fd L + fdCorpus n trees sents L := by
  intro trees
  induction trees with
  | nil =>
    intro sents n fd ntfd keys gst hgood
    refine ⟨fd, ntfd, ?_, fun L => (Nat.add_zero (fd L)).symm⟩
    cases sents with
    | nil =>
      have hkc : keys ++ keysCorpus n [] ([] : List Sent) = keys :=
        List.append_nil keys
      rw [hkc]
      rfl
    | cons s ss =>
      have hkc : keys ++ keysCorpus n [] (s :: ss) = keys :=
        List.append_nil keys
      rw [hkc]
      rfl
  | cons t ts ih =>
    intro sents n fd ntfd keys gst hgood
    cases sents with
    | nil =>
      refine ⟨fd, ntfd, ?_, fun L => (Nat.add_zero (fd L)).symm⟩
      have hkc : keys ++ keysCorpus n (t :: ts) ([] : List Sent) = keys :=
        List.append_nil keys
      rw [hkc]
      rfl
    | cons s ss =>
      have hg1 : goodDopTree t s = true := by
        apply hgood (t, s)
        rw [List.zip_cons_cons]
        exact List.mem_cons_self _ _
      have hgood_ts : ∀ p ∈ ts.zip ss, goodDopTree p.1 p.2 = true := by
        intro p hp
        apply hgood p
        rw [List.zip_cons_cons]
        exact List.mem_cons_of_mem _ hp
      obtain ⟨_, hshape, hfree⟩ := goodDopTree_parts t s hg1
      obtain ⟨hprods, hu⟩ := tree_prods n t s hg1
      have hk := dopPairKeys_ok (treePairs n s t) (treePairs_yf n s t)
      obtain ⟨hn1, hn2⟩ := nodefreq_decorate n s t fd ntfd hshape
      have hstep : dopCollect false n (t :: ts) (s :: ss) fd ntfd keys gst =
          (match lcfrs_productions t s false with
           | .error e => (.error (.prodErr e), gst)
           | .ok prods =>
             match lcfrs_productions (decorate_with_ids n t) s false with
             | .error e => (.error (.prodErr e), gst)
             | .ok uprods =>
               match dopPairKeys prods uprods with
               | .error e => (.error e, gst)
               | .ok newkeys =>
                 dopCollect false (n + 1) ts ss
                   (nodefreqT t (decorate_with_ids n t) fd ntfd).2.1
                   (nodefreqT t (decorate_with_ids n t) fd ntfd).2.2
                   (keys ++ newkeys) gst) := rfl
      have hstep2 : dopCollect false n (t :: ts) (s :: ss) fd ntfd keys gst =
          dopCollect false (n + 1) ts ss
            (nodefreqT t (decorate_with_ids n t) fd ntfd).2.1
            (nodefreqT t (decorate_with_ids n t) fd ntfd).2.2
            (keys ++ (treePairs n s t).flatMap
              (fun ab => genKeysPair ab.1 ab.2)) gst := by
        rw [hstep, hprods, hu]
        show (match dopPairKeys ((treePairs n s t).map Prod.fst)
            ((treePairs n s t).map Prod.snd) with
          | .error e =>
            ((Except.error e : Except DopErr (FD × FD × List Prod')), gst)
          | .ok newkeys =>
            dopCollect false (n + 1) ts ss
              (nodefreqT t (decorate_with_ids n t) fd ntfd).2.1
              (nodefreqT t (decorate_with_ids n t) fd ntfd).2.2
              (keys ++ newkeys) gst) = _
        rw [hk]
      rw [hstep2]
      obtain ⟨fd', ntfd', heq, hfd'⟩ := ih ss (n + 1)
        (nodefreqT t (decorate_with_ids n t) fd ntfd).2.1
        (nodefreqT t (decorate_with_ids n t) fd ntfd).2.2
        (keys ++ (treePairs n s t).flatMap
          (fun ab => genKeysPair ab.1 ab.2)) gst hgood_ts
      refine ⟨fd', ntfd', ?_, ?_⟩
      · rw [heq]
        have hkc : keysCorpus n (t :: ts) (s :: ss) =
            treeKeys n s t ++ keysCorpus (n + 1) ts ss := rfl
        rw [hkc, treeKeys, List.append_assoc]
      · intro L
        rw [hfd' L, hn2 L]
        have hfc : fdCorpus n (t :: ts) (s :: ss) L =
            fdTree n t L + fdCorpus (n + 1) ts ss L := rfl
        rw [hfc]
        omega

theorem subIdsL_snd_nodup : ∀ (cs : PTs) (c : Nat),
    ((cs.subIdsL c).map Prod.snd).Nodup := by
  intro cs
  induction cs using PTs.rec
    (motive_1 := fun t => ∀ c, ((t.subIds c).map Prod.snd).Nodup) with
  | leaf v =>
    rename_i c
    exact List.nodup_nil
  | node l cs ih =>
    rename_i c
    show ((((PT.node l cs), c) :: cs.subIdsL (c + 1)).map Prod.snd).Nodup
    rw [List.map_cons]
    apply List.nodup_cons.mpr
    constructor
    · intro hmem
      obtain ⟨p, hp, hpe⟩ := List.mem_map.mp hmem
      have := (subIdsL_range cs (c + 1) p hp).1
      omega
    · exact ih (c + 1)
  | nil =>
    intro c
    exact List.nodup_nil
  | cons t ts iht ihts =>
    intro c
    show ((t.subIds c ++ ts.subIdsL (c + t.numNodes)).map Prod.snd).Nodup
    rw [List.map_append]
    apply List.Nodup.append (iht c) (ihts (c + t.numNodes))
    intro a ha hb
    obtain ⟨p, hp, rfl⟩ := List.mem_map.mp ha
    obtain ⟨q, hq, hqe⟩ := List.mem_map.mp hb
    have h1 := subIds_lt t c p hp
    have h2 := (subIdsL_range ts (c + t.numNodes) q hq).1
    omega

theorem sum_map_single {α : Type} (f : α → Nat) (p : α) :
    ∀ l : List α, l.Nodup → p ∈ l → (∀ q ∈ l, q ≠ p → f q = 0) →
      (l.map f).sum = f p := by
  intro l
  induction l with
  | nil =>
    intro _ hp _
    exact absurd hp (List.not_mem_nil p)
  | cons a t ih =>
    intro hnd hp hz
    obtain ⟨hna, hnt⟩ := List.nodup_cons.mp hnd
    rw [List.map_cons, List.sum_cons]
    rcases List.mem_cons.mp hp with rfl | hp2
    · have ht0 : (t.map f).sum = 0 := by
        apply List.sum_eq_zero
        intro x hx
        obtain ⟨q, hq, rfl⟩ := List.mem_map.mp hx
        exact hz q (List.mem_cons_of_mem _ hq)
          (fun he => hna (he ▸ hq))
      rw [ht0, Nat.add_zero]
    · have ha0 : f a = 0 := hz a (List.mem_cons_self _ _)
        (fun he => hna (he ▸ hp2))
      rw [ha0, Nat.zero_add]
      exact ih hnt hp2 (fun q hq => hz q (List.mem_cons_of_mem _ hq))

theorem fdTree_dec_ne (k : Nat) (t : PT)
    (hfree : ∀ μ ∈ t.subtreesPT, hasAt μ.labelOf = false)
    (x : String) (m i : Nat) (hx : hasAt x = false) (hne : m ≠ k) :
    fdTree k t (decLabel x m i) = 0 := by
  cases t with
  | leaf v => rfl
  | node l cs =>
    have hl : hasAt l = false := hfree _ (List.mem_cons_self _ _)
    have hft : fdTree k (.node l cs) (decLabel x m i) =
        (PT.node l cs).nsubt * (if l = decLabel x m i then 1 else 0) +
        fdSubL k cs 0 (decLabel x m i) := rfl
    rw [hft]
    have h1 : ¬ (l = decLabel x m i) := fun he =>
      Bool.noConfusion (hl.symm.trans (he ▸ hasAt_decLabel x m i))
    rw [if_neg h1, Nat.mul_zero, Nat.zero_add, fdSubL]
    apply List.sum_eq_zero
    intro v hv
    obtain ⟨q, hq, rfl⟩ := List.mem_map.mp hv
    have hqm : q.1 ∈ (PT.node l cs).subtreesPT := by
      apply List.mem_cons_of_mem
      rw [← subIdsL_fst cs 0]
      exact List.mem_map_of_mem Prod.fst hq
    have hqf : hasAt q.1.labelOf = false := hfree q.1 hqm
    rw [fdEntry]
    have h2 : ¬ (q.1.labelOf = decLabel x m i) := fun he =>
      Bool.noConfusion (hqf.symm.trans (he ▸ hasAt_decLabel x m i))
    have h3 : ¬ (decLabel q.1.labelOf k q.2 = decLabel x m i) := by
      intro he
      obtain ⟨_, hkm, _⟩ := decLabel_inj q.1.labelOf x k q.2 m i hqf hx he
      exact hne hkm.symm
    rw [if_neg h2, if_neg h3, Nat.add_zero, Nat.mul_zero]

theorem fdTree_dec_self (nn : Nat) (l : String) (cs : PTs)
    (hfree : ∀ μ ∈ (PT.node l cs).subtreesPT, hasAt μ.labelOf = false)
    (p : PT × Nat) (hp : p ∈ cs.subIdsL 0) :
    fdTree nn (.node l cs) (decLabel p.1.labelOf nn p.2) = p.1.nsubt := by
  have hl : hasAt l = false := hfree _ (List.mem_cons_self _ _)
  have hpm : p.1 ∈ (PT.node l cs).subtreesPT := by
    apply List.mem_cons_of_mem
    rw [← subIdsL_fst cs 0]
    exact List.mem_map_of_mem Prod.fst hp
  have hpf : hasAt p.1.labelOf = false := hfree p.1 hpm
  have hft : fdTree nn (.node l cs) (decLabel p.1.labelOf nn p.2) =
      (PT.node l cs).nsubt *
        (if l = decLabel p.1.labelOf nn p.2 then 1 else 0) +
      fdSubL nn cs 0 (decLabel p.1.labelOf nn p.2) := rfl
  rw [hft]
  have h1 : ¬ (l = decLabel p.1.labelOf nn p.2) := fun he =>
    Bool.noConfusion (hl.symm.trans (he ▸ hasAt_decLabel _ nn p.2))
  rw [if_neg h1, Nat.mul_zero, Nat.zero_add, fdSubL]
  have hnodup : (cs.subIdsL 0).Nodup :=
    (subIdsL_snd_nodup cs 0).of_map
  rw [sum_map_single (fdEntry nn (decLabel p.1.labelOf nn p.2)) p
    (cs.subIdsL 0) hnodup hp ?_]
  · rw [fdEntry]
    have h2 : ¬ (p.1.labelOf = decLabel p.1.labelOf nn p.2) := fun he =>
      Bool.noConfusion (hpf.symm.trans (he ▸ hasAt_decLabel _ nn p.2))
    rw [if_neg h2, if_pos rfl, Nat.zero_add, Nat.mul_one]
  · intro q hq hqp
    have hqm : q.1 ∈ (PT.node l cs).subtreesPT := by
      apply List.mem_cons_of_mem
      rw [← subIdsL_fst cs 0]
      exact List.mem_map_of_mem Prod.fst hq
    have hqf : hasAt q.1.labelOf = false := hfree q.1 hqm
    rw [fdEntry]
    have h2 : ¬ (q.1.labelOf = decLabel p.1.labelOf nn p.2) := fun he =>
      Bool.noConfusion (hqf.symm.trans (he ▸ hasAt_decLabel _ nn p.2))
    have h3 : ¬ (decLabel q.1.labelOf nn q.2 =
        decLabel p.1.labelOf nn p.2) := by
      intro he
      obtain ⟨hlab, _, hid⟩ :=
        decLabel_inj q.1.labelOf p.1.labelOf nn q.2 nn p.2 hqf hpf he
      exact hqp (subIdsL_id_inj cs 0 q hq p hp hid)
    rw [if_neg h2, if_neg h3, Nat.add_zero, Nat.mul_zero]

theorem entriesCorpus_idx : ∀ (trees : List PT) (sents : List Sent) (n : Nat),
    ∀ e ∈ entriesCorpus n trees sents, n ≤ e.1 := by
  intro trees
  induction trees with
  | nil =>
    intro sents n e he
    exact absurd he (List.not_mem_nil e)
  | cons t ts ih =>
    intro sents n e he
    cases sents with
    | nil => exact absurd he (List.not_mem_nil e)
    | cons s ss =>
      have hec : entriesCorpus n (t :: ts) (s :: ss) =
          (treeEntries t).map (fun p => (n, p)) ++
          entriesCorpus (n + 1) ts ss := rfl
      rw [hec] at he
      rcases List.mem_append.mp he with h | h
      · obtain ⟨p, hp, rfl⟩ := List.mem_map.mp h
        exact le_refl n
      · have := ih ss (n + 1) e h
        omega

theorem fdCorpus_zero_lt : ∀ (trees : List PT) (sents : List Sent) (n : Nat),
    (∀ p ∈ trees.zip sents, goodDopTree p.1 p.2 = true) →
    ∀ (x : String) (m i : Nat), hasAt x = false → m < n →
      fdCorpus n trees sents (decLabel x m i) = 0 := by
  intro trees
  induction trees with
  | nil =>
    intro sents n _ x m i _ _
    cases sents with
    | nil => rfl
    | cons s ss => rfl
  | cons t ts ih =>
    intro sents n hgood x m i hx hm
    cases sents with
    | nil => rfl
    | cons s ss =>
      have hg1 : goodDopTree t s = true := by
        apply hgood (t, s)
        rw [List.zip_cons_cons]
        exact List.mem_cons_self _ _
      have hgood_ts : ∀ p ∈ ts.zip ss, goodDopTree p.1 p.2 = true := by
        intro p hp
        apply hgood p
        rw [List.zip_cons_cons]
        exact List.mem_cons_of_mem _ hp
      obtain ⟨_, _, hfree⟩ := goodDopTree_parts t s hg1
      have hfc : fdCorpus n (t :: ts) (s :: ss) (decLabel x m i) =
          fdTree n t (decLabel x m i) +
          fdCorpus (n + 1) ts ss (decLabel x m i) := rfl
      rw [hfc, fdTree_dec_ne n t hfree x m i hx (by omega),
        ih ss (n + 1) hgood_ts x m i hx (by omega)]

theorem entriesCorpus_free : ∀ (trees : List PT) (sents : List Sent)
    (n : Nat),
    (∀ p ∈ trees.zip sents, goodDopTree p.1 p.2 = true) →
    ∀ e ∈ entriesCorpus n trees sents, hasAt e.2.1.labelOf = false := by
  intro trees
  induction trees with
  | nil =>
    intro sents n _ e he
    exact absurd he (List.not_mem_nil e)
  | cons t ts ih =>
    intro sents n hgood e he
    cases sents with
    | nil => exact absurd he (List.not_mem_nil e)
    | cons s ss =>
      have hg1 : goodDopTree t s = true := by
        apply hgood (t, s)
        rw [List.zip_cons_cons]
        exact List.mem_cons_self _ _
      have hgood_ts : ∀ p ∈ ts.zip ss, goodDopTree p.1 p.2 = true := by
        intro p hp
        apply hgood p
        rw [List.zip_cons_cons]
        exact List.mem_cons_of_mem _ hp
      obtain ⟨_, _, hfree⟩ := goodDopTree_parts t s hg1
      have hec : entriesCorpus n (t :: ts) (s :: ss) =
          (treeEntries t).map (fun p => (n, p)) ++
          entriesCorpus (n + 1) ts ss := rfl
      rw [hec] at he
      rcases List.mem_append.mp he with h | h
      · obtain ⟨p, hp, rfl⟩ := List.mem_map.mp h
        cases t with
        | leaf v => exact absurd hp (List.not_mem_nil p)
        | node l cs =>
          have hp2 : p ∈ cs.subIdsL 0 := hp
          apply hfree
          apply List.mem_cons_of_mem
          rw [← subIdsL_fst cs 0]
          exact List.mem_map_of_mem Prod.fst hp2
      · exact ih ss (n + 1) hgood_ts e h

theorem fdCorpus_entries : ∀ (trees : List PT) (sents : List Sent) (n : Nat),
    (∀ p ∈ trees.zip sents, goodDopTree p.1 p.2 = true) →
    ∀ e ∈ entriesCorpus n trees sents,
      fdCorpus n trees sents (decLabel e.2.1.labelOf e.1 e.2.2) =
        e.2.1.nsubt := by
  intro trees
  induction trees with
  | nil =>
    intro sents n _ e he
    exact absurd he (List.not_mem_nil e)
  | cons t ts ih =>
    intro sents n hgood e he
    cases sents with
    | nil => exact absurd he (List.not_mem_nil e)
    | cons s ss =>
      have hg1 : goodDopTree t s = true := by
        apply hgood (t, s)
        rw [List.zip_cons_cons]
        exact List.mem_cons_self _ _
      have hgood_ts : ∀ p ∈ ts.zip ss, goodDopTree p.1 p.2 = true := by
        intro p hp
        apply hgood p
        rw [List.zip_cons_cons]
        exact List.mem_cons_of_mem _ hp
      obtain ⟨_, _, hfree⟩ := goodDopTree_parts t s hg1
      have hec : entriesCorpus n (t :: ts) (s :: ss) =
          (treeEntries t).map (fun p => (n, p)) ++
          entriesCorpus (n + 1) ts ss := rfl
      have hfc : ∀ d, fdCorpus n (t :: ts) (s :: ss) d =
          fdTree n t d + fdCorpus (n + 1) ts ss d := fun d => rfl
      rw [hec] at he
      rcases List.mem_append.mp he with h | h
      · obtain ⟨p, hp, rfl⟩ := List.mem_map.mp h
        cases t with
        | leaf v => exact absurd hp (List.not_mem_nil p)
        | node l cs =>
          have hp2 : p ∈ cs.subIdsL 0 := hp
          have hpm : p.1 ∈ (PT.node l cs).subtreesPT := by
            apply List.mem_cons_of_mem
            rw [← subIdsL_fst cs 0]
            exact List.mem_map_of_mem Prod.fst hp2
          have hpf : hasAt p.1.labelOf = false := hfree p.1 hpm
          rw [hfc, fdTree_dec_self n l cs hfree p hp2,
            fdCorpus_zero_lt ts ss (n + 1) hgood_ts p.1.labelOf n p.2 hpf
              (by omega), Nat.add_zero]
      · have hidx := entriesCorpus_idx ts ss (n + 1) e h
        have hef : hasAt e.2.1.labelOf = false :=
          entriesCorpus_free ts ss (n + 1) hgood_ts e h
        rw [hfc, fdTree_dec_ne n t hfree e.2.1.labelOf e.1 e.2.2 hef
          (by omega), ih ss (n + 1) hgood_ts e h, Nat.zero_add]

theorem keysSum_corpus (fd : FD) : ∀ (trees : List PT) (sents : List Sent)
    (n : Nat) (L : String),
    (∀ p ∈ trees.zip sents, goodDopTree p.1 p.2 = true) →
    (∀ e ∈ entriesCorpus n trees sents,
      fd (decLabel e.2.1.labelOf e.1 e.2.2) = e.2.1.nsubt) →
    keysSum fd (keysCorpus n trees sents) L =
      (fdCorpus n trees sents L : ℚ) := by
  intro trees
  induction trees with
  | nil =>
    intro sents n L _ _
    cases sents with
    | nil =>
      show keysSum fd [] L = ((0 : Nat) : ℚ)
      rw [Nat.cast_zero]
      rfl
    | cons s ss =>
      show keysSum fd [] L = ((0 : Nat) : ℚ)
      rw [Nat.cast_zero]
      rfl
  | cons t ts ih =>
    intro sents n L hgood hfd
    cases sents with
    | nil =>
      show keysSum fd [] L = ((0 : Nat) : ℚ)
      rw [Nat.cast_zero]
      rfl
    | cons s ss =>
      have hg1 : goodDopTree t s = true := by
        apply hgood (t, s)
        rw [List.zip_cons_cons]
        exact List.mem_cons_self _ _
      have hgood_ts : ∀ p ∈ ts.zip ss, goodDopTree p.1 p.2 = true := by
        intro p hp
        apply hgood p
        rw [List.zip_cons_cons]
        exact List.mem_cons_of_mem _ hp
      obtain ⟨_, hshape, hfree⟩ := goodDopTree_parts t s hg1
      have hec : entriesCorpus n (t :: ts) (s :: ss) =
          (treeEntries t).map (fun p => (n, p)) ++
          entriesCorpus (n + 1) ts ss := rfl
      have hfd_ts : ∀ e ∈ entriesCorpus (n + 1) ts ss,
          fd (decLabel e.2.1.labelOf e.1 e.2.2) = e.2.1.nsubt := by
        intro e he
        apply hfd
        rw [hec]
        exact List.mem_append_right _ he
      have hke : keysCorpus n (t :: ts) (s :: ss) =
          treeKeys n s t ++ keysCorpus (n + 1) ts ss := rfl
      have hfc : fdCorpus n (t :: ts) (s :: ss) L =
          fdTree n t L + fdCorpus (n + 1) ts ss L := rfl
      rw [hke, keysSum_append, ih ss (n + 1) L hgood_ts hfd_ts, hfc,
        Nat.cast_add]
      have htree : keysSum fd (treeKeys n s t) L = (fdTree n t L : ℚ) := by
        cases t with
        | leaf v =>
          show keysSum fd [] L = ((0 : Nat) : ℚ)
          rw [Nat.cast_zero]
          rfl
        | node l cs =>
          apply keysSum_tree fd n s l cs L hfree hshape
          intro p hp
          have : fd (decLabel (n, p).2.1.labelOf (n, p).1 (n, p).2.2) =
              (n, p).2.1.nsubt := by
            apply hfd
            rw [hec]
            apply List.mem_append_left
            exact List.mem_map_of_mem (fun p => (n, p)) hp
          exact this
      rw [htree]

theorem treeKeys_head_pos (nn : Nat) (s : Sent) (t : PT)
    (hfree : ∀ μ ∈ t.subtreesPT, hasAt μ.labelOf = false)
    (hshape : ∀ μ ∈ t.subtreesPT, goodDopSub s μ = true) :
    ∀ k ∈ treeKeys nn s t, 1 ≤ fdTree nn t (headLab k.1) := by
  cases t with
  | leaf v =>
    intro k hk
    exact absurd hk (List.not_mem_nil k)
  | node l cs =>
    intro k hk
    have hgood : goodDopSub s (.node l cs) = true :=
      hshape _ (List.mem_cons_self _ _)
    have hft : fdTree nn (.node l cs) (headLab k.1) =
        (PT.node l cs).nsubt *
          (if l = headLab k.1 then 1 else 0) +
        fdSubL nn cs 0 (headLab k.1) := rfl
    rw [treeKeys_eq] at hk
    rcases List.mem_append.mp hk with hp | hb
    · obtain ⟨h, hs, hk1, hor, _⟩ := pairKeys_struct nn s l 0 l cs hgood k hp
      have hhead : headLab k.1 = l := by
        rw [hk1]
        rcases hor with rfl | rfl
        · rfl
        · rfl
      rw [hft, hhead, if_pos rfl, Nat.mul_one]
      have := nsubt_pos (.node l cs)
      omega
    · obtain ⟨p, hp, hkp⟩ := List.mem_flatMap.mp hb
      have hn := subIdsL_isNode cs 0 p hp
      obtain ⟨ν, i⟩ := p
      have hmem : ν ∈ cs.subtreesPT := by
        rw [← subIdsL_fst cs 0]
        exact List.mem_map_of_mem Prod.fst hp
      have hent : 1 ≤ fdEntry nn (headLab k.1) (ν, i) := by
        obtain ⟨h, hs, hk1, hor, _⟩ := entryKeys_struct nn s ν i hn
          (fun μ hμ => hfree μ
            (List.mem_cons_of_mem _ (subtreesPT_transL cs ν hmem μ hμ)))
          (hshape ν (List.mem_cons_of_mem _ hmem)) k hkp
        have hfe : fdEntry nn (headLab k.1) (ν, i) =
            ν.nsubt * ((if ν.labelOf = headLab k.1 then 1 else 0) +
              (if decLabel ν.labelOf nn i = headLab k.1 then 1 else 0)) := rfl
        rw [hfe]
        have hns := nsubt_pos ν
        rcases hor with rfl | rfl
        · rw [hk1]
          have hh : headLab (ν.labelOf :: hs) = ν.labelOf := rfl
          rw [hh, if_pos rfl]
          have hz : (0 : Nat) ≤ if decLabel ν.labelOf nn i = ν.labelOf
              then 1 else 0 := Nat.zero_le _
          exact Nat.le_trans hns (Nat.le_mul_of_pos_right _ (by omega))
        · rw [hk1]
          have hh : headLab (decLabel ν.labelOf nn i :: hs) =
              decLabel ν.labelOf nn i := rfl
          rw [hh, if_pos rfl]
          exact Nat.le_trans hns (Nat.le_mul_of_pos_right _ (by omega))
      have hsub : fdEntry nn (headLab k.1) (ν, i) ≤
          fdSubL nn cs 0 (headLab k.1) := by
        rw [fdSubL]
        exact List.single_le_sum (fun y _ => Nat.zero_le y) _
          (List.mem_map_of_mem (fdEntry nn (headLab k.1)) hp)
      rw [hft]
      omega

theorem keysCorpus_head_pos : ∀ (trees : List PT) (sents : List Sent)
    (n : Nat),
    (∀ p ∈ trees.zip sents, goodDopTree p.1 p.2 = true) →
    ∀ k ∈ keysCorpus n trees sents,
      1 ≤ fdCorpus n trees sents (headLab k.1) := by
  intro trees
  induction trees with
  | nil =>
    intro sents n _ k hk
    exact absurd hk (List.not_mem_nil k)
  | cons t ts ih =>
    intro sents n hgood k hk
    cases sents with
    | nil => exact absurd hk (List.not_mem_nil k)
    | cons s ss =>
      have hg1 : goodDopTree t s = true := by
        apply hgood (t, s)
        rw [List.zip_cons_cons]
        exact List.mem_cons_self _ _
      have hgood_ts : ∀ p ∈ ts.zip ss, goodDopTree p.1 p.2 = true := by
        intro p hp
        apply hgood p
        rw [List.zip_cons_cons]
        exact List.mem_cons_of_mem _ hp
      obtain ⟨_, hshape, hfree⟩ := goodDopTree_parts t s hg1
      have hke : keysCorpus n (t :: ts) (s :: ss) =
          treeKeys n s t ++ keysCorpus (n + 1) ts ss := rfl
      have hfc : fdCorpus n (t :: ts) (s :: ss) (headLab k.1) =
          fdTree n t (headLab k.1) +
          fdCorpus (n + 1) ts ss (headLab k.1) := rfl
      rw [hke] at hk
      rw [hfc]
      rcases List.mem_append.mp hk with hp | hb
      · have := treeKeys_head_pos n s t hfree hshape k hp
        omega
      · have := ih ss (n + 1) hgood_ts k hb
        omega

theorem rfe_sumW (fd : FD) (keys : List Prod') (L : String)
    (hcnt : ∀ k ∈ keys, k.1.any hasAt = true → keys.count k = 1)
    (hsum : keysSum fd keys L = (fd L : ℚ))
    (hpos : 0 < fd L) :
    sumW (((pyDedup keys).map (fun k => (k, keys.count k))).map (rfe fd))
      L = 1 := by
  rw [sumW, List.filter_map, List.map_map, List.filter_map, List.map_map]
  have hfun : ∀ k ∈ (pyDedup keys).filter
      (((fun e : Prod' × ℚ => decide (headLab e.1.1 = L)) ∘ rfe fd) ∘
        (fun k => (k, keys.count k))),
      (((fun e : Prod' × ℚ => e.2) ∘ rfe fd) ∘
        (fun k => (k, keys.count k))) k =
      ((keys.count k : ℚ) * prodG fd k) / (fd L : ℚ) := by
    intro k hk
    obtain ⟨hkd, hkL⟩ := List.mem_filter.mp hk
    have hhead : headLab k.1 = L := of_decide_eq_true hkL
    have hkk : k ∈ keys := (mem_pyDedup_iff keys k).mp hkd
    show ((if k.1.any hasAt then (1 : ℚ) else (keys.count k : ℚ)) *
        ((k.1.tail.filter hasAt).map (fun z => (fd z : ℚ))).prod) /
      (fd (headLab k.1) : ℚ) = _
    rw [hhead, prod_filter_hasAt]
    cases hany : k.1.any hasAt with
    | true =>
      rw [if_pos rfl, hcnt k hkk hany, Nat.cast_one]
      rfl
    | false =>
      rw [if_neg Bool.false_ne_true]
      rfl
  rw [List.map_congr_left hfun]
  have hdiv : (fun k => ((keys.count k : ℚ) * prodG fd k) / (fd L : ℚ)) =
      (fun x : ℚ => x / (fd L : ℚ)) ∘
        (fun k => (keys.count k : ℚ) * prodG fd k) := rfl
  rw [hdiv, ← List.map_map, sum_div_const, sum_filter_indicator]
  have hsw : ∀ k ∈ pyDedup keys,
      (if (((fun e : Prod' × ℚ => decide (headLab e.1.1 = L)) ∘ rfe fd) ∘
          (fun k => (k, keys.count k))) k = true
        then (keys.count k : ℚ) * prodG fd k else 0) =
      (keys.count k : ℚ) *
        (if (fun k : Prod' => decide (headLab k.1 = L)) k = true
          then prodG fd k else 0) := by
    intro k _
    show (if decide (headLab k.1 = L) = true
        then (keys.count k : ℚ) * prodG fd k else 0) =
      (keys.count k : ℚ) *
        (if decide (headLab k.1 = L) = true then prodG fd k else 0)
    by_cases hh : headLab k.1 = L
    · rw [if_pos (decide_eq_true hh), if_pos (decide_eq_true hh)]
    · have hd : decide (headLab k.1 = L) = false := decide_eq_false hh
      rw [hd, if_neg Bool.false_ne_true, if_neg Bool.false_ne_true,
        mul_zero]
  rw [List.map_congr_left hsw,
    count_weighted_sum (fun k : Prod' =>
      if (fun k : Prod' => decide (headLab k.1 = L)) k = true
        then prodG fd k else 0)
      keys (pyDedup keys) (pyDedup_nodup keys)
      (fun x hx => (mem_pyDedup_iff keys x).mpr hx),
    ← sum_filter_indicator]
  have hks : ((keys.filter (fun k : Prod' => decide (headLab k.1 = L))).map
      (prodG fd)).sum = keysSum fd keys L := rfl
  rw [hks, hsum]
  exact div_self (Nat.cast_ne_zero.mpr (by omega))

theorem count_pos_of_mem' {α : Type} [BEq α] [LawfulBEq α] (a : α) :
    ∀ l : List α, a ∈ l → 1 ≤ l.count a := by
  intro l
  induction l with
  | nil =>
    intro h
    exact absurd h (List.not_mem_nil a)
  | cons b t ih =>
    intro h
    rw [List.count_cons]
    rcases List.mem_cons.mp h with rfl | h2
    · rw [beq_self_eq_true, if_pos rfl]
      omega
    · have := ih h2
      omega

theorem dopreduction_rfe_norm (trees : List PT) (sents : List Sent)
    (hgood : ∀ p ∈ trees.zip sents, goodDopTree p.1 p.2 = true) :
    ∃ g : List (Prod' × ℚ),
      (dopreduction trees sents false false ⟨0, []⟩).1 = .ok g ∧
      ∀ L ∈ g.map (fun e => headLab e.1.1), sumW g L = 1 := by
  obtain ⟨fd', ntfd', heq, hfd'⟩ := dopCollect_good trees sents 0
    (fun _ => 0) (fun _ => 0) [] ⟨0, []⟩ hgood
  rw [List.nil_append] at heq
  have hfde : fd' = fdCorpus 0 trees sents :=
    funext (fun L => (hfd' L).trans (Nat.zero_add _))
  subst hfde
  refine ⟨(sortStable (fun x y => skLt (dopSortKey x.1) (dopSortKey y.1))
      ((pyDedup (keysCorpus 0 trees sents)).map
        (fun k => (k, (keysCorpus 0 trees sents).count k)))).map
      (rfe (fdCorpus 0 trees sents)), ?_, ?_⟩
  · unfold dopreduction
    rw [heq]
    rfl
  · intro L hL
    have hperm0 : List.Perm
        (sortStable (fun x y => skLt (dopSortKey x.1) (dopSortKey y.1))
          ((pyDedup (keysCorpus 0 trees sents)).map
            (fun k => (k, (keysCorpus 0 trees sents).count k))))
        ((pyDedup (keysCorpus 0 trees sents)).map
          (fun k => (k, (keysCorpus 0 trees sents).count k))) :=
      sortStable_perm _ _
    have hperm := hperm0.map (rfe (fdCorpus 0 trees sents))
    have hsw : sumW ((sortStable (fun x y => skLt (dopSortKey x.1)
        (dopSortKey y.1))
        ((pyDedup (keysCorpus 0 trees sents)).map
          (fun k => (k, (keysCorpus 0 trees sents).count k)))).map
        (rfe (fdCorpus 0 trees sents))) L =
        sumW (((pyDedup (keysCorpus 0 trees sents)).map
          (fun k => (k, (keysCorpus 0 trees sents).count k))).map
        (rfe (fdCorpus 0 trees sents))) L := by
      rw [sumW, sumW]
      exact ((hperm.filter _).map _).sum_eq
    rw [hsw]
    obtain ⟨e, he, hLe⟩ := List.mem_map.mp hL
    have he2 := hperm.mem_iff.mp he
    obtain ⟨it, hit, rfl⟩ := List.mem_map.mp he2
    obtain ⟨k, hkd, rfl⟩ := List.mem_map.mp hit
    have hhead : headLab k.1 = L := hLe
    have hkk : k ∈ keysCorpus 0 trees sents :=
      (mem_pyDedup_iff (keysCorpus 0 trees sents) k).mp hkd
    have hpos : 0 < fdCorpus 0 trees sents L := by
      have h1 := keysCorpus_head_pos trees sents 0 hgood k hkk
      rw [hhead] at h1
      omega
    have hcnt : ∀ k' ∈ keysCorpus 0 trees sents,
        k'.1.any hasAt = true → (keysCorpus 0 trees sents).count k' = 1 := by
      intro k' hk' hany
      have hle := keysCorpus_count trees sents 0 hgood k' hany
      have hge := count_pos_of_mem' k' (keysCorpus 0 trees sents) hk'
      omega
    have hsum : keysSum (fdCorpus 0 trees sents)
        (keysCorpus 0 trees sents) L =
        ((fdCorpus 0 trees sents L : ℕ) : ℚ) :=
      keysSum_corpus (fdCorpus 0 trees sents) trees sents 0 L hgood
        (fdCorpus_entries trees sents 0 hgood)
    exact rfe_sumW (fdCorpus 0 trees sents) (keysCorpus 0 trees sents) L
      hcnt hsum hpos

set_option maxHeartbeats 4000000 in
set_option synthInstance.maxHeartbeats 1000000 in
set_option maxRecDepth 8000 in
theorem eweExampleGrammar :
    grammarOf (dopreduction
        [PT.mkNode "S" [PT.mkNode "NP" [PT.idx 0], PT.mkNode "VP" [PT.idx 1]]]
        [[some "mary", some "walks"]] true false ⟨0, []⟩) =
      [((["S", "NP", "VP"], Yf.comps [[0, 1]]), 1/8),
        ((["S", "NP", "VP@0-1"], Yf.comps [[0, 1]]), 1/8),
        ((["S", "NP@0-0", "VP"], Yf.comps [[0, 1]]), 1/8),
        ((["S", "NP@0-0", "VP@0-1"], Yf.comps [[0, 1]]), 1/8),
        ((["NP", "Epsilon"], Yf.lex "mary"), 1),
        ((["NP@0-0", "Epsilon"], Yf.lex "mary"), 1),
        ((["VP", "Epsilon"], Yf.lex "walks"), 1),
        ((["VP@0-1", "Epsilon"], Yf.lex "walks"), 1)] := by
  norm_num +decide [grammarOf, dopreduction, dopCollect, lcfrs_productions,
    prodsLoop, prodOfSubtree, decorate_with_ids, PT.decoT, PTs.decoL, decLabel,
    nodefreqT, PTs.nodefreqL, dopPairKeys, genKeysPair, genLabels, genOptions,
    cartpi, cartpiRev, pyDedup, pyDedupAux, sortStable, insertStrict, skLt,
    dopSortKey, bodewe, headLab, hasAt, bump, PT.mkNode, PT.idx, PTs.ofList,
    PTs.toList, PT.leavesLV, PTs.leavesLV, PT.subtreesPT, PTs.subtreesPT,
    PT.labelOf, PT.isNode, sortedNodePairs, nodePairs, scanYF, scanGo,
    appendLast, List.count_cons, List.count_nil, List.lookup, Nat.repr,
    Nat.toDigits, Nat.toDigitsCore, Nat.digitChar]

set_option maxHeartbeats 4000000 in
set_option synthInstance.maxHeartbeats 1000000 in
set_option maxRecDepth 8000 in
theorem atLabelExampleGrammar :
    grammarOf (dopreduction
        [PT.mkNode "S" [PT.mkNode "X@0-0" [PT.idx 0],
          PT.mkNode "X@0-0" [PT.idx 1]]]
        [[some "a", some "b"]] false false ⟨0, []⟩) =
      [((["S", "X@0-0", "X@0-0"], Yf.comps [[0, 1]]), 1),
        ((["S", "X@0-0", "X@0-0@0-1"], Yf.comps [[0, 1]]), 1/2),
        ((["S", "X@0-0@0-0", "X@0-0"], Yf.comps [[0, 1]]), 1/2),
        ((["S", "X@0-0@0-0", "X@0-0@0-1"], Yf.comps [[0, 1]]), 1/4),
        ((["X@0-0", "Epsilon"], Yf.lex "a"), 1/2),
        ((["X@0-0@0-0", "Epsilon"], Yf.lex "a"), 1),
        ((["X@0-0", "Epsilon"], Yf.lex "b"), 1/2),
        ((["X@0-0@0-1", "Epsilon"], Yf.lex "b"), 1)] := by
  norm_num +decide [grammarOf, dopreduction, dopCollect, lcfrs_productions,
    prodsLoop, prodOfSubtree, decorate_with_ids, PT.decoT, PTs.decoL, decLabel,
    nodefreqT, PTs.nodefreqL, dopPairKeys, genKeysPair, genLabels, genOptions,
    cartpi, cartpiRev, pyDedup, pyDedupAux, sortStable, insertStrict, skLt,
    dopSortKey, rfe, headLab, hasAt, bump, PT.mkNode, PT.idx, PTs.ofList,
    PTs.toList, PT.leavesLV, PTs.leavesLV, PT.subtreesPT, PTs.subtreesPT,
    PT.labelOf, PT.isNode, sortedNodePairs, nodePairs, scanYF, scanGo,
    appendLast, List.count_cons, List.count_nil, List.lookup, Nat.repr,
    Nat.toDigits, Nat.toDigitsCore, Nat.digitChar]

set_option maxHeartbeats 4000000 in
set_option synthInstance.maxHeartbeats 1000000 in
set_option maxRecDepth 8000 in
theorem missingWordExampleGrammar :
    grammarOf (dopreduction
        [PT.mkNode "S" [PT.mkNode "NP" [PT.idx 0], PT.mkNode "NP" [PT.idx 1]]]
        [[none, some "b"]] false false ⟨0, []⟩) =
      [((["S", "NP", "NP"], Yf.comps [[0, 1]]), 1/4),
        ((["S", "NP", "NP@0-1"], Yf.comps [[0, 1]]), 1/4),
        ((["S", "NP@0-0", "NP"], Yf.comps [[0, 1]]), 1/4),
        ((["S", "NP@0-0", "NP@0-1"], Yf.comps [[0, 1]]), 1/4),
        ((["NP", "Epsilon"], Yf.lex "b"), 1/2),
        ((["NP@0-1", "Epsilon"], Yf.lex "b"), 1)] := by
  norm_num +decide [grammarOf, dopreduction, dopCollect, lcfrs_productions,
    prodsLoop, prodOfSubtree, decorate_with_ids, PT.decoT, PTs.decoL, decLabel,
    nodefreqT, PTs.nodefreqL, dopPairKeys, genKeysPair, genLabels, genOptions,
    cartpi, cartpiRev, pyDedup, pyDedupAux, sortStable, insertStrict, skLt,
    dopSortKey, rfe, headLab, hasAt, bump, PT.mkNode, PT.idx, PTs.ofList,
    PTs.toList, PT.leavesLV, PTs.leavesLV, PT.subtreesPT, PTs.subtreesPT,
    PT.labelOf, PT.isNode, sortedNodePairs, nodePairs, scanYF, scanGo,
    appendLast, List.count_cons, List.count_nil, List.lookup, Nat.repr,
    Nat.toDigits, Nat.toDigitsCore, Nat.digitChar]

set_option maxHeartbeats 4000000 in
set_option synthInstance.maxHeartbeats 1000000 in
set_option maxRecDepth 8000 in
theorem packedExampleGrammar :
    grammarOf (dopreduction
        [PT.mkNode "S" [PT.mkNode "NP" [PT.idx 0], PT.mkNode "VP" [PT.idx 1]],
          PT.mkNode "S" [PT.mkNode "NP" [PT.idx 0], PT.mkNode "VP" [PT.idx 1]]]
        [[some "mary", some "walks"], [some "mary", some "walks"]]
        false true ⟨0, []⟩) =
      [((["S", "NP", "VP"], Yf.comps [[0, 1]]), 1/4),
        ((["S", "NP", "(VP 1)@0-2"], Yf.comps [[0, 1]]), 1/4),
        ((["S", "(NP 0)@0-1", "VP"], Yf.comps [[0, 1]]), 1/4),
        ((["S", "(NP 0)@0-1", "(VP 1)@0-2"], Yf.comps [[0, 1]]), 1/2),
        ((["NP", "Epsilon"], Yf.lex "mary"), 1),
        ((["(NP 0)@0-1", "Epsilon"], Yf.lex "mary"), 1/2),
        ((["VP", "Epsilon"], Yf.lex "walks"), 1),
        ((["(VP 1)@0-2", "Epsilon"], Yf.lex "walks"), 1/2)] := by
  norm_num +decide [grammarOf, dopreduction, dopCollect, lcfrs_productions,
    prodsLoop, prodOfSubtree, decorate_with_ids_mem, recDec, recDecL,
    cacheLookup, eqtreeT, eqtreeL, PT.strPT, PTs.strL, cei, ceiL, decLabel,
    nodefreqT, PTs.nodefreqL, dopPairKeys, genKeysPair, genLabels, genOptions,
    cartpi, cartpiRev, pyDedup, pyDedupAux, sortStable, insertStrict, skLt,
    dopSortKey, rfe, headLab, hasAt, bump, PT.mkNode, PT.idx, PTs.ofList,
    PTs.toList, PT.leavesLV, PTs.leavesLV, PT.subtreesPT, PTs.subtreesPT,
    PT.labelOf, PT.isNode, sortedNodePairs, nodePairs, scanYF, scanGo,
    appendLast, List.count_cons, List.count_nil, List.lookup, Nat.repr,
    Nat.toDigits, Nat.toDigitsCore, Nat.digitChar]

/-- C1 (amended): the exact-rational weight normalization holds per
estimator as follows. (1) induce_plcfrs: whenever it returns a grammar,
for every LHS label occurring in that grammar the weights of the rules
sharing the LHS sum to exactly 1. (2) doubledop: the same, for every
fragment list whose accumulated weights are positive, and every flatten
function. (3) dopreduction WITHOUT the ewe option (relative-frequency
estimate) and WITHOUT the packed-graph option: the same, for every
corpus of well-formed trees -- trees accepted by lcfrs_productions
whose every node is either a proper preterminal over a present sentence
word or has only internal-node children, and whose labels are free of
the decoration marker. The ewe variant of dopreduction is excluded: it
fails to normalize even on such corpora, and so is the packed-graph
variant: its memoized decorated labels repeat across equal trees of the
corpus, so key counts double and normalization fails (c1_counterexample
covers both), as do ill-formed corpora under rfe. -/
theorem c1_estimator_normalization :
    (∀ (trees : List PT) (sents : List Sent) (g : List (Prod' × ℚ)),
      induce_plcfrs trees sents = .ok g →
      ∀ L ∈ g.map (fun e => headLab e.1.1), sumW g L = 1) ∧
    (∀ (α : Type) (inst : DecidableEq α) (fragments : List (α × FragVal))
      (flattenF : α → UniqueIDs String →
        (List Prod' × String) × UniqueIDs String) (ewe : Bool),
      (∀ e ∈ (ddLoop fragments flattenF ewe fragments [] []
        UniqueIDs.initU).1, 0 < e.2) →
      ∀ L ∈ (doubledop fragments flattenF ewe).1.map
        (fun e => headLab e.1.1),
        sumW (doubledop fragments flattenF ewe).1 L = 1) ∧
    (∀ (trees : List PT) (sents : List Sent),
      (∀ p ∈ trees.zip sents, goodDopTree p.1 p.2 = true) →
      ∃ g : List (Prod' × ℚ),
        (dopreduction trees sents false false ⟨0, []⟩).1 = .ok g ∧
        ∀ L ∈ g.map (fun e => headLab e.1.1), sumW g L = 1) := by
  refine ⟨induce_plcfrs_norm, ?_, dopreduction_rfe_norm⟩
  intro α inst fragments flattenF ewe hpos
  exact doubledop_norm fragments flattenF ewe hpos

theorem c1_estimator_normalization_witness :
    (∀ p ∈ ([PT.mkNode "S" [PT.mkNode "NP" [PT.idx 0],
        PT.mkNode "VP" [PT.idx 1]]].zip
          [([some "mary", some "walks"] : Sent)]),
      goodDopTree p.1 p.2 = true) ∧
    (∃ g : List (Prod' × ℚ),
      (dopreduction [PT.mkNode "S" [PT.mkNode "NP" [PT.idx 0],
          PT.mkNode "VP" [PT.idx 1]]] [[some "mary", some "walks"]]
        false false ⟨0, []⟩).1 = .ok g ∧
      ∀ L ∈ g.map (fun e => headLab e.1.1), sumW g L = 1) :=
  ⟨by decide, c1_estimator_normalization.2.2 _ _ (by decide)⟩

/-- C1 counterexample: four dopreduction grammars in which the weights
of the rules sharing an occurring LHS label do NOT sum to 1. With the
ewe option, on the well-formed corpus (S (NP 0) (VP 1)) / mary walks,
the four S-rules carry weight 1/8 each and sum to 1/2. Without ewe but
with the packed-graph option, on the well-formed marker-free corpus
holding that same tree and sentence TWICE, the cached decorated labels
of tree 0 are reused for tree 1, the decorated keys double, and the
four S-rules sum to 5/4. Without ewe and without packed graphs, on a
corpus whose labels already contain the decoration marker,
(S (X@0-0 0) (X@0-0 1)) / a b, the S-rules sum to 9/4; and on a corpus
whose sentence lacks the word under the first NP, (S (NP 0) (NP 1))
with second word b only, the NP-rules sum to 1/2. -/
theorem c1_counterexample :
    ("S" ∈ (grammarOf (dopreduction
        [PT.mkNode "S" [PT.mkNode "NP" [PT.idx 0], PT.mkNode "VP" [PT.idx 1]]]
        [[some "mary", some "walks"]] true false ⟨0, []⟩)).map
        (fun e => headLab e.1.1) ∧
      sumW (grammarOf (dopreduction
        [PT.mkNode "S" [PT.mkNode "NP" [PT.idx 0], PT.mkNode "VP" [PT.idx 1]]]
        [[some "mary", some "walks"]] true false ⟨0, []⟩)) "S" = 1/2) ∧
    ("S" ∈ (grammarOf (dopreduction
        [PT.mkNode "S" [PT.mkNode "NP" [PT.idx 0], PT.mkNode "VP" [PT.idx 1]],
          PT.mkNode "S" [PT.mkNode "NP" [PT.idx 0], PT.mkNode "VP" [PT.idx 1]]]
        [[some "mary", some "walks"], [some "mary", some "walks"]]
        false true ⟨0, []⟩)).map
        (fun e => headLab e.1.1) ∧
      sumW (grammarOf (dopreduction
        [PT.mkNode "S" [PT.mkNode "NP" [PT.idx 0], PT.mkNode "VP" [PT.idx 1]],
          PT.mkNode "S" [PT.mkNode "NP" [PT.idx 0], PT.mkNode "VP" [PT.idx 1]]]
        [[some "mary", some "walks"], [some "mary", some "walks"]]
        false true ⟨0, []⟩)) "S" = 5/4) ∧
    ("S" ∈ (grammarOf (dopreduction
        [PT.mkNode "S" [PT.mkNode "X@0-0" [PT.idx 0],
          PT.mkNode "X@0-0" [PT.idx 1]]]
        [[some "a", some "b"]] false false ⟨0, []⟩)).map
        (fun e => headLab e.1.1) ∧
      sumW (grammarOf (dopreduction
        [PT.mkNode "S" [PT.mkNode "X@0-0" [PT.idx 0],
          PT.mkNode "X@0-0" [PT.idx 1]]]
        [[some "a", some "b"]] false false ⟨0, []⟩)) "S" = 9/4) ∧
    ("NP" ∈ (grammarOf (dopreduction
        [PT.mkNode "S" [PT.mkNode "NP" [PT.idx 0], PT.mkNode "NP" [PT.idx 1]]]
        [[none, some "b"]] false false ⟨0, []⟩)).map
        (fun e => headLab e.1.1) ∧
      sumW (grammarOf (dopreduction
        [PT.mkNode "S" [PT.mkNode "NP" [PT.idx 0], PT.mkNode "NP" [PT.idx 1]]]
        [[none, some "b"]] false false ⟨0, []⟩)) "NP" = 1/2) ∧
    ((1 : ℚ)/2 ≠ 1 ∧ (9 : ℚ)/4 ≠ 1 ∧ (5 : ℚ)/4 ≠ 1) := by
  refine ⟨⟨?_, ?_⟩, ⟨?_, ?_⟩, ⟨?_, ?_⟩, ⟨?_, ?_⟩,
    by norm_num, by norm_num, by norm_num⟩
  · rw [eweExampleGrammar]
    simp
    exact Or.inl rfl
  · rw [eweExampleGrammar]
    norm_num +decide [sumW, headLab]
  · rw [packedExampleGrammar]
    simp
    exact Or.inl rfl
  · rw [packedExampleGrammar]
    norm_num +decide [sumW, headLab]
  · rw [atLabelExampleGrammar]
    simp
    exact Or.inl rfl
  · rw [atLabelExampleGrammar]
    norm_num +decide [sumW, headLab]
  · rw [missingWordExampleGrammar]
    simp
    exact Or.inr (Or.inr (Or.inr (Or.inr (Or.inl rfl))))
  · rw [missingWordExampleGrammar]
    norm_num +decide [sumW, headLab]
